import Mathlib

/-!
huji-rich: cell decomposition and rigid-wall ghost states

A shallow embedding of

* `source/3D/GeometryCommon/CellCalculations.cpp` (`SplitCell`, `CalculateCellDimensions`),
* `source/newtonian/two_dimensional/ghost_point_generators/RigidWallGenerator.cpp`
  (`ReverseNormalVelocity`, `RigidWallGenerator::operator()`, `GetGhostGradient`),
* `source/tessellation/voronoi_logger.cpp` (`BinLogger::output`, `BinLogger::read`),

and a model, from the specification, of the conservative refine and remove pass that
`source/newtonian/two_dimensional/amr.hpp` declares.

Conventions of the embedding.

* A C++ `double` is a number of a field, with exact arithmetic: there is no rounding and
  no NaN or infinity.  For the three-dimensional code, the file logger and the refine and
  remove pass the field is that of the rational numbers `ℚ`.  The rigid wall divides by
  the length `abs(normal)` of a vector, a square root, which need not be rational for
  rational coordinates; its types and functions are over any field `K`, so that the
  statements about it hold for the rational numbers, on which the examples are evaluated,
  and for the real numbers, in which every vector has a Euclidean length.
* The one place where the program divides by a value that can be zero and hands the
  quotient to its caller (`centerOfMass / volume`) is modelled by `Vector3D.divD`, whose
  result is `none` when the divisor is zero.  The divisor `considered.size()` of
  `SplitCell` is zero only for a cell without vertices, for which no tetrahedron is built
  (`SplitCell_nil_of_no_vertex`); the divisor `abs(normal)` of `ReverseNormalVelocity` is
  zero only for coincident mesh points, which the statements about velocities exclude.
* `size_t` is a natural number below `2 ^ 64`; the only subtraction on it, `size() - 1`,
  is `sizeSub1` and wraps around at zero.
* A call either returns a value (`Except.ok`) or stops with a `Fault`.
* A file is the list of its bytes; the bytes of an `int` and of a `double` are given by a
  `Representation`, a parameter of the functions that write and read files.
-/

set_option autoImplicit false

namespace HujiRich

/-! ## Outcomes -/

/-- Ways in which a call does not return normally. -/
inductive Fault where
  /-- A `std::vector` subscript outside the bounds of the vector (the C++ behaviour is
  undefined; the model stops the call there). -/
  | outOfRange
  /-- A `UniversalError` thrown to the caller. -/
  | universalError (msg : String)
  /-- The value of a variable is used that was never given one (the C++ behaviour is
  undefined). -/
  | uninitialised
  /-- An `int` product outside the range of `int` (the C++ behaviour is undefined). -/
  | signedOverflow
  /-- The exception (`std::length_error` or `std::bad_alloc`) of the constructor of a
  `std::vector` asked for more elements than `max_size()`. -/
  | allocation
deriving DecidableEq, Repr

/-! ## Three-dimensional vectors -/

/-- Type `Vector3D`: three `double` coordinates. -/
structure Vector3D where
  x : ℚ
  y : ℚ
  z : ℚ
deriving DecidableEq, Repr

namespace Vector3D

/-- Default constructor `Vector3D()`: the origin. -/
def zero : Vector3D := ⟨0, 0, 0⟩

/-- Componentwise sum, `operator+` and `operator+=`. -/
def add (a b : Vector3D) : Vector3D := ⟨a.x + b.x, a.y + b.y, a.z + b.z⟩

/-- Componentwise difference, `operator-`. -/
def sub (a b : Vector3D) : Vector3D := ⟨a.x - b.x, a.y - b.y, a.z - b.z⟩

/-- Product with a scalar, `operator*(Vector3D, double)`. -/
def smul (a : Vector3D) (d : ℚ) : Vector3D := ⟨a.x * d, a.y * d, a.z * d⟩

/-- Quotient by a scalar, `operator/(Vector3D, double)`, for a divisor known to be
non-zero at the call (`/ 4`, `/ considered.size()` on a cell that has a vertex). -/
def div (a : Vector3D) (d : ℚ) : Vector3D := ⟨a.x / d, a.y / d, a.z / d⟩

/-- Quotient by a scalar that may be zero: `none` stands for the vector of non-finite
doubles (NaN or infinity in every component) that IEEE division by zero produces. -/
def divD (a : Vector3D) (d : ℚ) : Option Vector3D :=
  if d = 0 then none else some (a.div d)

/-- Scalar product of two vectors. -/
def dot (a b : Vector3D) : ℚ := a.x * b.x + a.y * b.y + a.z * b.z

/-- Vector product of two vectors. -/
def cross (a b : Vector3D) : Vector3D :=
  ⟨a.y * b.z - a.z * b.y, a.z * b.x - a.x * b.z, a.x * b.y - a.y * b.x⟩

end Vector3D

/-- Modelled from the spec: `VectorRef` (`VectorRepository.hpp` is not among the sources)
is a handle into a vertex repository keyed by position, so two handles are equal exactly
when their positions are; the model identifies a handle with its position. -/
abbrev VectorRef := Vector3D

/-- Type `Face`: the ordered vertex handles of one face. -/
structure Face where
  vertices : List VectorRef
deriving DecidableEq, Repr

/-- Type `Tetrahedron`, built by `Tetrahedron(v0, v1, v2, v3)`. -/
structure Tetrahedron where
  v0 : VectorRef
  v1 : VectorRef
  v2 : VectorRef
  v3 : VectorRef
deriving DecidableEq, Repr

/-- Modelled from the spec: `Tetrahedron::volume()` (the class is not among the sources),
the absolute triple product `|(p1-p0) . ((p2-p0) x (p3-p0))| / 6`. -/
def Tetrahedron.volume (t : Tetrahedron) : ℚ :=
  |(t.v1.sub t.v0).dot ((t.v2.sub t.v0).cross (t.v3.sub t.v0))| / 6

/-- Modelled from the spec: `Tetrahedron::center()` (the class is not among the sources),
the mean of the four vertices. -/
def Tetrahedron.center (t : Tetrahedron) : Vector3D :=
  (((t.v0.add t.v1).add t.v2).add t.v3).div 4

/-! ## `SplitCell` -/

/-- The `size_t` value of `n - 1` for the size `n` of a vector: it wraps around to
`2 ^ 64 - 1` at `n = 0` (for `n < 2 ^ 64` this is `(n + (2 ^ 64 - 1)) % 2 ^ 64`). -/
def sizeSub1 (n : Nat) : Nat := if n = 0 then 2 ^ 64 - 1 else n - 1

/-- Locals of the first loop of `SplitCell`: the set `considered` (as the list of its
members, latest first), the running sum `center`, and `expectedNumTetrahedra`. -/
structure SplitCell.Scan where
  considered : List VectorRef
  center : Vector3D
  expectedNumTetrahedra : Nat
deriving DecidableEq, Repr

/-- Body of the inner loop of the first pass: a vertex already in `considered` is
skipped, a new one is inserted and added to `center`. -/
def SplitCell.visitVertex (s : SplitCell.Scan) (v : VectorRef) : SplitCell.Scan :=
  if v ∈ s.considered then s
  else { s with considered := v :: s.considered, center := s.center.add v }

/-- Body of the outer loop of the first pass, for one face. -/
def SplitCell.visitFace (s : SplitCell.Scan) (face : Face) : SplitCell.Scan :=
  face.vertices.foldl SplitCell.visitVertex
    { s with expectedNumTetrahedra :=
        (s.expectedNumTetrahedra + sizeSub1 face.vertices.length) % 2 ^ 64 }

/-- The first pass of `SplitCell` over the whole cell. -/
def SplitCell.scan (cell : List Face) : SplitCell.Scan :=
  cell.foldl SplitCell.visitFace ⟨[], Vector3D.zero, 0⟩

/-- The apex `center` after `center = center / (double)considered.size()`. -/
def SplitCell.center (cell : List Face) : Vector3D :=
  (SplitCell.scan cell).center.div ((SplitCell.scan cell).considered.length : ℚ)

/-- The loop `for (i = 1; i < bound; i++)` over one face, `todo` iterations before `i`
reaches the bound: each iteration reads `vertices[0]`, `vertices[i]`, `vertices[i + 1]`
and appends the tetrahedron built on them and on the apex. -/
def SplitCell.faceLoop (centerRef : VectorRef) (vertices : List VectorRef) :
    Nat → Nat → List Tetrahedron → Except Fault (List Tetrahedron)
  | 0, _, tetrahedra => .ok tetrahedra
  | todo + 1, i, tetrahedra =>
    match vertices[0]?, vertices[i]?, vertices[i + 1]? with
    | some a, some b, some c =>
      SplitCell.faceLoop centerRef vertices todo (i + 1)
        (tetrahedra ++ [⟨centerRef, a, b, c⟩])
    | _, _, _ => .error Fault.outOfRange

/-- The second pass of `SplitCell` for one face: `i` runs from `1` while
`i < face->vertices.size() - 1`, that is `sizeSub1 size - 1` times. -/
def SplitCell.splitFace (centerRef : VectorRef) (tetrahedra : List Tetrahedron)
    (face : Face) : Except Fault (List Tetrahedron) :=
  SplitCell.faceLoop centerRef face.vertices (sizeSub1 face.vertices.length - 1) 1
    tetrahedra

/-- The second pass over the faces in order. -/
def SplitCell.splitFaces (centerRef : VectorRef) :
    List Face → List Tetrahedron → Except Fault (List Tetrahedron)
  | [], tetrahedra => .ok tetrahedra
  | face :: rest, tetrahedra =>
    match SplitCell.splitFace centerRef tetrahedra face with
    | .ok tetrahedra' => SplitCell.splitFaces centerRef rest tetrahedra'
    | .error e => .error e

/-- Function `SplitCell(cell, tetrahedra)`: the second argument is the content of the
output vector before the call, the result its content afterwards. -/
def SplitCell (cell : List Face) (_tetrahedra : List Tetrahedron) :
    Except Fault (List Tetrahedron) :=
  let centerRef := SplitCell.center cell
  -- `tetrahedra.clear()` empties the vector; `reserve` does not change its content
  let tetrahedra : List Tetrahedron := []
  SplitCell.splitFaces centerRef cell tetrahedra

/-! ## `CalculateCellDimensions` -/

/-- The two output arguments of `CalculateCellDimensions` after the call. -/
structure CellDimensions where
  volume : ℚ
  /-- The value `none` is the non-finite quotient by a zero `volume`. -/
  centerOfMass : Option Vector3D
deriving DecidableEq, Repr

/-- The degeneracy threshold `1e-30`. -/
def degenerateVolume : ℚ := 1 / 10 ^ 30

/-- Body of the second loop of `CalculateCellDimensions`: a tetrahedron whose volume is
below the threshold is skipped, another adds `center() * volume()`. -/
def CalculateCellDimensions.accumulate (volume : Tetrahedron → ℚ)
    (center : Tetrahedron → Vector3D) (centerOfMass : Vector3D) (t : Tetrahedron) :
    Vector3D :=
  if volume t < degenerateVolume then centerOfMass
  else centerOfMass.add ((center t).smul (volume t))

/-- Function `CalculateCellDimensions(cell, volume, centerOfMass)`, over the two member
functions `Tetrahedron::volume` and `Tetrahedron::center` it calls. -/
def CalculateCellDimensionsWith (volume : Tetrahedron → ℚ)
    (center : Tetrahedron → Vector3D) (cell : List Face) : Except Fault CellDimensions :=
  match SplitCell cell [] with
  | .error e => .error e
  | .ok tetrahedra =>
    let total := tetrahedra.foldl (fun acc t => acc + volume t) 0
    let weighted :=
      tetrahedra.foldl (CalculateCellDimensions.accumulate volume center) Vector3D.zero
    .ok ⟨total, weighted.divD total⟩

/-- Function `CalculateCellDimensions` with the member functions of `Tetrahedron`. -/
def CalculateCellDimensions (cell : List Face) : Except Fault CellDimensions :=
  CalculateCellDimensionsWith Tetrahedron.volume Tetrahedron.center cell

/-! ## Vocabulary of the statements about cells -/

/-- The tetrahedra `(c, f[0], f[i], f[i+1])` for `i = 1 .. n_f - 2` of one face `f` with
`n_f` vertices, in increasing `i`. -/
def fanTetrahedra (c : VectorRef) (f : Face) : List Tetrahedron :=
  (List.range' 1 (f.vertices.length - 2)).map fun i =>
    ⟨c, f.vertices.getD 0 Vector3D.zero, f.vertices.getD i Vector3D.zero,
      f.vertices.getD (i + 1) Vector3D.zero⟩

/-- The distinct vertices of a cell, as a finite set of positions. -/
def cellVertices (cell : List Face) : Finset VectorRef :=
  (cell.flatMap Face.vertices).toFinset

/-- Invariant of the first pass of `SplitCell`: `considered` has no repetition and
`center` is the sum of its members. -/
def ScanInv (s : SplitCell.Scan) : Prop :=
  s.considered.Nodup ∧ s.center.x = (s.considered.map Vector3D.x).sum ∧
    s.center.y = (s.considered.map Vector3D.y).sum ∧
    s.center.z = (s.considered.map Vector3D.z).sum

/-- The tetrahedra that enter the centre-of-mass sum: those not below the threshold. -/
def weighedTetrahedra (volume : Tetrahedron → ℚ) (ts : List Tetrahedron) :
    List Tetrahedron :=
  ts.filter fun t => decide (degenerateVolume ≤ volume t)

/-- Equality of call outcomes is decidable. -/
instance instDecidableEqOutcome {α : Type} [DecidableEq α] :
    DecidableEq (Except Fault α) := fun a b =>
  match a, b with
  | .ok x, .ok y => if h : x = y then isTrue (by rw [h]) else isFalse (by simpa using h)
  | .error x, .error y =>
    if h : x = y then isTrue (by rw [h]) else isFalse (by simpa using h)
  | .ok _, .error _ => isFalse (by simp)
  | .error _, .ok _ => isFalse (by simp)

/-- A face of zero area: all its vertices are collinear or coincident, that is the
vector product of the differences of any three of them vanishes. -/
def ZeroArea (f : Face) : Prop :=
  ∀ a ∈ f.vertices, ∀ b ∈ f.vertices, ∀ c ∈ f.vertices,
    (b.sub a).cross (c.sub a) = Vector3D.zero

instance instDecidableZeroArea (f : Face) : Decidable (ZeroArea f) := by
  unfold ZeroArea
  infer_instance

/-! ## Two-dimensional vectors, cells and the tessellation interface -/

/-- Type `Vector2D`: two `double` coordinates, in the field `K` of the values of a
`double`. -/
structure Vector2D (K : Type) where
  x : K
  y : K
deriving DecidableEq, Repr

variable {K : Type} [Field K]

namespace Vector2D

/-- Componentwise difference, `operator-`. -/
def sub (a b : Vector2D K) : Vector2D K := ⟨a.x - b.x, a.y - b.y⟩

/-- Product of a scalar and a vector, `operator*(double, Vector2D)`. -/
def smul (d : K) (a : Vector2D K) : Vector2D K := ⟨d * a.x, d * a.y⟩

/-- Quotient by a scalar, `operator/(Vector2D, double)`.  For a zero divisor the program
obtains non-finite coordinates; the statements below are about non-zero divisors. -/
def div (a : Vector2D K) (d : K) : Vector2D K := ⟨a.x / d, a.y / d⟩

end Vector2D

/-- Function `ScalarProd` of two `Vector2D`. -/
def ScalarProd (a b : Vector2D K) : K := a.x * b.x + a.y * b.y

/-- Type `ComputationalCell`: the primitive state of one cell; `tracers` is the content of
the `flat_map<std::string, double>`, in key order. -/
structure ComputationalCell (K : Type) where
  density : K
  pressure : K
  velocity : Vector2D K
  tracers : List (String × K)
deriving DecidableEq, Repr

/-- Type `Edge`: the two end points and the indices of the two neighbouring mesh
points. -/
structure Edge (K : Type) where
  vertices : Vector2D K × Vector2D K
  neighbors : Int × Int
deriving DecidableEq, Repr

/-- The abstract class `Tessellation`, as the member functions that the embedded code
calls; indices and counts are `int`.  The last two members are used by `BinLogger` only
and default to a tessellation without edges. -/
structure Tessellation (K : Type) where
  GetPointNo : Int
  GetMeshPoint : Int → Vector2D K
  GetEdge : Int → Edge K
  GetOriginalIndex : Int → Int
  GetTotalSidesNumber : Int := 0
  GetCellEdges : Int → List Int := fun _ => []

/-- Conversion `static_cast<size_t>` of an `int`: the value modulo `2 ^ 64`. -/
def toSizeT (i : Int) : Nat := (i % 2 ^ 64).toNat

/-- Conversion `static_cast<int>` of a `size_t`: the value modulo `2 ^ 32`, read as a
signed 32-bit number. -/
def toInt (n : Nat) : Int := ((n : Int) + 2 ^ 31) % 2 ^ 32 - 2 ^ 31

/-! ## `boost::container::flat_map` keyed by `size_t` -/

/-- Member `insert` of a `flat_map`: the pair is placed at its position in key order,
unless the key is already present, in which case the map is left as it is. -/
def FlatMap.insert {α : Type} (k : Nat) (v : α) : List (Nat × α) → List (Nat × α)
  | [] => [(k, v)]
  | (k', v') :: rest =>
    if k < k' then (k, v) :: (k', v') :: rest
    else if k' < k then (k', v') :: FlatMap.insert k v rest
    else (k', v') :: rest

/-! ## `RigidWallGenerator` -/

/-- Function `ReverseNormalVelocity(cell, edge, index, tess)`: the result is the value of
`cell` after the call.  The first argument is the function `abs` of a `Vector2D`, its
Euclidean length, which is not among the sources. -/
def ReverseNormalVelocity (abs : Vector2D K → K) (cell : ComputationalCell K) (edge : Edge K)
    (index : Nat) (tess : Tessellation K) : ComputationalCell K :=
  let normal :=
    if index = 1 then
      (tess.GetMeshPoint edge.neighbors.1).sub (tess.GetMeshPoint edge.neighbors.2)
    else
      (tess.GetMeshPoint edge.neighbors.2).sub (tess.GetMeshPoint edge.neighbors.1)
  let normal := normal.div (abs normal)
  { cell with
    velocity := cell.velocity.sub (Vector2D.smul (2 * ScalarProd cell.velocity normal) normal) }

/-- The expression for `ghost_index` in the loop of `RigidWallGenerator::operator()`. -/
def RigidWallGenerator.ghostIndex (tess : Tessellation K) (ghost : Nat × Nat) : Nat :=
  if ghost.2 = 1 then toSizeT (tess.GetEdge (toInt ghost.1)).neighbors.1
  else toSizeT (tess.GetEdge (toInt ghost.1)).neighbors.2

/-- The index into `cells` of the cell that is copied in the reflecting branch. -/
def RigidWallGenerator.sourceIndex (tess : Tessellation K) (ghost : Nat × Nat) : Nat :=
  toSizeT (if ghost.2 = 2 then (tess.GetEdge (toInt ghost.1)).neighbors.1
    else (tess.GetEdge (toInt ghost.1)).neighbors.2)

/-- Body of the loop of `RigidWallGenerator::operator()` for the entry `ghost` of the
list of outer edges. -/
def RigidWallGenerator.step (abs : Vector2D K → K) (tess : Tessellation K)
    (cells : List (ComputationalCell K)) (res : List (Nat × ComputationalCell K))
    (ghost : Nat × Nat) : Except Fault (List (Nat × ComputationalCell K)) :=
  let edge := tess.GetEdge (toInt ghost.1)
  let ghost_index := RigidWallGenerator.ghostIndex tess ghost
  if tess.GetOriginalIndex (toInt ghost_index) < tess.GetPointNo then
    match cells[RigidWallGenerator.sourceIndex tess ghost]? with
    | none => .error Fault.outOfRange
    | some ctemp =>
      .ok (FlatMap.insert ghost_index (ReverseNormalVelocity abs ctemp edge ghost.2 tess) res)
  else
    match cells[ghost_index]? with
    | none => .error Fault.outOfRange
    | some c => .ok (FlatMap.insert ghost_index c res)

/-- The loop of `RigidWallGenerator::operator()` over the remaining outer edges. -/
def RigidWallGenerator.loop (abs : Vector2D K → K) (tess : Tessellation K)
    (cells : List (ComputationalCell K)) :
    List (Nat × Nat) → List (Nat × ComputationalCell K) →
      Except Fault (List (Nat × ComputationalCell K))
  | [], res => .ok res
  | ghost :: rest, res =>
    match RigidWallGenerator.step abs tess cells res ghost with
    | .ok res' => RigidWallGenerator.loop abs tess cells rest res'
    | .error e => .error e

/-- Member `RigidWallGenerator::operator()(tess, cells, time)`.  The first two arguments
are functions that are not among the sources: `abs` of a `Vector2D` and the member
`GetOuterEdgesIndeces` of the base class, which lists the outer edges as pairs of an
edge index and a side flag. -/
def RigidWallGenerator.call (abs : Vector2D K → K)
    (GetOuterEdgesIndeces : Tessellation K → List (Nat × Nat)) (tess : Tessellation K)
    (cells : List (ComputationalCell K)) (_time : K) :
    Except Fault (List (Nat × ComputationalCell K)) :=
  RigidWallGenerator.loop abs tess cells (GetOuterEdgesIndeces tess) []

/-- Member `RigidWallGenerator::GetGhostGradient`; the arguments `gradients`, `time` and
`edge` are unnamed in the source. -/
def RigidWallGenerator.GetGhostGradient (tess : Tessellation K)
    (cells : List (ComputationalCell K))
    (_gradients : List (ComputationalCell K × ComputationalCell K)) (ghost_index : Nat)
    (_time : K) (_edge : Edge K) : Except Fault (ComputationalCell K × ComputationalCell K) :=
  match cells[toSizeT (tess.GetOriginalIndex (toInt ghost_index))]? with
  | none => .error Fault.outOfRange
  | some c =>
    let cell : ComputationalCell K :=
      { density := 0, pressure := 0, velocity := ⟨0, 0⟩,
        tracers := c.tracers.map fun it => (it.1, 0) }
    .ok (cell, cell)

/-! ## Vocabulary of the statements about ghost states -/

/-- The outer edge `ghost` is given a reflected state: the original index of its ghost
index is below the number of points. -/
def RigidWallGenerator.Reflects (tess : Tessellation K) (ghost : Nat × Nat) : Prop :=
  tess.GetOriginalIndex (toInt (RigidWallGenerator.ghostIndex tess ghost)) < tess.GetPointNo

instance instDecidableReflects (tess : Tessellation K) (ghost : Nat × Nat) :
    Decidable (RigidWallGenerator.Reflects tess ghost) := by
  unfold RigidWallGenerator.Reflects
  infer_instance

/-- The subscript of `cells` that the loop body reads for `ghost` is inside the vector. -/
def RigidWallGenerator.InRange (tess : Tessellation K) (cells : List (ComputationalCell K))
    (ghost : Nat × Nat) : Prop :=
  if RigidWallGenerator.Reflects tess ghost then
    RigidWallGenerator.sourceIndex tess ghost < cells.length
  else RigidWallGenerator.ghostIndex tess ghost < cells.length

instance instDecidableInRange (tess : Tessellation K) (cells : List (ComputationalCell K))
    (ghost : Nat × Nat) : Decidable (RigidWallGenerator.InRange tess cells ghost) := by
  unfold RigidWallGenerator.InRange
  infer_instance

/-- The difference of the mesh points of the two neighbours of `edge`, from which
`ReverseNormalVelocity` takes the normal for the side flag `index`. -/
def neighborDifference (tess : Tessellation K) (edge : Edge K) (index : Nat) : Vector2D K :=
  if index = 1 then
    (tess.GetMeshPoint edge.neighbors.1).sub (tess.GetMeshPoint edge.neighbors.2)
  else
    (tess.GetMeshPoint edge.neighbors.2).sub (tess.GetMeshPoint edge.neighbors.1)

/-- The reflection `v - 2 (v . n) n` of a velocity `v` in the line with normal `n`. -/
def reflectVelocity (v n : Vector2D K) : Vector2D K :=
  ⟨v.x - 2 * (v.x * n.x + v.y * n.y) * n.x, v.y - 2 * (v.x * n.x + v.y * n.y) * n.y⟩

/-- Member `find` of a `flat_map`: the value stored under the key, if any. -/
def FlatMap.find {α : Type} (k : Nat) : List (Nat × α) → Option α
  | [] => none
  | (k', v) :: rest => if k = k' then some v else FlatMap.find k rest

/-- Invariant of a `flat_map`: the keys are strictly increasing. -/
def FlatMap.Sorted {α : Type} (m : List (Nat × α)) : Prop :=
  m.Pairwise fun a b => a.1 < b.1

/-- The state that the loop body of `RigidWallGenerator::operator()` computes for the
outer edge `ghost`, when the subscript of `cells` it reads is in range. -/
def RigidWallGenerator.ghostState (abs : Vector2D K → K) (tess : Tessellation K)
    (cells : List (ComputationalCell K)) (ghost : Nat × Nat) : Option (ComputationalCell K) :=
  if RigidWallGenerator.Reflects tess ghost then
    (cells[RigidWallGenerator.sourceIndex tess ghost]?).map fun ctemp =>
      ReverseNormalVelocity abs ctemp (tess.GetEdge (toInt ghost.1)) ghost.2 tess
  else cells[RigidWallGenerator.ghostIndex tess ghost]?

/-- The state computed for the first outer edge of the list whose ghost index is `k`. -/
def RigidWallGenerator.firstState (abs : Vector2D K → K) (tess : Tessellation K)
    (cells : List (ComputationalCell K)) (k : Nat) : List (Nat × Nat) → Option (ComputationalCell K)
  | [] => none
  | ghost :: rest =>
    if RigidWallGenerator.ghostIndex tess ghost = k then
      RigidWallGenerator.ghostState abs tess cells ghost
    else RigidWallGenerator.firstState abs tess cells k rest

/-! ## Example data for the statements about ghost states -/

/-- A length function for the examples: the square root of `x * x + y * y` where that is
a rational number. -/
def rationalLength (v : Vector2D ℚ) : ℚ := Rat.sqrt (v.x * v.x + v.y * v.y)

/-- A wall to the right of one cell: point `0` at the origin, its ghost `1` at `(2, 0)`,
and the edge between them with the ghost as first neighbour. -/
def wallTessellation : Tessellation ℚ where
  GetPointNo := 1
  GetMeshPoint := fun i => if i = 0 then ⟨0, 0⟩ else ⟨2, 0⟩
  GetEdge := fun _ => ⟨(⟨1, -1⟩, ⟨1, 1⟩), (1, 0)⟩
  GetOriginalIndex := fun i => if i = 1 then 0 else i

/-- Two cells at `(0, 0)` and `(2, -3)` that both have an edge with the ghost point `2`
at `(2, 0)`, the ghost being the first neighbour of both edges. -/
def cornerTessellation : Tessellation ℚ where
  GetPointNo := 2
  GetMeshPoint := fun i => if i = 0 then ⟨0, 0⟩ else if i = 1 then ⟨2, -3⟩ else ⟨2, 0⟩
  GetEdge := fun i =>
    if i = 0 then ⟨(⟨1, -1⟩, ⟨1, 1⟩), (2, 0)⟩ else ⟨(⟨1, -1⟩, ⟨3, -1⟩), (2, 1)⟩
  GetOriginalIndex := fun i => if i = 2 then 0 else i

/-- A wall across the diagonal, over any field of values: the point `0` at the origin and
its ghost `1` at `(1, 1)`, so that the distance of the two mesh points is the square root
of 2, which is not a rational number; the edge between them has the ghost as first
neighbour. -/
def diagonalTessellation : Tessellation K where
  GetPointNo := 1
  GetMeshPoint := fun i => if i = 0 then ⟨0, 0⟩ else ⟨1, 1⟩
  GetEdge := fun _ => ⟨(⟨1, 0⟩, ⟨0, 1⟩), (1, 0)⟩
  GetOriginalIndex := fun i => if i = 1 then 0 else i

/-! ## Boxes and tetrahedral cells -/

/-- The eight ways to list the corners `p, q, r, s` of a quadrilateral in cyclic order:
four starting corners, two directions. -/
def cyclicListings (quad : VectorRef × VectorRef × VectorRef × VectorRef) :
    List (List VectorRef) :=
  match quad with
  | (p, q, r, s) =>
    [[p, q, r, s], [q, r, s, p], [r, s, p, q], [s, p, q, r],
      [s, r, q, p], [r, q, p, s], [q, p, s, r], [p, s, r, q]]

/-- The six faces of the box `[0,a] x [0,b] x [0,c]`, each as its four corners in one
cyclic order. -/
def boxFaceCorners (a b c : ℚ) : List (VectorRef × VectorRef × VectorRef × VectorRef) :=
  [(⟨0, 0, 0⟩, ⟨a, 0, 0⟩, ⟨a, b, 0⟩, ⟨0, b, 0⟩),
    (⟨0, 0, c⟩, ⟨a, 0, c⟩, ⟨a, b, c⟩, ⟨0, b, c⟩),
    (⟨0, 0, 0⟩, ⟨a, 0, 0⟩, ⟨a, 0, c⟩, ⟨0, 0, c⟩),
    (⟨0, b, 0⟩, ⟨a, b, 0⟩, ⟨a, b, c⟩, ⟨0, b, c⟩),
    (⟨0, 0, 0⟩, ⟨0, b, 0⟩, ⟨0, b, c⟩, ⟨0, 0, c⟩),
    (⟨a, 0, 0⟩, ⟨a, b, 0⟩, ⟨a, b, c⟩, ⟨a, 0, c⟩)]

/-- The cell is the box `[0,a] x [0,b] x [0,c]`: its faces are, in some order, the six
faces of the box, each listing its four corners in some cyclic order. -/
def IsBoxCell (a b c : ℚ) (cell : List Face) : Prop :=
  ∃ cell' : List Face, cell.Perm cell' ∧
    List.Forall₂ (fun f quad => f.vertices ∈ cyclicListings quad) cell'
      (boxFaceCorners a b c)

/-- The six ways to list the three vertices of a triangle. -/
def triangleListings (tri : VectorRef × VectorRef × VectorRef) : List (List VectorRef) :=
  match tri with
  | (p, q, r) => [[p, q, r], [q, r, p], [r, p, q], [r, q, p], [q, p, r], [p, r, q]]

/-- The four faces of the tetrahedron with vertices `A, B, C, D`. -/
def tetrahedronFaceCorners (A B C D : VectorRef) :
    List (VectorRef × VectorRef × VectorRef) :=
  [(A, B, C), (A, B, D), (A, C, D), (B, C, D)]

/-- The cell is the tetrahedron with vertices `A, B, C, D`: its faces are, in some
order, the four triangles, each listing its three vertices in some order. -/
def IsTetrahedronCell (A B C D : VectorRef) (cell : List Face) : Prop :=
  ∃ cell' : List Face, cell.Perm cell' ∧
    List.Forall₂ (fun f tri => f.vertices ∈ triangleListings tri) cell'
      (tetrahedronFaceCorners A B C D)

/-- The triple product `(B - A) . ((C - A) x (D - A))`. -/
def tripleProduct (A B C D : Vector3D) : ℚ :=
  (B.sub A).dot ((C.sub A).cross (D.sub A))

/-- Sum of the volumes of the tetrahedra built on one face with apex `m`. -/
def faceVolume (m : VectorRef) (f : Face) : ℚ :=
  ((fanTetrahedra m f).map Tetrahedron.volume).sum

/-- Contribution of one face to a coordinate of the centre-of-mass sum: the sum of
`center() * volume()` over its tetrahedra that are not below the threshold. -/
def faceMoment (coord : Vector3D → ℚ) (m : VectorRef) (f : Face) : ℚ :=
  ((weighedTetrahedra Tetrahedron.volume (fanTetrahedra m f)).map
    fun t => coord t.center * t.volume).sum

/-- Volume and the three centre-of-mass contributions of one face. -/
def faceSummary (m : VectorRef) (f : Face) : ℚ × ℚ × ℚ × ℚ :=
  (faceVolume m f, faceMoment Vector3D.x m f, faceMoment Vector3D.y m f,
    faceMoment Vector3D.z m f)

/-- The eight corners of the box `[0,a] x [0,b] x [0,c]`. -/
def boxCorners (a b c : ℚ) : List VectorRef :=
  [⟨0, 0, 0⟩, ⟨a, 0, 0⟩, ⟨a, b, 0⟩, ⟨0, b, 0⟩, ⟨0, 0, c⟩, ⟨a, 0, c⟩, ⟨a, b, c⟩, ⟨0, b, c⟩]

/-- The unit cube: top face first, then bottom, front, back, left and right, with the
corners of the faces listed from various starting corners and in both directions. -/
def unitCube : List Face :=
  [⟨[⟨1, 1, 1⟩, ⟨0, 1, 1⟩, ⟨0, 0, 1⟩, ⟨1, 0, 1⟩]⟩,
    ⟨[⟨0, 0, 0⟩, ⟨1, 0, 0⟩, ⟨1, 1, 0⟩, ⟨0, 1, 0⟩]⟩,
    ⟨[⟨0, 0, 1⟩, ⟨1, 0, 1⟩, ⟨1, 0, 0⟩, ⟨0, 0, 0⟩]⟩,
    ⟨[⟨0, 1, 0⟩, ⟨1, 1, 0⟩, ⟨1, 1, 1⟩, ⟨0, 1, 1⟩]⟩,
    ⟨[⟨0, 1, 0⟩, ⟨0, 1, 1⟩, ⟨0, 0, 1⟩, ⟨0, 0, 0⟩]⟩,
    ⟨[⟨1, 0, 0⟩, ⟨1, 1, 0⟩, ⟨1, 1, 1⟩, ⟨1, 0, 1⟩]⟩]

/-- The unit tetrahedron `(0,0,0), (1,0,0), (0,1,0), (0,0,1)` as its four faces. -/
def unitTetrahedron : List Face :=
  [⟨[⟨1, 0, 0⟩, ⟨0, 1, 0⟩, ⟨0, 0, 1⟩]⟩,
    ⟨[⟨0, 0, 0⟩, ⟨1, 0, 0⟩, ⟨0, 1, 0⟩]⟩,
    ⟨[⟨0, 0, 0⟩, ⟨0, 0, 1⟩, ⟨1, 0, 0⟩]⟩,
    ⟨[⟨0, 1, 0⟩, ⟨0, 0, 0⟩, ⟨0, 0, 1⟩]⟩]

/-- One cell, point `0`, with an edge to the ghost point `2`, whose original index `1`
is not below the point count `1`; the vector of cells is taken to hold states for the
indices `0`, `1` and `2`. -/
def copiedGhostTessellation : Tessellation ℚ where
  GetPointNo := 1
  GetMeshPoint := fun i => if i = 0 then ⟨0, 0⟩ else ⟨2, 0⟩
  GetEdge := fun _ => ⟨(⟨1, -1⟩, ⟨1, 1⟩), (2, 0)⟩
  GetOriginalIndex := fun i => if i = 2 then 1 else i

/-- The part of `v` perpendicular to `n`: `v - (v . n) n`. -/
def perpendicularPart (v n : Vector2D K) : Vector2D K :=
  v.sub (Vector2D.smul (ScalarProd v n) n)

/-! ## `BinLogger` -/

/-- A byte of a file. -/
abbrev Byte := Fin 256

/-- Modelled from the spec: the object representation of `int` (4 bytes) and of `double`
(8 bytes, IEEE-754 in the program) on the machine, which the functions
`binary_write_single_int` and `binary_write_single_double` of `simple_io.hpp` (not among
the sources) write and which `istream::read` fills variables with. -/
structure Representation where
  intBytes : Int → List Byte
  doubleBytes : ℚ → List Byte
  intValue : List Byte → Int
  doubleValue : List Byte → ℚ

/-- The value of `sizeof(int)`. -/
def sizeofInt : Nat := 4

/-- The value of `sizeof(double)`. -/
def sizeofDouble : Nat := 8

/-- Modelled from the spec: `binary_write_single_int(n, fh)` appends the bytes of `n` to
the stream (`simple_io.hpp` is not among the sources). -/
def binary_write_single_int (rep : Representation) (n : Int) (fh : List Byte) :
    List Byte :=
  fh ++ rep.intBytes n

/-- Modelled from the spec: `binary_write_single_double(d, fh)` appends the bytes of `d`
to the stream (`simple_io.hpp` is not among the sources). -/
def binary_write_single_double (rep : Representation) (d : ℚ) (fh : List Byte) :
    List Byte :=
  fh ++ rep.doubleBytes d

/-- The loop `for (i = start; ...; ++i) body(i)` with `count` iterations left, on the
state `s`. -/
def forLoop {σ : Type} (body : Int → σ → σ) : Nat → Int → σ → σ
  | 0, _, s => s
  | count + 1, i, s => forLoop body count (i + 1) (body i s)

/-- The loop `for (int i = 0; i < n; ++i) body(i)`: `n` iterations for a positive `n`,
none otherwise. -/
def forInt {σ : Type} (n : Int) (body : Int → σ → σ) (s : σ) : σ :=
  forLoop body n.toNat 0 s

/-- Member `BinLogger::output(Tessellation const&)`: the content of the file after the
call, the file being opened (and emptied) by the constructor of `ofstream`. -/
def BinLogger.output (rep : Representation) (v : Tessellation ℚ) : List Byte :=
  let file_handle : List Byte := []
  let file_handle := binary_write_single_int rep v.GetTotalSidesNumber file_handle
  let file_handle := forInt v.GetTotalSidesNumber (fun i fh =>
    let edge := v.GetEdge i
    let fh := binary_write_single_double rep edge.vertices.1.x fh
    binary_write_single_double rep edge.vertices.2.x fh) file_handle
  let file_handle := forInt v.GetTotalSidesNumber (fun i fh =>
    let edge := v.GetEdge i
    let fh := binary_write_single_double rep edge.vertices.1.y fh
    binary_write_single_double rep edge.vertices.2.y fh) file_handle
  let file_handle := forInt v.GetTotalSidesNumber (fun i fh =>
    let edge := v.GetEdge i
    let fh := binary_write_single_int rep edge.neighbors.1 fh
    binary_write_single_int rep edge.neighbors.2 fh) file_handle
  let file_handle := binary_write_single_int rep v.GetPointNo file_handle
  let file_handle := forInt v.GetPointNo (fun i fh =>
    let fh := binary_write_single_double rep (v.GetMeshPoint i).x fh
    binary_write_single_double rep (v.GetMeshPoint i).y fh) file_handle
  let file_handle := forInt v.GetPointNo (fun i fh =>
    let indices := v.GetCellEdges i
    let fh := binary_write_single_int rep (toInt indices.length) fh
    -- `indices[(size_t)j]` with `0 <= j < (int)indices.size()` is inside the vector
    forInt (toInt indices.length) (fun j fh =>
      binary_write_single_int rep (indices.getD (toSizeT j) 0) fh) fh) file_handle
  file_handle

/-- State of an input `fstream`: the bytes not yet read, and whether the stream is still
good. -/
structure IStream where
  rest : List Byte
  good : Bool
deriving DecidableEq, Repr

/-- Member `istream::read(buffer, n)` for a buffer of `n` bytes that holds `old`: the
result is the content of the buffer and the state of the stream afterwards.  A stream
that is not good reads nothing; a stream with fewer than `n` bytes left stores those and
stops being good. -/
def IStream.read (s : IStream) (n : Nat) (old : List Byte) : List Byte × IStream :=
  if s.good then
    if n ≤ s.rest.length then (s.rest.take n, ⟨s.rest.drop n, true⟩)
    else (s.rest ++ old.drop s.rest.length, ⟨[], false⟩)
  else (old, s)

/-- The largest size a `std::vector<Vector2D>` can be constructed with: `max_size()` for
16-byte elements on a 64-bit platform. -/
def vectorMaxSize : Nat := (2 ^ 63 - 1) / 16

/-- The value of `N` after the first `myFile.read((char*)&N, sizeof (int))` of
`BinLogger::read`, for a file of at least `sizeof (int)` bytes. -/
def BinLogger.read.firstCount (rep : Representation) (content : List Byte) : Int :=
  rep.intValue ((IStream.read ⟨content, true⟩ sizeofInt []).1)

/-- The state of the stream of `BinLogger::read` after the loop that reads `N * 4`
values into `temp`. -/
def BinLogger.read.afterSkip (rep : Representation) (content : List Byte) : IStream :=
  forInt (BinLogger.read.firstCount rep content * 4)
    (fun _ myFile => (myFile.read sizeofDouble []).2)
    (IStream.read ⟨content, true⟩ sizeofInt []).2

/-- The value of `N` after the second `myFile.read((char*)&N, sizeof (int))` of
`BinLogger::read`. -/
def BinLogger.read.secondCount (rep : Representation) (content : List Byte) : Int :=
  rep.intValue (((BinLogger.read.afterSkip rep content).read sizeofInt
    ((IStream.read ⟨content, true⟩ sizeofInt []).1)).1)

/-- Body of the last loop of `BinLogger::read`: the reads into `res[i].x` and
`res[i].y`, which hold the bytes of `0.0` before (the vector is built of
default-constructed `Vector2D`, the origin). -/
def BinLogger.read.readPoint (rep : Representation) (i : Int)
    (state : List (Vector2D ℚ) × IStream) : List (Vector2D ℚ) × IStream :=
  let x := state.2.read sizeofDouble (rep.doubleBytes 0)
  let y := x.2.read sizeofDouble (rep.doubleBytes 0)
  (state.1.set (toSizeT i) ⟨rep.doubleValue x.1, rep.doubleValue y.1⟩, y.2)

/-- Member `BinLogger::read(location)`; the second argument is the content of the file at
`location`, or `none` when the file cannot be opened for reading. -/
def BinLogger.read (rep : Representation) (file : Option (List Byte)) :
    Except Fault (List (Vector2D ℚ)) :=
  match file with
  | none => .error (Fault.universalError "Error opening voronoi logger file!!")
  | some content =>
    -- `int N;` has no value unless the first read fills all its bytes
    if content.length < sizeofInt then .error Fault.uninitialised
    else
      let N := BinLogger.read.firstCount rep content
      if N * 4 < -(2 ^ 31) ∨ 2 ^ 31 ≤ N * 4 then .error Fault.signedOverflow
      else
        let myFile := BinLogger.read.afterSkip rep content
        let N := BinLogger.read.secondCount rep content
        if vectorMaxSize < toSizeT N then .error Fault.allocation
        else
          let res : List (Vector2D ℚ) := List.replicate (toSizeT N) ⟨0, 0⟩
          .ok (forLoop (BinLogger.read.readPoint rep) (toSizeT N) 0
            (res, ((myFile.read sizeofInt
              ((IStream.read ⟨content, true⟩ sizeofInt []).1)).2))).1

/-! ## Vocabulary of the statements about `BinLogger` -/

/-- One value written to the file. -/
inductive Item where
  | int (i : Int)
  | double (d : ℚ)
deriving DecidableEq, Repr

/-- The bytes of an item. -/
def Item.bytes (rep : Representation) : Item → List Byte
  | Item.int i => rep.intBytes i
  | Item.double d => rep.doubleBytes d

/-- The mesh points of a tessellation in index order. -/
def Tessellation.points (v : Tessellation ℚ) : List (Vector2D ℚ) :=
  (List.range v.GetPointNo.toNat).map fun i : Nat => v.GetMeshPoint i

/-- A representation for the examples: an `int` as its four bytes, lowest first, in
two's complement; a `double` as the `int` bytes of its numerator followed by those of its
denominator, which stands in for IEEE-754 on the small rationals of the examples. -/
def exampleRepresentation : Representation where
  intBytes := fun i =>
    [Fin.ofNat ((i % 2 ^ 32).toNat % 256), Fin.ofNat ((i % 2 ^ 32).toNat / 256 % 256),
      Fin.ofNat ((i % 2 ^ 32).toNat / 65536 % 256),
      Fin.ofNat ((i % 2 ^ 32).toNat / 16777216 % 256)]
  doubleBytes := fun d =>
    [Fin.ofNat ((d.num % 2 ^ 32).toNat % 256), Fin.ofNat ((d.num % 2 ^ 32).toNat / 256 % 256),
      Fin.ofNat ((d.num % 2 ^ 32).toNat / 65536 % 256),
      Fin.ofNat ((d.num % 2 ^ 32).toNat / 16777216 % 256),
      Fin.ofNat (d.den % 256), Fin.ofNat (d.den / 256 % 256),
      Fin.ofNat (d.den / 65536 % 256), Fin.ofNat (d.den / 16777216 % 256)]
  intValue := fun bs =>
    toInt (((bs.getD 0 0).val + 256 * (bs.getD 1 0).val + 65536 * (bs.getD 2 0).val +
      16777216 * (bs.getD 3 0).val))
  doubleValue := fun bs =>
    (toInt (((bs.getD 0 0).val + 256 * (bs.getD 1 0).val + 65536 * (bs.getD 2 0).val +
        16777216 * (bs.getD 3 0).val)) : ℚ) /
      (((bs.getD 4 0).val + 256 * (bs.getD 5 0).val + 65536 * (bs.getD 6 0).val +
        16777216 * (bs.getD 7 0).val : Nat) : ℚ)

/-- A tessellation with one edge, between the points `0` and `1`, and one point of its
own at `(3, 4)` whose edge list is `[0]`. -/
def oneEdgeTessellation : Tessellation ℚ where
  GetPointNo := 1
  GetMeshPoint := fun _ => ⟨3, 4⟩
  GetEdge := fun _ => ⟨(⟨1, -1⟩, ⟨1, 1⟩), (0, 1)⟩
  GetOriginalIndex := fun i => i
  GetTotalSidesNumber := 1
  GetCellEdges := fun _ => [0]

/-- A tessellation of two points without edges. -/
def noEdgeTessellation : Tessellation ℚ where
  GetPointNo := 2
  GetMeshPoint := fun i => if i = 0 then ⟨3, 4⟩ else ⟨-1, 1 / 2⟩
  GetEdge := fun _ => ⟨(⟨0, 0⟩, ⟨0, 0⟩), (0, 0)⟩
  GetOriginalIndex := fun i => i

/-! ## The conservative refine and remove pass

The header `amr.hpp` declares `ConservativeAMR::UpdateCellsRefine` and
`ConservativeAMR::UpdateCellsRemove`; their bodies are not among the sources.  The
definitions of this section follow the specification of the pass. -/

/-- Modelled from the spec: `Extensive` (`extensive.hpp` is not among the sources), the
conserved state of a cell: mass, momentum, energy and tracer masses. -/
structure Extensive where
  mass : ℚ
  momentum : Vector2D ℚ
  energy : ℚ
  tracers : List (String × ℚ)
deriving DecidableEq, Repr

namespace Extensive

/-- The conserved state of an empty region. -/
def zero : Extensive := ⟨0, ⟨0, 0⟩, 0, []⟩

/-- Sum of two conserved states; the tracer masses are added name by name, in the order
of the first state. -/
def add (a b : Extensive) : Extensive :=
  ⟨a.mass + b.mass, ⟨a.momentum.x + b.momentum.x, a.momentum.y + b.momentum.y⟩,
    a.energy + b.energy,
    a.tracers.map fun t => (t.1, t.2 + ((b.tracers.lookup t.1).getD 0))⟩

/-- The fraction `f` of a conserved state. -/
def scale (f : ℚ) (a : Extensive) : Extensive :=
  ⟨f * a.mass, ⟨f * a.momentum.x, f * a.momentum.y⟩, f * a.energy,
    a.tracers.map fun t => (t.1, f * t.2)⟩

/-- Difference of two conserved states. -/
def sub (a b : Extensive) : Extensive :=
  ⟨a.mass - b.mass, ⟨a.momentum.x - b.momentum.x, a.momentum.y - b.momentum.y⟩,
    a.energy - b.energy,
    a.tracers.map fun t => (t.1, t.2 - ((b.tracers.lookup t.1).getD 0))⟩

end Extensive

/-- Modelled from the spec: what a pass works on, "the tessellation, the per-point
primitive and conserved arrays"; of the tessellation the pass changes the point set, of
which the model keeps the number of points. -/
structure AMRState where
  pointCount : Nat
  cells : List (ComputationalCell ℚ)
  extensives : List Extensive

/-- Modelled from the spec: a new point that survived the placement, with "the source
cell(s)" of its conserved quantities and the "volume fraction" taken from each. -/
structure NewPoint where
  sources : List (Nat × ℚ)

/-- Modelled from the spec: the injected parts of the driver and the query it makes of
the tessellation.  `toRefine` stands for the refinement selector followed by the placement
of the new points; `toRemove` is the removal selector, which returns "(set of point
indices to remove, parallel merit scores)", the pair of vectors of
`CellsToRemove::ToRemove` in `amr.hpp`; `GetNeighbors` lists the points adjacent to a
point in the tessellation of a state; `toPrimitive` is the conversion of the conserved
state of a new cell to its primitive state. -/
structure AMRPolicy where
  toRefine : AMRState → List NewPoint
  toRemove : AMRState → List Nat × List ℚ
  GetNeighbors : AMRState → Nat → List Nat
  toPrimitive : Extensive → ComputationalCell ℚ

/-- Modelled from the spec: one source cell gives the fraction `source.2` of its
conserved quantities to the new cell ("summing contributions from the source cell(s)
weighted by volume fraction", "conserving total mass/momentum/energy across the
operation"). -/
def ConservativeAMR.takeFrom (state : List Extensive × Extensive) (source : Nat × ℚ) :
    List Extensive × Extensive :=
  match state.1[source.1]? with
  | none => state
  | some e =>
    (state.1.set source.1 (e.sub (e.scale source.2)), state.2.add (e.scale source.2))

/-- Modelled from the spec: the insertion of one new point: "a refine operation appends
new entries at newly inserted indices". -/
def ConservativeAMR.insertPoint (policy : AMRPolicy) (s : AMRState) (p : NewPoint) :
    AMRState :=
  let split := p.sources.foldl ConservativeAMR.takeFrom (s.extensives, Extensive.zero)
  { pointCount := s.pointCount + 1
    cells := s.cells ++ [policy.toPrimitive split.2]
    extensives := split.1 ++ [split.2] }

/-- Modelled from the spec: `ConservativeAMR::UpdateCellsRefine`, the refine phase of the
conservative variant. -/
def ConservativeAMR.UpdateCellsRefine (policy : AMRPolicy) (s : AMRState) : AMRState :=
  (policy.toRefine s).foldl (ConservativeAMR.insertPoint policy) s

/-- The entries of a list of pairs, with only the first entry of each index. -/
def firstEntries {α : Type} : List (Nat × α) → List (Nat × α)
  | [] => []
  | c :: rest => c :: (firstEntries rest).filter fun d => decide (d.1 ≠ c.1)

/-- Modelled from the spec: the removal candidates of a pass, the "set of point indices to
remove" with their "parallel merit scores": the pairs of an index and its merit, for the
indices that are points of the tessellation, each index once. -/
def ConservativeAMR.candidates (policy : AMRPolicy) (s : AMRState) : List (Nat × ℚ) :=
  firstEntries
    (((policy.toRemove s).1.zip (policy.toRemove s).2).filter fun c =>
      decide (c.1 < s.pointCount))

/-- Modelled from the spec: two candidates are "adjacent" when one of them is among the
neighbours of the other in the tessellation. -/
def ConservativeAMR.adjacent (policy : AMRPolicy) (s : AMRState) (i j : Nat) : Bool :=
  (policy.GetNeighbors s i).contains j || (policy.GetNeighbors s j).contains i

/-- Modelled from the spec: "conflicting pairs resolved by merit": "the candidate with the
lower merit in a conflicting pair is dropped from the removal set for that step". -/
def ConservativeAMR.resolveConflicts (policy : AMRPolicy) (s : AMRState)
    (candidates : List (Nat × ℚ)) : List (Nat × ℚ) :=
  candidates.filter fun c =>
    !(candidates.any fun d => ConservativeAMR.adjacent policy s c.1 d.1 && decide (c.2 < d.2))

/-- Modelled from the spec: the "designated surviving neighbor" of a cell to remove: the
first of its neighbours that is a point of the tessellation and is not in the removal
set. -/
def ConservativeAMR.designatedNeighbor (policy : AMRPolicy) (s : AMRState)
    (removalSet : List Nat) (r : Nat) : Option Nat :=
  (policy.GetNeighbors s r).find? fun n =>
    decide (n < s.pointCount) && !(removalSet.contains n)

/-- Modelled from the spec: the removals of a pass, each as the pair of the removed index
and of its designated surviving neighbour: the candidates that the resolution of
conflicts leaves, except those without a surviving neighbour, for which "the operation is
not attempted". -/
def ConservativeAMR.removals (policy : AMRPolicy) (s : AMRState) : List (Nat × Nat) :=
  let removalSet :=
    (ConservativeAMR.resolveConflicts policy s (ConservativeAMR.candidates policy s)).map
      Prod.fst
  removalSet.filterMap fun r =>
    (ConservativeAMR.designatedNeighbor policy s removalSet r).map fun n => (r, n)

/-- Modelled from the spec: the conservative variant "merges the removed cell's conserved
quantities into its designated surviving neighbor"; `removal` is the pair of the removed
index and of that neighbour. -/
def ConservativeAMR.mergeInto (extensives : List Extensive) (removal : Nat × Nat) :
    List Extensive :=
  match extensives[removal.1]?, extensives[removal.2]? with
  | some removed, some neighbor => extensives.set removal.2 (neighbor.add removed)
  | _, _ => extensives

/-- Modelled from the spec: "a removal operation erases entries at removed indices"; the
entries of `l` stand at the indices `i`, `i + 1`, and so on, and the survivors keep their
order. -/
def eraseIndices {α : Type} (removed : List Nat) : Nat → List α → List α
  | _, [] => []
  | i, a :: l =>
    if i ∈ removed then eraseIndices removed (i + 1) l
    else a :: eraseIndices removed (i + 1) l

/-- Modelled from the spec: `ConservativeAMR::UpdateCellsRemove`, the remove phase of the
conservative variant: the removal selector picks candidates with merits, conflicting
pairs are resolved by merit, the conserved quantities of the removed cells are merged
into their designated neighbours, then the removed indices are erased from the
tessellation and from both arrays. -/
def ConservativeAMR.UpdateCellsRemove (policy : AMRPolicy) (s : AMRState) : AMRState :=
  let removals := ConservativeAMR.removals policy s
  let merged := removals.foldl ConservativeAMR.mergeInto s.extensives
  let removed := removals.map Prod.fst
  { pointCount := (eraseIndices removed 0 (List.range s.pointCount)).length
    cells := eraseIndices removed 0 s.cells
    extensives := eraseIndices removed 0 merged }

/-- Sum over all cells of one conserved quantity. -/
def totalOf (quantity : Extensive → ℚ) (extensives : List Extensive) : ℚ :=
  (extensives.map quantity).sum

/-- A conserved quantity is additive over regions. -/
def IsAdditive (quantity : Extensive → ℚ) : Prop :=
  quantity Extensive.zero = 0 ∧
    (∀ a b, quantity (a.add b) = quantity a + quantity b) ∧
    (∀ a b, quantity (a.sub b) = quantity a - quantity b)

/-- The part of the sum of a quantity that stands at the indices of `removed`, for the
entries of `l` at the indices `i`, `i + 1`, and so on. -/
def removedTotal {α : Type} (quantity : α → ℚ) (removed : List Nat) : Nat → List α → ℚ
  | _, [] => 0
  | i, a :: l =>
    (if i ∈ removed then quantity a else 0) + removedTotal quantity removed (i + 1) l

/-- An example pass on points in a ring, each adjacent to the next one and to the one
before: the cell 0 is refined, half of its content going to the new cell; then the cells
1 and 2, which are adjacent, are candidates for removal with the merits 0.3 and 0.7, and
so are the index 2 once more and the index 9, which is no point. -/
def examplePolicy : AMRPolicy where
  toRefine := fun _ => [⟨[(0, 1 / 2)]⟩]
  toRemove := fun _ => ([1, 2, 2, 9], [3 / 10, 7 / 10, 1, 1])
  GetNeighbors := fun s i => [(i + 1) % s.pointCount, (i + s.pointCount - 1) % s.pointCount]
  toPrimitive := fun e => ⟨e.mass, 0, ⟨0, 0⟩, []⟩

/-- An example state of three cells. -/
def exampleAMRState : AMRState where
  pointCount := 3
  cells := [⟨4, 1, ⟨1 / 2, 0⟩, []⟩, ⟨6, 1, ⟨0, 1 / 3⟩, []⟩, ⟨5, 2, ⟨1, 1⟩, []⟩]
  extensives := [⟨4, ⟨2, 0⟩, 8, []⟩, ⟨6, ⟨0, 2⟩, 2, []⟩, ⟨5, ⟨5, 5⟩, 7, []⟩]

/-! ## Example data for the statement about the totality of `SplitCell` -/

/-- A cell of two faces for the statement about totality: a pentagon and a triangle that
share the edge from `(0, 0, 0)` to `(2, 0, 0)`. -/
def pentagonAndTriangle : List Face :=
  [⟨[⟨0, 0, 0⟩, ⟨2, 0, 0⟩, ⟨3, 2, 0⟩, ⟨1, 3, 0⟩, ⟨-1, 2, 0⟩]⟩,
    ⟨[⟨0, 0, 0⟩, ⟨2, 0, 0⟩, ⟨1, 1, 5⟩]⟩]

/-! # Theorems -/

/-! ## The second pass of `SplitCell` -/

theorem sizeSub1_eq_mod (n : Nat) (h : n < 2 ^ 64) :
    sizeSub1 n = (n + (2 ^ 64 - 1)) % 2 ^ 64 := by
  unfold sizeSub1
  split
  · subst_vars; rfl
  · omega

theorem faceLoop_ok (c : VectorRef) (vs : List VectorRef) :
    ∀ (todo i : Nat) (acc : List Tetrahedron), i + todo < vs.length ∨ todo = 0 →
      SplitCell.faceLoop c vs todo i acc =
        .ok (acc ++ (List.range' i todo).map fun j =>
          ⟨c, vs.getD 0 Vector3D.zero, vs.getD j Vector3D.zero,
            vs.getD (j + 1) Vector3D.zero⟩) := by
  intro todo
  induction todo with
  | zero => intro i acc _; simp [SplitCell.faceLoop]
  | succ k ih =>
    intro i acc h
    have h0 : 0 < vs.length := by omega
    have hi : i < vs.length := by omega
    have hi1 : i + 1 < vs.length := by omega
    rw [SplitCell.faceLoop]
    simp only [List.getElem?_eq_getElem h0, List.getElem?_eq_getElem hi,
      List.getElem?_eq_getElem hi1]
    rw [ih (i + 1) _ (by omega)]
    simp [List.range'_succ, List.getD_eq_getElem?_getD, List.getElem?_eq_getElem h0,
      List.getElem?_eq_getElem hi, List.getElem?_eq_getElem hi1]

theorem splitFace_ok (c : VectorRef) (acc : List Tetrahedron) (f : Face)
    (h : f.vertices ≠ []) :
    SplitCell.splitFace c acc f = .ok (acc ++ fanTetrahedra c f) := by
  have hl : 0 < f.vertices.length := List.length_pos.mpr h
  unfold SplitCell.splitFace fanTetrahedra
  have hs : sizeSub1 f.vertices.length - 1 = f.vertices.length - 2 := by
    unfold sizeSub1; split <;> omega
  rw [hs]
  exact faceLoop_ok c f.vertices _ 1 acc (by omega)

theorem splitFaces_ok (c : VectorRef) :
    ∀ (cell : List Face) (acc : List Tetrahedron), (∀ f ∈ cell, f.vertices ≠ []) →
      SplitCell.splitFaces c cell acc = .ok (acc ++ cell.flatMap (fanTetrahedra c)) := by
  intro cell
  induction cell with
  | nil => intro acc _; simp [SplitCell.splitFaces]
  | cons f rest ih =>
    intro acc h
    rw [SplitCell.splitFaces, splitFace_ok c acc f (h f (List.mem_cons_self _ _))]
    simp only
    rw [ih _ (fun g hg => h g (List.mem_cons_of_mem _ hg))]
    simp

theorem SplitCell_ok (cell : List Face) (old : List Tetrahedron)
    (h : ∀ f ∈ cell, f.vertices ≠ []) :
    SplitCell cell old = .ok (cell.flatMap (fanTetrahedra (SplitCell.center cell))) := by
  unfold SplitCell
  rw [splitFaces_ok _ cell [] h]
  simp

theorem ne_nil_of_three_le {α : Type} (l : List α) (h : 3 ≤ l.length) : l ≠ [] := by
  intro hl
  subst hl
  simp at h

/-- Every tetrahedron appended by the loop over one face has the given apex. -/
theorem faceLoop_apex (c : VectorRef) (vs : List VectorRef) :
    ∀ (todo i : Nat) (acc ts : List Tetrahedron),
      SplitCell.faceLoop c vs todo i acc = .ok ts → (∀ t ∈ acc, t.v0 = c) →
        ∀ t ∈ ts, t.v0 = c := by
  intro todo
  induction todo with
  | zero =>
    intro i acc ts h hacc
    simp only [SplitCell.faceLoop, Except.ok.injEq] at h
    rw [← h]; exact hacc
  | succ k ih =>
    intro i acc ts h hacc
    rw [SplitCell.faceLoop] at h
    split at h
    · refine ih _ _ _ h ?_
      intro t ht
      rcases List.mem_append.mp ht with ht | ht
      · exact hacc t ht
      · rw [List.mem_singleton.mp ht]
    · exact absurd h (by simp)

theorem splitFaces_apex (c : VectorRef) :
    ∀ (cell : List Face) (acc ts : List Tetrahedron),
      SplitCell.splitFaces c cell acc = .ok ts → (∀ t ∈ acc, t.v0 = c) →
        ∀ t ∈ ts, t.v0 = c := by
  intro cell
  induction cell with
  | nil =>
    intro acc ts h hacc
    simp only [SplitCell.splitFaces, Except.ok.injEq] at h
    rw [← h]; exact hacc
  | cons f rest ih =>
    intro acc ts h hacc
    rw [SplitCell.splitFaces] at h
    split at h
    · rename_i ts1 h1
      exact ih _ _ h (faceLoop_apex c f.vertices _ _ _ _ h1 hacc)
    · exact absurd h (by simp)

/-! ## The first pass of `SplitCell` -/

theorem visitVertex_inv (s : SplitCell.Scan) (v : VectorRef) (h : ScanInv s) :
    ScanInv (SplitCell.visitVertex s v) := by
  unfold SplitCell.visitVertex
  split
  · exact h
  · rename_i hv
    obtain ⟨h1, hx, hy, hz⟩ := h
    refine ⟨List.nodup_cons.mpr ⟨hv, h1⟩, ?_, ?_, ?_⟩ <;>
      simp [Vector3D.add, hx, hy, hz, add_comm]

theorem visitVertex_mem (s : SplitCell.Scan) (v w : VectorRef) :
    w ∈ (SplitCell.visitVertex s v).considered ↔ w ∈ s.considered ∨ w = v := by
  unfold SplitCell.visitVertex
  split
  · rename_i hv
    constructor
    · exact Or.inl
    · rintro (h | rfl)
      · exact h
      · exact hv
  · simp [or_comm]

theorem foldl_visitVertex_inv (l : List VectorRef) :
    ∀ s : SplitCell.Scan, ScanInv s → ScanInv (l.foldl SplitCell.visitVertex s) := by
  induction l with
  | nil => intro s h; exact h
  | cons v l ih => intro s h; exact ih _ (visitVertex_inv s v h)

theorem foldl_visitVertex_mem (l : List VectorRef) (w : VectorRef) :
    ∀ s : SplitCell.Scan,
      w ∈ (l.foldl SplitCell.visitVertex s).considered ↔ w ∈ s.considered ∨ w ∈ l := by
  induction l with
  | nil => intro s; simp
  | cons v l ih =>
    intro s
    rw [List.foldl_cons, ih, visitVertex_mem, List.mem_cons, or_assoc]

theorem visitFace_mem (s : SplitCell.Scan) (f : Face) (w : VectorRef) :
    w ∈ (SplitCell.visitFace s f).considered ↔ w ∈ s.considered ∨ w ∈ f.vertices := by
  unfold SplitCell.visitFace
  rw [foldl_visitVertex_mem]

theorem foldl_visitFace_inv (cell : List Face) :
    ∀ s : SplitCell.Scan, ScanInv s → ScanInv (cell.foldl SplitCell.visitFace s) := by
  induction cell with
  | nil => intro s h; exact h
  | cons f cell ih => intro s h; exact ih _ (foldl_visitVertex_inv _ _ h)

theorem foldl_visitFace_mem (cell : List Face) (w : VectorRef) :
    ∀ s : SplitCell.Scan,
      w ∈ (cell.foldl SplitCell.visitFace s).considered ↔
        w ∈ s.considered ∨ w ∈ cell.flatMap Face.vertices := by
  induction cell with
  | nil => intro s; simp
  | cons f cell ih =>
    intro s
    rw [List.foldl_cons, ih, visitFace_mem, List.flatMap_cons, List.mem_append, or_assoc]

theorem scan_inv (cell : List Face) : ScanInv (SplitCell.scan cell) :=
  foldl_visitFace_inv cell _ ⟨List.nodup_nil, rfl, rfl, rfl⟩

theorem scan_toFinset (cell : List Face) :
    (SplitCell.scan cell).considered.toFinset = cellVertices cell := by
  ext w
  simp [cellVertices, SplitCell.scan, foldl_visitFace_mem]

theorem center_eq_mean (cell : List Face) :
    SplitCell.center cell =
      ⟨(∑ v in cellVertices cell, v.x) / ((cellVertices cell).card : ℚ),
        (∑ v in cellVertices cell, v.y) / ((cellVertices cell).card : ℚ),
        (∑ v in cellVertices cell, v.z) / ((cellVertices cell).card : ℚ)⟩ := by
  obtain ⟨hn, hx, hy, hz⟩ := scan_inv cell
  rw [← scan_toFinset, List.sum_toFinset _ hn, List.sum_toFinset _ hn,
    List.sum_toFinset _ hn, List.toFinset_card_of_nodup hn, ← hx, ← hy, ← hz]
  rfl

theorem scan_mem (cell : List Face) (w : VectorRef) :
    w ∈ (SplitCell.scan cell).considered ↔ w ∈ cell.flatMap Face.vertices := by
  simp [SplitCell.scan, foldl_visitFace_mem]

/-- When the first pass has seen no vertex, so that `considered.size()` is zero,
`SplitCell` returns no tetrahedron: the quotient by zero is never used as an apex. -/
theorem SplitCell_nil_of_no_vertex (cell : List Face) (old ts : List Tetrahedron)
    (h0 : (SplitCell.scan cell).considered.length = 0)
    (h : SplitCell cell old = .ok ts) : ts = [] := by
  have hnil : (SplitCell.scan cell).considered = [] := List.length_eq_zero.mp h0
  have hempty : ∀ f ∈ cell, f.vertices = [] := by
    intro f hf
    cases hv : f.vertices with
    | nil => rfl
    | cons v vs =>
      have hmem : v ∈ (SplitCell.scan cell).considered :=
        (scan_mem cell v).mpr
          (List.mem_flatMap.mpr ⟨f, hf, by rw [hv]; exact List.mem_cons_self _ _⟩)
      rw [hnil] at hmem
      exact absurd hmem (List.not_mem_nil _)
  cases cell with
  | nil =>
    simp only [SplitCell, SplitCell.splitFaces, Except.ok.injEq] at h
    exact h.symm
  | cons f rest =>
    have hf := hempty f (List.mem_cons_self _ _)
    have hfault : SplitCell.splitFace (SplitCell.center (f :: rest)) [] f =
        .error Fault.outOfRange := by
      unfold SplitCell.splitFace
      rw [hf]
      rfl
    simp only [SplitCell, SplitCell.splitFaces, hfault] at h
    exact absurd h (by simp)

/-! ## `CalculateCellDimensions`: the two accumulation loops -/

theorem foldl_volume_eq_sum (volume : Tetrahedron → ℚ) (ts : List Tetrahedron) :
    ∀ a : ℚ, ts.foldl (fun acc t => acc + volume t) a = a + (ts.map volume).sum := by
  induction ts with
  | nil => intro a; simp
  | cons t ts ih => intro a; simp [ih, add_assoc]

theorem foldl_accumulate (volume : Tetrahedron → ℚ) (center : Tetrahedron → Vector3D)
    (ts : List Tetrahedron) :
    ∀ a : Vector3D,
      ts.foldl (CalculateCellDimensions.accumulate volume center) a =
        ⟨a.x + ((weighedTetrahedra volume ts).map fun t => (center t).x * volume t).sum,
          a.y + ((weighedTetrahedra volume ts).map fun t => (center t).y * volume t).sum,
          a.z + ((weighedTetrahedra volume ts).map fun t => (center t).z * volume t).sum⟩ := by
  induction ts with
  | nil => intro a; simp [weighedTetrahedra]
  | cons t ts ih =>
    intro a
    rw [List.foldl_cons, ih]
    unfold CalculateCellDimensions.accumulate weighedTetrahedra
    by_cases h : volume t < degenerateVolume
    · have h' : ¬ degenerateVolume ≤ volume t := not_le.mpr h
      simp [h, h', List.filter_cons]
    · have h' : degenerateVolume ≤ volume t := not_lt.mp h
      simp [h, h', List.filter_cons, Vector3D.add, Vector3D.smul, add_assoc]

theorem CalculateCellDimensionsWith_ok (volume : Tetrahedron → ℚ)
    (center : Tetrahedron → Vector3D) (cell : List Face) (ts : List Tetrahedron)
    (hs : SplitCell cell [] = .ok ts) :
    CalculateCellDimensionsWith volume center cell =
      .ok ⟨(ts.map volume).sum,
        Vector3D.divD
          ⟨((weighedTetrahedra volume ts).map fun t => (center t).x * volume t).sum,
            ((weighedTetrahedra volume ts).map fun t => (center t).y * volume t).sum,
            ((weighedTetrahedra volume ts).map fun t => (center t).z * volume t).sum⟩
          (ts.map volume).sum⟩ := by
  unfold CalculateCellDimensionsWith
  rw [hs]
  simp only [foldl_volume_eq_sum, foldl_accumulate, Vector3D.zero, zero_add]

/-! ## Claims about `SplitCell` and `CalculateCellDimensions` -/

/-- C1: for every cell in which every face has at least 3 vertices, `SplitCell` returns
exactly the tetrahedra `(c, f[0], f[i], f[i+1])`, `i = 1 .. n_f - 2`, of each face `f`,
in face order and then in increasing `i`, where `c` is the cell centre; the previous
content of the output vector does not appear in the result. -/
theorem splitCell_outputs_fans (cell : List Face) (old : List Tetrahedron)
    (h : ∀ f ∈ cell, 3 ≤ f.vertices.length) :
    SplitCell cell old = .ok (cell.flatMap (fanTetrahedra (SplitCell.center cell))) :=
  SplitCell_ok cell old fun f hf => ne_nil_of_three_le _ (h f hf)

/-- Instance of C1: a quadrilateral and a triangle, with one tetrahedron already in the
output vector. -/
theorem splitCell_outputs_fans_witness :
    (∀ f ∈ [Face.mk [⟨0, 0, 0⟩, ⟨3, 0, 0⟩, ⟨3, 3, 0⟩, ⟨0, 3, 0⟩],
        Face.mk [⟨0, 0, 0⟩, ⟨3, 0, 0⟩, ⟨0, 0, 6⟩]], 3 ≤ f.vertices.length) ∧
      SplitCell
          [Face.mk [⟨0, 0, 0⟩, ⟨3, 0, 0⟩, ⟨3, 3, 0⟩, ⟨0, 3, 0⟩],
            Face.mk [⟨0, 0, 0⟩, ⟨3, 0, 0⟩, ⟨0, 0, 6⟩]]
          [⟨⟨9, 9, 9⟩, ⟨9, 9, 9⟩, ⟨9, 9, 9⟩, ⟨9, 9, 9⟩⟩] =
        .ok [⟨⟨6 / 5, 6 / 5, 6 / 5⟩, ⟨0, 0, 0⟩, ⟨3, 0, 0⟩, ⟨3, 3, 0⟩⟩,
          ⟨⟨6 / 5, 6 / 5, 6 / 5⟩, ⟨0, 0, 0⟩, ⟨3, 3, 0⟩, ⟨0, 3, 0⟩⟩,
          ⟨⟨6 / 5, 6 / 5, 6 / 5⟩, ⟨0, 0, 0⟩, ⟨3, 0, 0⟩, ⟨0, 0, 6⟩⟩] :=
  ⟨by decide, (splitCell_outputs_fans _ _ (by decide)).trans (by decide!)⟩

/-- C2: the apex of every tetrahedron that `SplitCell` returns is the centre `c`, and `c`
is the unweighted mean of the distinct vertices of the cell: the sum over the set of
distinct vertex positions divided by the number of its members, whatever the number of
faces that list a vertex and of its occurrences inside one face. -/
theorem splitCell_apex_is_mean (cell : List Face) (old ts : List Tetrahedron)
    (t : Tetrahedron) (h : SplitCell cell old = .ok ts) (ht : t ∈ ts) :
    t.v0 = SplitCell.center cell ∧
      SplitCell.center cell =
        ⟨(∑ v in cellVertices cell, v.x) / ((cellVertices cell).card : ℚ),
          (∑ v in cellVertices cell, v.y) / ((cellVertices cell).card : ℚ),
          (∑ v in cellVertices cell, v.z) / ((cellVertices cell).card : ℚ)⟩ :=
  ⟨splitFaces_apex _ cell [] ts h (fun _ hx => absurd hx (List.not_mem_nil _)) t ht,
    center_eq_mean cell⟩

/-- Instance of C2: two faces that share two of four vertices, one of them listing a
vertex twice; the apex is the mean `(1, 1, 1)` of the four distinct vertices. -/
theorem splitCell_apex_is_mean_witness :
    SplitCell
          [Face.mk [⟨0, 0, 0⟩, ⟨4, 0, 0⟩, ⟨0, 4, 0⟩],
            Face.mk [⟨0, 0, 0⟩, ⟨0, 4, 0⟩, ⟨0, 0, 4⟩, ⟨0, 0, 4⟩]] [] =
        .ok [⟨⟨1, 1, 1⟩, ⟨0, 0, 0⟩, ⟨4, 0, 0⟩, ⟨0, 4, 0⟩⟩,
          ⟨⟨1, 1, 1⟩, ⟨0, 0, 0⟩, ⟨0, 4, 0⟩, ⟨0, 0, 4⟩⟩,
          ⟨⟨1, 1, 1⟩, ⟨0, 0, 0⟩, ⟨0, 0, 4⟩, ⟨0, 0, 4⟩⟩] ∧
      (⟨1, 1, 1⟩ : Vector3D) =
        SplitCell.center
          [Face.mk [⟨0, 0, 0⟩, ⟨4, 0, 0⟩, ⟨0, 4, 0⟩],
            Face.mk [⟨0, 0, 0⟩, ⟨0, 4, 0⟩, ⟨0, 0, 4⟩, ⟨0, 0, 4⟩]] :=
  ⟨by decide!,
    (splitCell_apex_is_mean
      [Face.mk [⟨0, 0, 0⟩, ⟨4, 0, 0⟩, ⟨0, 4, 0⟩],
        Face.mk [⟨0, 0, 0⟩, ⟨0, 4, 0⟩, ⟨0, 0, 4⟩, ⟨0, 0, 4⟩]] []
      [⟨⟨1, 1, 1⟩, ⟨0, 0, 0⟩, ⟨4, 0, 0⟩, ⟨0, 4, 0⟩⟩,
        ⟨⟨1, 1, 1⟩, ⟨0, 0, 0⟩, ⟨0, 4, 0⟩, ⟨0, 0, 4⟩⟩,
        ⟨⟨1, 1, 1⟩, ⟨0, 0, 0⟩, ⟨0, 0, 4⟩, ⟨0, 0, 4⟩⟩]
      ⟨⟨1, 1, 1⟩, ⟨0, 0, 0⟩, ⟨4, 0, 0⟩, ⟨0, 4, 0⟩⟩ (by decide!) (by decide!)).1⟩

/-- C3: for every cell, `CalculateCellDimensions` returns exactly when `SplitCell` does,
and `volume` is then the sum of `volume()` over all the tetrahedra `SplitCell` produced,
those below the threshold `1e-30` included; this holds for any member functions
`volume()` and `center()`. -/
theorem calculateCellDimensions_volume_is_sum (volume : Tetrahedron → ℚ)
    (center : Tetrahedron → Vector3D) (cell : List Face) :
    (CalculateCellDimensionsWith volume center cell).map CellDimensions.volume =
      (SplitCell cell []).map fun ts => (ts.map volume).sum := by
  cases hs : SplitCell cell [] with
  | error e => simp [CalculateCellDimensionsWith, hs, Except.map]
  | ok ts => rw [CalculateCellDimensionsWith_ok volume center cell ts hs]; rfl

/-- C4: for every cell whose total volume is not zero, `centerOfMass` is the sum of
`center() * volume()` over the tetrahedra whose volume is at least `1e-30`, divided by
the total volume of all tetrahedra; a tetrahedron below `1e-30` (a negative volume
included) is absent from the numerator. -/
theorem calculateCellDimensions_centerOfMass (volume : Tetrahedron → ℚ)
    (center : Tetrahedron → Vector3D) (cell : List Face) (ts : List Tetrahedron)
    (hs : SplitCell cell [] = .ok ts) (hv : (ts.map volume).sum ≠ 0) :
    CalculateCellDimensionsWith volume center cell =
      .ok ⟨(ts.map volume).sum,
        some
          ⟨((ts.filter fun t => decide (degenerateVolume ≤ volume t)).map
                fun t => (center t).x * volume t).sum / (ts.map volume).sum,
            ((ts.filter fun t => decide (degenerateVolume ≤ volume t)).map
                fun t => (center t).y * volume t).sum / (ts.map volume).sum,
            ((ts.filter fun t => decide (degenerateVolume ≤ volume t)).map
                fun t => (center t).z * volume t).sum / (ts.map volume).sum⟩⟩ := by
  rw [CalculateCellDimensionsWith_ok volume center cell ts hs]
  simp [Vector3D.divD, hv, Vector3D.div, weighedTetrahedra]

/-- Instance of C4: two faces, the second listing a vertex twice, so that the third
tetrahedron has volume zero and stays out of the numerator. -/
theorem calculateCellDimensions_centerOfMass_witness :
    SplitCell
          [Face.mk [⟨0, 0, 0⟩, ⟨4, 0, 0⟩, ⟨0, 4, 0⟩],
            Face.mk [⟨0, 0, 0⟩, ⟨0, 4, 0⟩, ⟨0, 0, 4⟩, ⟨0, 0, 4⟩]] [] =
        .ok [⟨⟨1, 1, 1⟩, ⟨0, 0, 0⟩, ⟨4, 0, 0⟩, ⟨0, 4, 0⟩⟩,
          ⟨⟨1, 1, 1⟩, ⟨0, 0, 0⟩, ⟨0, 4, 0⟩, ⟨0, 0, 4⟩⟩,
          ⟨⟨1, 1, 1⟩, ⟨0, 0, 0⟩, ⟨0, 0, 4⟩, ⟨0, 0, 4⟩⟩] ∧
      CalculateCellDimensionsWith Tetrahedron.volume Tetrahedron.center
          [Face.mk [⟨0, 0, 0⟩, ⟨4, 0, 0⟩, ⟨0, 4, 0⟩],
            Face.mk [⟨0, 0, 0⟩, ⟨0, 4, 0⟩, ⟨0, 0, 4⟩, ⟨0, 0, 4⟩]] =
        .ok ⟨16 / 3, some ⟨3 / 4, 5 / 4, 3 / 4⟩⟩ :=
  ⟨by decide!,
    (calculateCellDimensions_centerOfMass Tetrahedron.volume Tetrahedron.center
      [Face.mk [⟨0, 0, 0⟩, ⟨4, 0, 0⟩, ⟨0, 4, 0⟩],
        Face.mk [⟨0, 0, 0⟩, ⟨0, 4, 0⟩, ⟨0, 0, 4⟩, ⟨0, 0, 4⟩]]
      [⟨⟨1, 1, 1⟩, ⟨0, 0, 0⟩, ⟨4, 0, 0⟩, ⟨0, 4, 0⟩⟩,
        ⟨⟨1, 1, 1⟩, ⟨0, 0, 0⟩, ⟨0, 4, 0⟩, ⟨0, 0, 4⟩⟩,
        ⟨⟨1, 1, 1⟩, ⟨0, 0, 0⟩, ⟨0, 0, 4⟩, ⟨0, 0, 4⟩⟩]
      (by decide!) (by decide!)).trans (by decide!)⟩

/-- C5, as the code has it: when the total volume of the tetrahedra is zero,
`CalculateCellDimensions` reports no error; it returns with `volume` zero and with
`centerOfMass` the quotient of the accumulated sum by that zero volume, which is not a
finite vector. -/
theorem calculateCellDimensions_zero_volume_returns (volume : Tetrahedron → ℚ)
    (center : Tetrahedron → Vector3D) (cell : List Face) (ts : List Tetrahedron)
    (hs : SplitCell cell [] = .ok ts) (hv : (ts.map volume).sum = 0) :
    CalculateCellDimensionsWith volume center cell = .ok ⟨0, none⟩ := by
  rw [CalculateCellDimensionsWith_ok volume center cell ts hs]
  simp [Vector3D.divD, hv]

/-- Instance of C5 as amended: a cell whose only face has three collinear vertices. -/
theorem calculateCellDimensions_zero_volume_returns_witness :
    SplitCell [Face.mk [⟨0, 0, 0⟩, ⟨4, 0, 0⟩, ⟨8, 0, 0⟩]] [] =
        .ok [⟨⟨4, 0, 0⟩, ⟨0, 0, 0⟩, ⟨4, 0, 0⟩, ⟨8, 0, 0⟩⟩] ∧
      CalculateCellDimensionsWith Tetrahedron.volume Tetrahedron.center
          [Face.mk [⟨0, 0, 0⟩, ⟨4, 0, 0⟩, ⟨8, 0, 0⟩]] =
        .ok ⟨0, none⟩ :=
  ⟨by decide!,
    calculateCellDimensions_zero_volume_returns Tetrahedron.volume Tetrahedron.center
      [Face.mk [⟨0, 0, 0⟩, ⟨4, 0, 0⟩, ⟨8, 0, 0⟩]]
      [⟨⟨4, 0, 0⟩, ⟨0, 0, 0⟩, ⟨4, 0, 0⟩, ⟨8, 0, 0⟩⟩] (by decide!) (by decide!)⟩

/-- C5 fails as stated: for the cell without faces the total volume is zero and the call
returns normally, with the quotient by zero as centre of mass, instead of reporting an
error. -/
theorem calculateCellDimensions_empty_cell_no_error :
    (SplitCell [] []).map (fun ts => (ts.map Tetrahedron.volume).sum) = .ok 0 ∧
      CalculateCellDimensions [] = .ok ⟨0, none⟩ ∧
      ¬ ∃ e, CalculateCellDimensions [] = .error e :=
  ⟨by decide!, by decide!, by
    rw [show CalculateCellDimensions [] = .ok ⟨0, none⟩ by decide!]
    simp⟩

/-! ## Faces of zero area -/

/-- The triple product of a tetrahedron does not change when the base is measured from
its first vertex instead of the apex. -/
theorem volume_eq_zero_of_cross (m a b c : Vector3D)
    (h : (b.sub a).cross (c.sub a) = Vector3D.zero) :
    Tetrahedron.volume ⟨m, a, b, c⟩ = 0 := by
  simp only [Vector3D.cross, Vector3D.sub, Vector3D.zero, Vector3D.mk.injEq] at h
  obtain ⟨hx, hy, hz⟩ := h
  have key : (a.sub m).dot ((b.sub m).cross (c.sub m)) = 0 := by
    simp only [Vector3D.cross, Vector3D.sub, Vector3D.dot]
    linear_combination (a.x - m.x) * hx + (a.y - m.y) * hy + (a.z - m.z) * hz
  simp only [Tetrahedron.volume, key, abs_zero, zero_div]

theorem getD_mem_of_lt {α : Type} (l : List α) (i : Nat) (d : α) (h : i < l.length) :
    l.getD i d ∈ l := by
  rw [List.getD_eq_getElem l d h]
  exact List.getElem_mem h

theorem fan_volume_zero (m : VectorRef) (f : Face) (hz : ZeroArea f) :
    ∀ t ∈ fanTetrahedra m f, t.volume = 0 := by
  intro t ht
  simp only [fanTetrahedra, List.mem_map, List.mem_range'_1] at ht
  obtain ⟨i, ⟨hi1, hi2⟩, rfl⟩ := ht
  exact volume_eq_zero_of_cross m _ _ _
    (hz _ (getD_mem_of_lt _ _ _ (by omega)) _ (getD_mem_of_lt _ _ _ (by omega)) _
      (getD_mem_of_lt _ _ _ (by omega)))

theorem sum_map_eq_zero {α : Type} (l : List α) (φ : α → ℚ) (h : ∀ t ∈ l, φ t = 0) :
    (l.map φ).sum = 0 := by
  induction l with
  | nil => rfl
  | cons t l ih =>
    rw [List.map_cons, List.sum_cons, h t (List.mem_cons_self _ _),
      ih fun u hu => h u (List.mem_cons_of_mem _ hu), add_zero]

/-- C6: for a cell made of faces with at least 3 vertices and one more face of zero area
(all its vertices collinear or coincident) that has a vertex, `SplitCell` and
`CalculateCellDimensions` return, every tetrahedron built on the zero-area face has
volume 0, and the volume returned is the sum of the volumes of the tetrahedra built on
the other faces alone, with the apex of the whole cell. -/
theorem zero_area_face_adds_no_volume (pre post : List Face) (f : Face)
    (old : List Tetrahedron) (hpre : ∀ g ∈ pre, 3 ≤ g.vertices.length)
    (hpost : ∀ g ∈ post, 3 ≤ g.vertices.length) (hf : f.vertices ≠ [])
    (hz : ZeroArea f) :
    SplitCell (pre ++ f :: post) old =
        .ok ((pre ++ f :: post).flatMap
          (fanTetrahedra (SplitCell.center (pre ++ f :: post)))) ∧
      (∀ t ∈ fanTetrahedra (SplitCell.center (pre ++ f :: post)) f, t.volume = 0) ∧
      ∃ d, CalculateCellDimensions (pre ++ f :: post) = .ok d ∧
        d.volume =
          (((pre ++ post).flatMap
            (fanTetrahedra (SplitCell.center (pre ++ f :: post)))).map
              Tetrahedron.volume).sum := by
  have hall : ∀ g ∈ pre ++ f :: post, g.vertices ≠ [] := by
    intro g hg
    rcases List.mem_append.mp hg with hg | hg
    · exact ne_nil_of_three_le _ (hpre g hg)
    · rcases List.mem_cons.mp hg with rfl | hg
      · exact hf
      · exact ne_nil_of_three_le _ (hpost g hg)
  refine ⟨SplitCell_ok _ old hall, fan_volume_zero _ f hz, _, 
    CalculateCellDimensionsWith_ok _ _ _ _ (SplitCell_ok _ [] hall), ?_⟩
  simp only [List.flatMap_append, List.flatMap_cons, List.map_append, List.sum_append,
    sum_map_eq_zero _ _ (fan_volume_zero _ f hz), zero_add]

/-- Instance of C6: the face `(0,0,0), (4,0,0), (2,0,0)` of zero area between two
triangles. -/
theorem zero_area_face_adds_no_volume_witness :
    ZeroArea (Face.mk [⟨0, 0, 0⟩, ⟨4, 0, 0⟩, ⟨2, 0, 0⟩]) ∧
      ∃ d, CalculateCellDimensions
          ([Face.mk [⟨0, 0, 0⟩, ⟨4, 0, 0⟩, ⟨0, 4, 0⟩]] ++
            Face.mk [⟨0, 0, 0⟩, ⟨4, 0, 0⟩, ⟨2, 0, 0⟩] ::
              [Face.mk [⟨0, 0, 0⟩, ⟨0, 4, 0⟩, ⟨0, 0, 6⟩]]) = .ok d ∧
        d.volume =
          ((([Face.mk [⟨0, 0, 0⟩, ⟨4, 0, 0⟩, ⟨0, 4, 0⟩]] ++
              [Face.mk [⟨0, 0, 0⟩, ⟨0, 4, 0⟩, ⟨0, 0, 6⟩]]).flatMap
            (fanTetrahedra (SplitCell.center
              ([Face.mk [⟨0, 0, 0⟩, ⟨4, 0, 0⟩, ⟨0, 4, 0⟩]] ++
                Face.mk [⟨0, 0, 0⟩, ⟨4, 0, 0⟩, ⟨2, 0, 0⟩] ::
                  [Face.mk [⟨0, 0, 0⟩, ⟨0, 4, 0⟩, ⟨0, 0, 6⟩]])))).map
              Tetrahedron.volume).sum :=
  ⟨by decide!,
    (zero_area_face_adds_no_volume [Face.mk [⟨0, 0, 0⟩, ⟨4, 0, 0⟩, ⟨0, 4, 0⟩]]
      [Face.mk [⟨0, 0, 0⟩, ⟨0, 4, 0⟩, ⟨0, 0, 6⟩]]
      (Face.mk [⟨0, 0, 0⟩, ⟨4, 0, 0⟩, ⟨2, 0, 0⟩]) [] (by decide) (by decide) (by decide)
      (by decide!)).2.2⟩

/-! ## Volume and centre of mass, face by face -/

theorem sum_volume_flatMap (m : VectorRef) (cell : List Face) :
    ((cell.flatMap (fanTetrahedra m)).map Tetrahedron.volume).sum =
      (cell.map (faceVolume m)).sum := by
  induction cell with
  | nil => rfl
  | cons f cell ih =>
    simp only [List.flatMap_cons, List.map_append, List.sum_append, List.map_cons,
      List.sum_cons, ih, faceVolume]

theorem sum_moment_flatMap (coord : Vector3D → ℚ) (m : VectorRef) (cell : List Face) :
    ((weighedTetrahedra Tetrahedron.volume (cell.flatMap (fanTetrahedra m))).map
        fun t => coord t.center * t.volume).sum =
      (cell.map (faceMoment coord m)).sum := by
  induction cell with
  | nil => rfl
  | cons f cell ih =>
    unfold weighedTetrahedra at ih ⊢
    simp only [List.flatMap_cons, List.filter_append, List.map_append, List.sum_append,
      List.map_cons, List.sum_cons, ih, faceMoment, weighedTetrahedra]

/-- The result of `CalculateCellDimensions` on a cell without empty face, in terms of the
contributions of the faces. -/
theorem CalculateCellDimensions_by_face (cell : List Face)
    (h : ∀ f ∈ cell, f.vertices ≠ []) :
    CalculateCellDimensions cell =
      .ok ⟨(cell.map (faceVolume (SplitCell.center cell))).sum,
        Vector3D.divD
          ⟨(cell.map (faceMoment Vector3D.x (SplitCell.center cell))).sum,
            (cell.map (faceMoment Vector3D.y (SplitCell.center cell))).sum,
            (cell.map (faceMoment Vector3D.z (SplitCell.center cell))).sum⟩
          (cell.map (faceVolume (SplitCell.center cell))).sum⟩ := by
  unfold CalculateCellDimensions
  rw [CalculateCellDimensionsWith_ok _ _ cell _ (SplitCell_ok cell [] h),
    sum_volume_flatMap, sum_moment_flatMap, sum_moment_flatMap, sum_moment_flatMap]

theorem volume_eq_of_sq (t : Tetrahedron) (V : ℚ) (hV : 0 ≤ V)
    (h : ((t.v1.sub t.v0).dot ((t.v2.sub t.v0).cross (t.v3.sub t.v0))) ^ 2 = (6 * V) ^ 2) :
    t.volume = V := by
  unfold Tetrahedron.volume
  have h6 : (0 : ℚ) ≤ 6 * V := by linarith
  have h' := (sq_eq_sq_iff_abs_eq_abs _ _).mp h
  rw [abs_of_nonneg h6] at h'
  rw [h']
  field_simp

theorem fan_quad (m p q r s : VectorRef) :
    fanTetrahedra m ⟨[p, q, r, s]⟩ = [⟨m, p, q, r⟩, ⟨m, p, r, s⟩] := by
  rfl

theorem fan_triangle (m p q r : VectorRef) :
    fanTetrahedra m ⟨[p, q, r]⟩ = [⟨m, p, q, r⟩] := by
  rfl

/-- A quadrilateral face whose two tetrahedra have the same volume `V`, not below the
threshold. -/
theorem quad_face (coord : Vector3D → ℚ) (m p q r s : VectorRef) (V : ℚ)
    (hV : degenerateVolume ≤ V) (h1 : Tetrahedron.volume ⟨m, p, q, r⟩ = V)
    (h2 : Tetrahedron.volume ⟨m, p, r, s⟩ = V) :
    faceVolume m ⟨[p, q, r, s]⟩ = 2 * V ∧
      faceMoment coord m ⟨[p, q, r, s]⟩ =
        V * (coord (Tetrahedron.center ⟨m, p, q, r⟩) +
          coord (Tetrahedron.center ⟨m, p, r, s⟩)) := by
  unfold faceVolume faceMoment weighedTetrahedra
  rw [fan_quad]
  simp only [List.map_cons, List.map_nil, List.sum_cons, List.sum_nil, h1, h2,
    List.filter_cons, hV, decide_True, if_true, List.filter_nil]
  constructor <;> ring

/-- A triangular face whose tetrahedron has volume `V`, not below the threshold. -/
theorem triangle_face (coord : Vector3D → ℚ) (m p q r : VectorRef) (V : ℚ)
    (hV : degenerateVolume ≤ V) (h1 : Tetrahedron.volume ⟨m, p, q, r⟩ = V) :
    faceVolume m ⟨[p, q, r]⟩ = V ∧
      faceMoment coord m ⟨[p, q, r]⟩ = V * coord (Tetrahedron.center ⟨m, p, q, r⟩) := by
  unfold faceVolume faceMoment weighedTetrahedra
  rw [fan_triangle]
  simp only [List.map_cons, List.map_nil, List.sum_cons, List.sum_nil, h1,
    List.filter_cons, hV, decide_True, if_true, List.filter_nil]
  constructor <;> ring

/-! ## The box -/

theorem faceSummary_quad (m p q r s : VectorRef) (V : ℚ) (hV : degenerateVolume ≤ V)
    (hV0 : 0 ≤ V)
    (h1 : ((p.sub m).dot ((q.sub m).cross (r.sub m))) ^ 2 = (6 * V) ^ 2)
    (h2 : ((p.sub m).dot ((r.sub m).cross (s.sub m))) ^ 2 = (6 * V) ^ 2) :
    faceSummary m ⟨[p, q, r, s]⟩ =
      (2 * V, V * ((2 * m.x + 2 * p.x + q.x + 2 * r.x + s.x) / 4),
        V * ((2 * m.y + 2 * p.y + q.y + 2 * r.y + s.y) / 4),
        V * ((2 * m.z + 2 * p.z + q.z + 2 * r.z + s.z) / 4)) := by
  have e1 : Tetrahedron.volume ⟨m, p, q, r⟩ = V := volume_eq_of_sq _ V hV0 h1
  have e2 : Tetrahedron.volume ⟨m, p, r, s⟩ = V := volume_eq_of_sq _ V hV0 h2
  unfold faceSummary
  rw [(quad_face Vector3D.x m p q r s V hV e1 e2).1,
    (quad_face Vector3D.x m p q r s V hV e1 e2).2,
    (quad_face Vector3D.y m p q r s V hV e1 e2).2,
    (quad_face Vector3D.z m p q r s V hV e1 e2).2]
  simp only [Tetrahedron.center, Vector3D.add, Vector3D.div, Prod.mk.injEq, true_and]
  refine ⟨?_, ?_, ?_⟩ <;> ring

theorem box_faceSummary (a b c : ℚ) (ha : 0 < a) (hb : 0 < b) (hc : 0 < c)
    (hV : degenerateVolume ≤ a * b * c / 12)
    (quad : VectorRef × VectorRef × VectorRef × VectorRef)
    (hq : quad ∈ boxFaceCorners a b c) (f : Face) (hf : f.vertices ∈ cyclicListings quad) :
    faceSummary ⟨a / 2, b / 2, c / 2⟩ f =
      (a * b * c / 6,
        a * b * c / 12 *
          ((a + (quad.1.x + quad.2.1.x + quad.2.2.1.x + quad.2.2.2.x) * 3 / 2) / 4),
        a * b * c / 12 *
          ((b + (quad.1.y + quad.2.1.y + quad.2.2.1.y + quad.2.2.2.y) * 3 / 2) / 4),
        a * b * c / 12 *
          ((c + (quad.1.z + quad.2.1.z + quad.2.2.1.z + quad.2.2.2.z) * 3 / 2) / 4)) := by
  have hV0 : (0 : ℚ) ≤ a * b * c / 12 := by positivity
  obtain ⟨l⟩ := f
  simp only at hf
  simp only [boxFaceCorners, List.mem_cons, List.mem_singleton, List.not_mem_nil,
    or_false] at hq
  rcases hq with rfl | rfl | rfl | rfl | rfl | rfl <;>
  · simp only [cyclicListings, List.mem_cons, List.mem_singleton, List.not_mem_nil,
      or_false] at hf
    rcases hf with rfl | rfl | rfl | rfl | rfl | rfl | rfl | rfl <;>
    · rw [faceSummary_quad _ _ _ _ _ (a * b * c / 12) hV hV0
        (by simp only [Vector3D.sub, Vector3D.cross, Vector3D.dot]; ring)
        (by simp only [Vector3D.sub, Vector3D.cross, Vector3D.dot]; ring)]
      simp only [Prod.mk.injEq]
      refine ⟨?_, ?_, ?_, ?_⟩ <;> ring

theorem mem_cyclicListing (p q r s v : VectorRef) (l : List VectorRef)
    (hl : l ∈ cyclicListings (p, q, r, s)) : v ∈ l ↔ v = p ∨ v = q ∨ v = r ∨ v = s := by
  simp only [cyclicListings, List.mem_cons, List.mem_singleton, List.not_mem_nil,
    or_false] at hl
  rcases hl with rfl | rfl | rfl | rfl | rfl | rfl | rfl | rfl <;>
    simp only [List.mem_cons, List.mem_singleton, List.not_mem_nil, or_false] <;> tauto

theorem forall₂_six {α β : Type} (R : α → β → Prop) (l : List α) (q1 q2 q3 q4 q5 q6 : β)
    (h : List.Forall₂ R l [q1, q2, q3, q4, q5, q6]) :
    ∃ f1 f2 f3 f4 f5 f6, l = [f1, f2, f3, f4, f5, f6] ∧ R f1 q1 ∧ R f2 q2 ∧ R f3 q3 ∧
      R f4 q4 ∧ R f5 q5 ∧ R f6 q6 := by
  simp only [List.forall₂_cons_right_iff, List.forall₂_nil_right_iff] at h
  obtain ⟨f1, _, h1, ⟨f2, _, h2, ⟨f3, _, h3, ⟨f4, _, h4, ⟨f5, _, h5, ⟨f6, _, h6, rfl, rfl⟩,
    rfl⟩, rfl⟩, rfl⟩, rfl⟩, rfl⟩ := h
  exact ⟨f1, f2, f3, f4, f5, f6, rfl, h1, h2, h3, h4, h5, h6⟩

theorem cellVertices_perm (cell cell' : List Face) (h : cell.Perm cell') :
    cellVertices cell = cellVertices cell' := by
  ext v
  simp only [cellVertices, List.mem_toFinset, List.mem_flatMap]
  constructor
  · rintro ⟨f, hf, hv⟩; exact ⟨f, h.mem_iff.mp hf, hv⟩
  · rintro ⟨f, hf, hv⟩; exact ⟨f, h.mem_iff.mpr hf, hv⟩

theorem box_cellVertices (a b c : ℚ) (cell : List Face) (h : IsBoxCell a b c cell) :
    cellVertices cell = (boxCorners a b c).toFinset := by
  obtain ⟨cell', hperm, hfa⟩ := h
  rw [cellVertices_perm cell cell' hperm]
  unfold boxFaceCorners at hfa
  obtain ⟨f1, f2, f3, f4, f5, f6, rfl, h1, h2, h3, h4, h5, h6⟩ := forall₂_six _ _ _ _ _ _ _ _ hfa
  ext v
  have e1 := mem_cyclicListing _ _ _ _ v _ h1
  have e2 := mem_cyclicListing _ _ _ _ v _ h2
  have e3 := mem_cyclicListing _ _ _ _ v _ h3
  have e4 := mem_cyclicListing _ _ _ _ v _ h4
  have e5 := mem_cyclicListing _ _ _ _ v _ h5
  have e6 := mem_cyclicListing _ _ _ _ v _ h6
  simp only [cellVertices, List.mem_toFinset, List.flatMap_cons, List.flatMap_nil,
    List.mem_append, List.append_nil, e1, e2, e3, e4, e5, e6, boxCorners, List.mem_cons,
    List.mem_singleton, List.not_mem_nil, or_false]
  constructor
  · rintro (h | h | h | h | h | h) <;> rcases h with h | h | h | h <;> simp [h]
  · rintro (h | h | h | h | h | h | h | h) <;> simp [h]

theorem boxCorners_nodup (a b c : ℚ) (ha : 0 < a) (hb : 0 < b) (hc : 0 < c) :
    (boxCorners a b c).Nodup := by
  have ha1 := ha.ne'
  have hb1 := hb.ne'
  have hc1 := hc.ne'
  have ha2 := ha.ne
  have hb2 := hb.ne
  have hc2 := hc.ne
  simp [boxCorners, Vector3D.mk.injEq, ha1, hb1, hc1, ha2, hb2, hc2]

theorem box_center (a b c : ℚ) (ha : 0 < a) (hb : 0 < b) (hc : 0 < c) (cell : List Face)
    (h : IsBoxCell a b c cell) : SplitCell.center cell = ⟨a / 2, b / 2, c / 2⟩ := by
  have hnd := boxCorners_nodup a b c ha hb hc
  rw [center_eq_mean, box_cellVertices a b c cell h, List.sum_toFinset _ hnd,
    List.sum_toFinset _ hnd, List.sum_toFinset _ hnd, List.toFinset_card_of_nodup hnd]
  simp only [boxCorners, List.map_cons, List.map_nil, List.sum_cons, List.sum_nil,
    List.length_cons, List.length_nil, Vector3D.mk.injEq]
  refine ⟨?_, ?_, ?_⟩ <;> · push_cast; ring

theorem box_face_nonempty (a b c : ℚ) (cell : List Face) (h : IsBoxCell a b c cell) :
    ∀ f ∈ cell, f.vertices ≠ [] := by
  obtain ⟨cell', hperm, hfa⟩ := h
  intro f hf
  have hf' := hperm.mem_iff.mp hf
  unfold boxFaceCorners at hfa
  obtain ⟨f1, f2, f3, f4, f5, f6, rfl, h1, h2, h3, h4, h5, h6⟩ := forall₂_six _ _ _ _ _ _ _ _ hfa
  have key : ∀ (g : Face) (quad : VectorRef × VectorRef × VectorRef × VectorRef),
      g.vertices ∈ cyclicListings quad → g.vertices ≠ [] := by
    intro g quad hg
    obtain ⟨p, q, r, s⟩ := quad
    simp only [cyclicListings, List.mem_cons, List.mem_singleton, List.not_mem_nil,
      or_false] at hg
    rcases hg with h | h | h | h | h | h | h | h <;> simp [h]
  simp only [List.mem_cons, List.mem_singleton, List.not_mem_nil, or_false] at hf'
  rcases hf' with rfl | rfl | rfl | rfl | rfl | rfl
  · exact key _ _ h1
  · exact key _ _ h2
  · exact key _ _ h3
  · exact key _ _ h4
  · exact key _ _ h5
  · exact key _ _ h6

/-- C7: for the box `[0,a] x [0,b] x [0,c]` with `a, b, c > 0` and `a*b*c/12 >= 1e-30`,
given as its six quadrilateral faces in any order, each listing its four corners in any
cyclic order, `CalculateCellDimensions` returns the volume `a*b*c` and the centre of mass
`(a/2, b/2, c/2)`, with the volume of a tetrahedron taken as
`|(p1-p0) . ((p2-p0) x (p3-p0))| / 6` and its centre as the mean of its vertices. -/
theorem box_volume_and_centre (a b c : ℚ) (ha : 0 < a) (hb : 0 < b) (hc : 0 < c)
    (hV : degenerateVolume ≤ a * b * c / 12) (cell : List Face)
    (h : IsBoxCell a b c cell) :
    CalculateCellDimensions cell = .ok ⟨a * b * c, some ⟨a / 2, b / 2, c / 2⟩⟩ := by
  rw [CalculateCellDimensions_by_face cell (box_face_nonempty a b c cell h),
    box_center a b c ha hb hc cell h]
  obtain ⟨cell', hperm, hfa⟩ := h
  rw [(hperm.map (faceVolume _)).sum_eq, (hperm.map (faceMoment Vector3D.x _)).sum_eq,
    (hperm.map (faceMoment Vector3D.y _)).sum_eq,
    (hperm.map (faceMoment Vector3D.z _)).sum_eq]
  have hsum := fun quad hq f hf => box_faceSummary a b c ha hb hc hV quad hq f hf
  unfold boxFaceCorners at hfa hsum
  obtain ⟨f1, f2, f3, f4, f5, f6, rfl, h1, h2, h3, h4, h5, h6⟩ := forall₂_six _ _ _ _ _ _ _ _ hfa
  have s1 := hsum _ (by simp) f1 h1
  have s2 := hsum _ (by simp) f2 h2
  have s3 := hsum _ (by simp) f3 h3
  have s4 := hsum _ (by simp) f4 h4
  have s5 := hsum _ (by simp) f5 h5
  have s6 := hsum _ (by simp) f6 h6
  simp only [faceSummary, Prod.mk.injEq] at s1 s2 s3 s4 s5 s6
  have habc : a * b * c ≠ 0 := by positivity
  simp only [List.map_cons, List.map_nil, List.sum_cons, List.sum_nil, s1, s2, s3, s4, s5,
    s6]
  have hvol : a * b * c / 6 + (a * b * c / 6 + (a * b * c / 6 + (a * b * c / 6 +
      (a * b * c / 6 + (a * b * c / 6 + 0))))) = a * b * c := by ring
  rw [hvol]
  simp only [Vector3D.divD, habc, if_false, Vector3D.div, Except.ok.injEq,
    CellDimensions.mk.injEq, Option.some.injEq, Vector3D.mk.injEq, true_and]
  refine ⟨?_, ?_, ?_⟩ <;> · field_simp; ring

/-- Instance of C7: the unit cube has volume 1 and centre of mass `(1/2, 1/2, 1/2)`. -/
theorem box_volume_and_centre_witness :
    IsBoxCell 1 1 1 unitCube ∧
      CalculateCellDimensions unitCube = .ok ⟨1, some ⟨1 / 2, 1 / 2, 1 / 2⟩⟩ :=
  ⟨⟨[unitCube[1], unitCube[0], unitCube[2], unitCube[3], unitCube[4], unitCube[5]],
      by decide!,
      List.Forall₂.cons (by decide!) (List.Forall₂.cons (by decide!)
        (List.Forall₂.cons (by decide!) (List.Forall₂.cons (by decide!)
          (List.Forall₂.cons (by decide!) (List.Forall₂.cons (by decide!)
            List.Forall₂.nil)))))⟩,
    (box_volume_and_centre 1 1 1 (by decide) (by decide) (by decide) (by decide!) unitCube
      ⟨[unitCube[1], unitCube[0], unitCube[2], unitCube[3], unitCube[4], unitCube[5]],
        by decide!,
        List.Forall₂.cons (by decide!) (List.Forall₂.cons (by decide!)
          (List.Forall₂.cons (by decide!) (List.Forall₂.cons (by decide!)
            (List.Forall₂.cons (by decide!) (List.Forall₂.cons (by decide!)
              List.Forall₂.nil)))))⟩).trans (by decide!)⟩

/-! ## The tetrahedron -/

theorem volume_eq_of_quarter (t : Tetrahedron) (T : ℚ)
    (h : (t.v1.sub t.v0).dot ((t.v2.sub t.v0).cross (t.v3.sub t.v0)) = T / 4 ∨
      (t.v1.sub t.v0).dot ((t.v2.sub t.v0).cross (t.v3.sub t.v0)) = -(T / 4)) :
    t.volume = |T| / 24 := by
  unfold Tetrahedron.volume
  have h' : |(t.v1.sub t.v0).dot ((t.v2.sub t.v0).cross (t.v3.sub t.v0))| = |T| / 4 := by
    rcases h with h | h
    · rw [h, abs_div, abs_of_pos (by norm_num : (0 : ℚ) < 4)]
    · rw [h, abs_neg, abs_div, abs_of_pos (by norm_num : (0 : ℚ) < 4)]
  rw [h']
  ring

theorem faceSummary_triangle (m p q r : VectorRef) (T : ℚ)
    (hV : degenerateVolume ≤ |T| / 24)
    (h1 : (p.sub m).dot ((q.sub m).cross (r.sub m)) = T / 4 ∨
      (p.sub m).dot ((q.sub m).cross (r.sub m)) = -(T / 4)) :
    faceSummary m ⟨[p, q, r]⟩ =
      (|T| / 24, |T| / 24 * ((m.x + p.x + q.x + r.x) / 4),
        |T| / 24 * ((m.y + p.y + q.y + r.y) / 4),
        |T| / 24 * ((m.z + p.z + q.z + r.z) / 4)) := by
  have e1 : Tetrahedron.volume ⟨m, p, q, r⟩ = |T| / 24 := volume_eq_of_quarter _ T h1
  unfold faceSummary
  rw [(triangle_face Vector3D.x m p q r _ hV e1).1,
    (triangle_face Vector3D.x m p q r _ hV e1).2,
    (triangle_face Vector3D.y m p q r _ hV e1).2,
    (triangle_face Vector3D.z m p q r _ hV e1).2]
  rfl

theorem tetrahedron_faceSummary (A B C D : VectorRef)
    (hV : degenerateVolume ≤ |tripleProduct A B C D| / 24)
    (tri : VectorRef × VectorRef × VectorRef)
    (ht : tri ∈ tetrahedronFaceCorners A B C D) (f : Face)
    (hf : f.vertices ∈ triangleListings tri) :
    faceSummary
        ⟨(A.x + B.x + C.x + D.x) / 4, (A.y + B.y + C.y + D.y) / 4,
          (A.z + B.z + C.z + D.z) / 4⟩ f =
      (|tripleProduct A B C D| / 24,
        |tripleProduct A B C D| / 24 *
          (((A.x + B.x + C.x + D.x) / 4 + tri.1.x + tri.2.1.x + tri.2.2.x) / 4),
        |tripleProduct A B C D| / 24 *
          (((A.y + B.y + C.y + D.y) / 4 + tri.1.y + tri.2.1.y + tri.2.2.y) / 4),
        |tripleProduct A B C D| / 24 *
          (((A.z + B.z + C.z + D.z) / 4 + tri.1.z + tri.2.1.z + tri.2.2.z) / 4)) := by
  obtain ⟨l⟩ := f
  simp only at hf
  simp only [tetrahedronFaceCorners, List.mem_cons, List.mem_singleton, List.not_mem_nil,
    or_false] at ht
  rcases ht with rfl | rfl | rfl | rfl <;>
  · simp only [triangleListings, List.mem_cons, List.mem_singleton, List.not_mem_nil,
      or_false] at hf
    rcases hf with rfl | rfl | rfl | rfl | rfl | rfl <;>
    · refine (faceSummary_triangle _ _ _ _ (tripleProduct A B C D) hV
        (by
          simp only [tripleProduct, Vector3D.sub, Vector3D.cross, Vector3D.dot]
          first
          | left; ring1
          | right; ring1)).trans ?_
      refine congrArg₂ Prod.mk rfl (congrArg₂ Prod.mk ?_ (congrArg₂ Prod.mk ?_ ?_)) <;>
        ring

theorem forall₂_four {α β : Type} (R : α → β → Prop) (l : List α) (q1 q2 q3 q4 : β)
    (h : List.Forall₂ R l [q1, q2, q3, q4]) :
    ∃ f1 f2 f3 f4, l = [f1, f2, f3, f4] ∧ R f1 q1 ∧ R f2 q2 ∧ R f3 q3 ∧ R f4 q4 := by
  simp only [List.forall₂_cons_right_iff, List.forall₂_nil_right_iff] at h
  obtain ⟨f1, _, h1, ⟨f2, _, h2, ⟨f3, _, h3, ⟨f4, _, h4, rfl, rfl⟩, rfl⟩, rfl⟩, rfl⟩ := h
  exact ⟨f1, f2, f3, f4, rfl, h1, h2, h3, h4⟩

theorem mem_triangleListing (p q r v : VectorRef) (l : List VectorRef)
    (hl : l ∈ triangleListings (p, q, r)) : v ∈ l ↔ v = p ∨ v = q ∨ v = r := by
  simp only [triangleListings, List.mem_cons, List.mem_singleton, List.not_mem_nil,
    or_false] at hl
  rcases hl with rfl | rfl | rfl | rfl | rfl | rfl <;>
    simp only [List.mem_cons, List.mem_singleton, List.not_mem_nil, or_false] <;> tauto

theorem tetrahedron_cellVertices (A B C D : VectorRef) (cell : List Face)
    (h : IsTetrahedronCell A B C D cell) : cellVertices cell = [A, B, C, D].toFinset := by
  obtain ⟨cell', hperm, hfa⟩ := h
  rw [cellVertices_perm cell cell' hperm]
  unfold tetrahedronFaceCorners at hfa
  obtain ⟨f1, f2, f3, f4, rfl, h1, h2, h3, h4⟩ := forall₂_four _ _ _ _ _ _ hfa
  ext v
  have e1 := mem_triangleListing _ _ _ v _ h1
  have e2 := mem_triangleListing _ _ _ v _ h2
  have e3 := mem_triangleListing _ _ _ v _ h3
  have e4 := mem_triangleListing _ _ _ v _ h4
  simp only [cellVertices, List.mem_toFinset, List.flatMap_cons, List.flatMap_nil,
    List.mem_append, List.append_nil, e1, e2, e3, e4, List.mem_cons, List.mem_singleton,
    List.not_mem_nil, or_false]
  constructor
  · rintro (h | h | h | h) <;> rcases h with h | h | h <;> simp [h]
  · rintro (h | h | h | h) <;> simp [h]

theorem tetrahedron_nodup (A B C D : VectorRef) (hT : tripleProduct A B C D ≠ 0) :
    [A, B, C, D].Nodup := by
  have key : ∀ P Q : VectorRef, P = Q →
      (tripleProduct P Q C D = 0 ∧ tripleProduct P B Q D = 0 ∧ tripleProduct P B C Q = 0 ∧
        tripleProduct A P Q D = 0 ∧ tripleProduct A P C Q = 0 ∧
        tripleProduct A B P Q = 0) := by
    intro P Q h
    subst h
    simp only [tripleProduct, Vector3D.sub, Vector3D.cross, Vector3D.dot]
    refine ⟨?_, ?_, ?_, ?_, ?_, ?_⟩ <;> ring
  simp only [List.nodup_cons, List.mem_cons, List.mem_singleton, List.not_mem_nil,
    or_false, not_or, not_false_eq_true, List.nodup_nil, and_true]
  refine ⟨⟨?_, ?_, ?_⟩, ⟨?_, ?_⟩, ?_⟩ <;> intro h <;> apply hT
  · exact h ▸ (key A A rfl).1
  · exact h ▸ (key A A rfl).2.1
  · exact h ▸ (key A A rfl).2.2.1
  · exact h ▸ (key B B rfl).2.2.2.1
  · exact h ▸ (key B B rfl).2.2.2.2.1
  · exact h ▸ (key C C rfl).2.2.2.2.2

theorem tetrahedron_center (A B C D : VectorRef) (hT : tripleProduct A B C D ≠ 0)
    (cell : List Face) (h : IsTetrahedronCell A B C D cell) :
    SplitCell.center cell =
      ⟨(A.x + B.x + C.x + D.x) / 4, (A.y + B.y + C.y + D.y) / 4,
        (A.z + B.z + C.z + D.z) / 4⟩ := by
  have hnd := tetrahedron_nodup A B C D hT
  rw [center_eq_mean, tetrahedron_cellVertices A B C D cell h, List.sum_toFinset _ hnd,
    List.sum_toFinset _ hnd, List.sum_toFinset _ hnd, List.toFinset_card_of_nodup hnd]
  simp only [List.map_cons, List.map_nil, List.sum_cons, List.sum_nil,
    List.length_cons, List.length_nil, Vector3D.mk.injEq]
  refine ⟨?_, ?_, ?_⟩ <;> · push_cast; ring

theorem tetrahedron_face_nonempty (A B C D : VectorRef) (cell : List Face)
    (h : IsTetrahedronCell A B C D cell) : ∀ f ∈ cell, f.vertices ≠ [] := by
  obtain ⟨cell', hperm, hfa⟩ := h
  intro f hf
  have hf' := hperm.mem_iff.mp hf
  unfold tetrahedronFaceCorners at hfa
  obtain ⟨f1, f2, f3, f4, rfl, h1, h2, h3, h4⟩ := forall₂_four _ _ _ _ _ _ hfa
  have key : ∀ (g : Face) (tri : VectorRef × VectorRef × VectorRef),
      g.vertices ∈ triangleListings tri → g.vertices ≠ [] := by
    intro g tri hg
    obtain ⟨p, q, r⟩ := tri
    simp only [triangleListings, List.mem_cons, List.mem_singleton, List.not_mem_nil,
      or_false] at hg
    rcases hg with h | h | h | h | h | h <;> simp [h]
  simp only [List.mem_cons, List.mem_singleton, List.not_mem_nil, or_false] at hf'
  rcases hf' with rfl | rfl | rfl | rfl
  · exact key _ _ h1
  · exact key _ _ h2
  · exact key _ _ h3
  · exact key _ _ h4

theorem fan_volume_of_triangle (m : VectorRef) (f : Face)
    (tri : VectorRef × VectorRef × VectorRef) (hf : f.vertices ∈ triangleListings tri) :
    ∀ t ∈ fanTetrahedra m f, t.volume = faceVolume m f := by
  obtain ⟨l⟩ := f
  obtain ⟨p, q, r⟩ := tri
  simp only [triangleListings, List.mem_cons, List.mem_singleton, List.not_mem_nil,
    or_false] at hf
  rcases hf with rfl | rfl | rfl | rfl | rfl | rfl <;>
  · intro t ht
    rw [fan_triangle, List.mem_singleton] at ht
    rw [ht, faceVolume, fan_triangle]
    simp

/-- C8: for the tetrahedral cell with vertices `A, B, C, D`, given as its four triangular
faces in any order, each listing its three vertices in any order, and with
`|(B-A) . ((C-A) x (D-A))| / 24` at least `1e-30`, every tetrahedron that `SplitCell`
builds has that volume, and `CalculateCellDimensions` returns the volume
`|(B-A) . ((C-A) x (D-A))| / 6` and the centre of mass `(A+B+C+D)/4`, with the volume of
a tetrahedron taken as the absolute triple product over 6. -/
theorem tetrahedron_volume_and_centre (A B C D : VectorRef)
    (hV : degenerateVolume ≤ |tripleProduct A B C D| / 24) (cell : List Face)
    (h : IsTetrahedronCell A B C D cell) :
    (∀ f ∈ cell, ∀ t ∈ fanTetrahedra (SplitCell.center cell) f,
        t.volume = |tripleProduct A B C D| / 24) ∧
      CalculateCellDimensions cell =
        .ok ⟨|tripleProduct A B C D| / 6,
          some ⟨(A.x + B.x + C.x + D.x) / 4, (A.y + B.y + C.y + D.y) / 4,
            (A.z + B.z + C.z + D.z) / 4⟩⟩ := by
  have hpos : 0 < |tripleProduct A B C D| := by
    have : (0 : ℚ) < degenerateVolume := by unfold degenerateVolume; positivity
    linarith
  have hT : tripleProduct A B C D ≠ 0 := abs_pos.mp hpos
  have hne := hpos.ne'
  rw [CalculateCellDimensions_by_face cell (tetrahedron_face_nonempty A B C D cell h),
    tetrahedron_center A B C D hT cell h]
  obtain ⟨cell', hperm, hfa⟩ := h
  rw [(hperm.map (faceVolume _)).sum_eq, (hperm.map (faceMoment Vector3D.x _)).sum_eq,
    (hperm.map (faceMoment Vector3D.y _)).sum_eq,
    (hperm.map (faceMoment Vector3D.z _)).sum_eq]
  have hsum := fun tri ht f hf => tetrahedron_faceSummary A B C D hV tri ht f hf
  unfold tetrahedronFaceCorners at hfa hsum
  obtain ⟨f1, f2, f3, f4, rfl, h1, h2, h3, h4⟩ := forall₂_four _ _ _ _ _ _ hfa
  have s1 := hsum _ (by simp) f1 h1
  have s2 := hsum _ (by simp) f2 h2
  have s3 := hsum _ (by simp) f3 h3
  have s4 := hsum _ (by simp) f4 h4
  simp only [faceSummary, Prod.mk.injEq] at s1 s2 s3 s4
  constructor
  · intro f hf t ht
    have hf' := hperm.mem_iff.mp hf
    simp only [List.mem_cons, List.mem_singleton, List.not_mem_nil, or_false] at hf'
    rcases hf' with rfl | rfl | rfl | rfl
    · rw [fan_volume_of_triangle _ _ _ h1 t ht, s1.1]
    · rw [fan_volume_of_triangle _ _ _ h2 t ht, s2.1]
    · rw [fan_volume_of_triangle _ _ _ h3 t ht, s3.1]
    · rw [fan_volume_of_triangle _ _ _ h4 t ht, s4.1]
  · simp only [List.map_cons, List.map_nil, List.sum_cons, List.sum_nil, s1, s2, s3, s4]
    have hvol : |tripleProduct A B C D| / 24 + (|tripleProduct A B C D| / 24 +
        (|tripleProduct A B C D| / 24 + (|tripleProduct A B C D| / 24 + 0))) =
          |tripleProduct A B C D| / 6 := by ring
    have hne6 : |tripleProduct A B C D| / 6 ≠ 0 := by positivity
    rw [hvol]
    simp only [Vector3D.divD, hne6, if_false, Vector3D.div, Except.ok.injEq,
      CellDimensions.mk.injEq, Option.some.injEq, Vector3D.mk.injEq, true_and]
    refine ⟨?_, ?_, ?_⟩ <;> · field_simp; ring

/-- Instance of C8: the unit tetrahedron has volume `1/6` and centre of mass
`(1/4, 1/4, 1/4)`. -/
theorem tetrahedron_volume_and_centre_witness :
    IsTetrahedronCell ⟨0, 0, 0⟩ ⟨1, 0, 0⟩ ⟨0, 1, 0⟩ ⟨0, 0, 1⟩ unitTetrahedron ∧
      CalculateCellDimensions unitTetrahedron =
        .ok ⟨1 / 6, some ⟨1 / 4, 1 / 4, 1 / 4⟩⟩ :=
  ⟨⟨[unitTetrahedron[1], unitTetrahedron[2], unitTetrahedron[3], unitTetrahedron[0]],
      by decide!,
      List.Forall₂.cons (by decide!) (List.Forall₂.cons (by decide!)
        (List.Forall₂.cons (by decide!) (List.Forall₂.cons (by decide!)
          List.Forall₂.nil)))⟩,
    (tetrahedron_volume_and_centre ⟨0, 0, 0⟩ ⟨1, 0, 0⟩ ⟨0, 1, 0⟩ ⟨0, 0, 1⟩ (by decide!)
      unitTetrahedron
      ⟨[unitTetrahedron[1], unitTetrahedron[2], unitTetrahedron[3], unitTetrahedron[0]],
        by decide!,
        List.Forall₂.cons (by decide!) (List.Forall₂.cons (by decide!)
          (List.Forall₂.cons (by decide!) (List.Forall₂.cons (by decide!)
            List.Forall₂.nil)))⟩).2.trans (by decide!)⟩

/-! ## `flat_map`: insertion never overwrites -/

theorem FlatMap.find_eq_none_of_lt {α : Type} (k : Nat) :
    ∀ m : List (Nat × α), (∀ e ∈ m, k < e.1) → FlatMap.find k m = none := by
  intro m
  induction m with
  | nil => intro _; rfl
  | cons e m ih =>
    intro h
    obtain ⟨k', v'⟩ := e
    have h1 : k < k' := h (k', v') (List.mem_cons_self _ _)
    rw [FlatMap.find, if_neg (Nat.ne_of_lt h1)]
    exact ih fun e he => h e (List.mem_cons_of_mem _ he)

theorem FlatMap.mem_insert {α : Type} (k : Nat) (v : α) :
    ∀ (m : List (Nat × α)) (e : Nat × α), e ∈ FlatMap.insert k v m → e = (k, v) ∨ e ∈ m := by
  intro m
  induction m with
  | nil =>
    intro e he
    simp only [FlatMap.insert, List.mem_singleton] at he
    exact Or.inl he
  | cons e' m ih =>
    intro e he
    obtain ⟨k', v'⟩ := e'
    rw [FlatMap.insert] at he
    split at he
    · rcases List.mem_cons.mp he with h | h
      · exact Or.inl h
      · exact Or.inr h
    · split at he
      · rcases List.mem_cons.mp he with h | h
        · exact Or.inr (h ▸ List.mem_cons_self _ _)
        · rcases ih e h with h | h
          · exact Or.inl h
          · exact Or.inr (List.mem_cons_of_mem _ h)
      · exact Or.inr he

theorem FlatMap.insert_sorted {α : Type} (k : Nat) (v : α) :
    ∀ m : List (Nat × α), FlatMap.Sorted m → FlatMap.Sorted (FlatMap.insert k v m) := by
  intro m
  induction m with
  | nil => intro _; simp [FlatMap.insert, FlatMap.Sorted]
  | cons e' m ih =>
    intro hs
    obtain ⟨k', v'⟩ := e'
    have hs' := List.pairwise_cons.mp hs
    rw [FlatMap.insert]
    split
    · rename_i hlt
      refine List.pairwise_cons.mpr ⟨?_, hs⟩
      intro e he
      rcases List.mem_cons.mp he with h | h
      · rw [h]; exact hlt
      · exact Nat.lt_trans hlt (hs'.1 e h)
    · split
      · rename_i hlt
        refine List.pairwise_cons.mpr ⟨?_, ih hs'.2⟩
        intro e he
        rcases FlatMap.mem_insert k v m e he with h | h
        · rw [h]; exact hlt
        · exact hs'.1 e h
      · exact hs

theorem FlatMap.find_insert {α : Type} (k k' : Nat) (v : α) :
    ∀ m : List (Nat × α), FlatMap.Sorted m →
      FlatMap.find k (FlatMap.insert k' v m) =
        match FlatMap.find k m with
        | some x => some x
        | none => if k' = k then some v else none := by
  intro m
  induction m with
  | nil =>
    intro _
    by_cases h : k = k'
    · simp [FlatMap.insert, FlatMap.find, h]
    · have h' : ¬ k' = k := fun e => h e.symm
      simp [FlatMap.insert, FlatMap.find, h, h']
  | cons e m ih =>
    intro hs
    obtain ⟨k1, v1⟩ := e
    have hs' := List.pairwise_cons.mp hs
    rw [FlatMap.insert]
    split
    · rename_i hlt
      by_cases h : k = k'
      · subst h
        have hnone : FlatMap.find k ((k1, v1) :: m) = none :=
          FlatMap.find_eq_none_of_lt k _ (by
            intro e he
            rcases List.mem_cons.mp he with h | h
            · rw [h]; exact hlt
            · exact Nat.lt_trans hlt (hs'.1 e h))
        rw [hnone]
        simp [FlatMap.find]
      · have h' : ¬ k' = k := fun e => h e.symm
        rw [FlatMap.find, if_neg h]
        cases FlatMap.find k ((k1, v1) :: m) <;> simp [h']
    · split
      · rename_i hlt
        by_cases h1 : k = k1
        · simp [FlatMap.find, h1]
        · simp only [FlatMap.find, if_neg h1]
          exact ih hs'.2
      · rename_i h1 h2
        have hk : k' = k1 := by omega
        subst hk
        by_cases h : k = k'
        · simp [FlatMap.find, h]
        · have h' : ¬ k' = k := fun e => h e.symm
          simp only [FlatMap.find, if_neg h]
          cases FlatMap.find k m <;> simp [h']

/-! ## The loop of `RigidWallGenerator::operator()` -/

theorem RigidWallGenerator.step_eq (abs : Vector2D K → K) (tess : Tessellation K)
    (cells : List (ComputationalCell K)) (res : List (Nat × ComputationalCell K))
    (ghost : Nat × Nat) :
    RigidWallGenerator.step abs tess cells res ghost =
      match RigidWallGenerator.ghostState abs tess cells ghost with
      | some s => .ok (FlatMap.insert (RigidWallGenerator.ghostIndex tess ghost) s res)
      | none => .error Fault.outOfRange := by
  unfold RigidWallGenerator.step RigidWallGenerator.ghostState RigidWallGenerator.Reflects
  by_cases h : tess.GetOriginalIndex (toInt (RigidWallGenerator.ghostIndex tess ghost)) <
      tess.GetPointNo
  · simp only [h, if_true]
    cases cells[RigidWallGenerator.sourceIndex tess ghost]? <;> rfl
  · simp only [h, if_false]
    cases cells[RigidWallGenerator.ghostIndex tess ghost]? <;> rfl

theorem RigidWallGenerator.ghostState_isSome (abs : Vector2D K → K) (tess : Tessellation K)
    (cells : List (ComputationalCell K)) (ghost : Nat × Nat)
    (h : RigidWallGenerator.InRange tess cells ghost) :
    ∃ s, RigidWallGenerator.ghostState abs tess cells ghost = some s := by
  unfold RigidWallGenerator.InRange at h
  unfold RigidWallGenerator.ghostState
  by_cases hr : RigidWallGenerator.Reflects tess ghost
  · rw [if_pos hr] at h
    simp [hr, List.getElem?_eq_getElem h]
  · rw [if_neg hr] at h
    simp [hr, List.getElem?_eq_getElem h]

/-- The loop returns when every subscript is in range, and the result holds under each
key what was there before or else the state of the first edge with that ghost index. -/
theorem RigidWallGenerator.loop_find (abs : Vector2D K → K) (tess : Tessellation K)
    (cells : List (ComputationalCell K)) :
    ∀ (l : List (Nat × Nat)) (res : List (Nat × ComputationalCell K)),
      (∀ q ∈ l, RigidWallGenerator.InRange tess cells q) → FlatMap.Sorted res →
        ∃ res', RigidWallGenerator.loop abs tess cells l res = .ok res' ∧
          ∀ k, FlatMap.find k res' =
            match FlatMap.find k res with
            | some x => some x
            | none => RigidWallGenerator.firstState abs tess cells k l := by
  intro l
  induction l with
  | nil =>
    intro res _ _
    refine ⟨res, rfl, fun k => ?_⟩
    cases FlatMap.find k res <;> rfl
  | cons q l ih =>
    intro res hr hs
    obtain ⟨s, hq⟩ := RigidWallGenerator.ghostState_isSome abs tess cells q
      (hr q (List.mem_cons_self _ _))
    obtain ⟨res', h1, h2⟩ := ih (FlatMap.insert (RigidWallGenerator.ghostIndex tess q) s res)
      (fun p hp => hr p (List.mem_cons_of_mem _ hp)) (FlatMap.insert_sorted _ _ _ hs)
    refine ⟨res', ?_, fun k => ?_⟩
    · rw [RigidWallGenerator.loop, RigidWallGenerator.step_eq, hq]
      exact h1
    · rw [h2 k, FlatMap.find_insert k _ s res hs, RigidWallGenerator.firstState]
      cases FlatMap.find k res with
      | some x => rfl
      | none =>
        by_cases hk : RigidWallGenerator.ghostIndex tess q = k
        · simp [hk, hq]
        · simp [hk]

theorem RigidWallGenerator.call_find (abs : Vector2D K → K)
    (GetOuterEdgesIndeces : Tessellation K → List (Nat × Nat)) (tess : Tessellation K)
    (cells : List (ComputationalCell K)) (time : K)
    (hr : ∀ q ∈ GetOuterEdgesIndeces tess, RigidWallGenerator.InRange tess cells q) :
    ∃ res, RigidWallGenerator.call abs GetOuterEdgesIndeces tess cells time = .ok res ∧
      ∀ k, FlatMap.find k res =
        RigidWallGenerator.firstState abs tess cells k (GetOuterEdgesIndeces tess) := by
  obtain ⟨res, h1, h2⟩ := RigidWallGenerator.loop_find abs tess cells
    (GetOuterEdgesIndeces tess) [] hr List.Pairwise.nil
  exact ⟨res, h1, fun k => by rw [h2 k]; rfl⟩

theorem RigidWallGenerator.firstState_append (abs : Vector2D K → K) (tess : Tessellation K)
    (cells : List (ComputationalCell K)) (k : Nat) (p : Nat × Nat) (post : List (Nat × Nat))
    (hp : RigidWallGenerator.ghostIndex tess p = k) :
    ∀ pre : List (Nat × Nat), (∀ q ∈ pre, RigidWallGenerator.ghostIndex tess q ≠ k) →
      RigidWallGenerator.firstState abs tess cells k (pre ++ p :: post) =
        RigidWallGenerator.ghostState abs tess cells p := by
  intro pre
  induction pre with
  | nil => intro _; simp [RigidWallGenerator.firstState, hp]
  | cons q pre ih =>
    intro h
    rw [List.cons_append, RigidWallGenerator.firstState,
      if_neg (h q (List.mem_cons_self _ _))]
    exact ih fun r hr => h r (List.mem_cons_of_mem _ hr)

theorem RigidWallGenerator.firstState_some (abs : Vector2D K → K) (tess : Tessellation K)
    (cells : List (ComputationalCell K)) (k : Nat) (s : ComputationalCell K) :
    ∀ l : List (Nat × Nat), RigidWallGenerator.firstState abs tess cells k l = some s →
      ∃ p ∈ l, RigidWallGenerator.ghostIndex tess p = k ∧
        RigidWallGenerator.ghostState abs tess cells p = some s := by
  intro l
  induction l with
  | nil => intro h; simp [RigidWallGenerator.firstState] at h
  | cons q l ih =>
    intro h
    rw [RigidWallGenerator.firstState] at h
    split at h
    · rename_i hk
      exact ⟨q, List.mem_cons_self _ _, hk, h⟩
    · obtain ⟨p, hp, h1, h2⟩ := ih h
      exact ⟨p, List.mem_cons_of_mem _ hp, h1, h2⟩

/-! ## Claims about `RigidWallGenerator::operator()` -/

theorem ReverseNormalVelocity_velocity (abs : Vector2D K → K) (cell : ComputationalCell K)
    (edge : Edge K) (index : Nat) (tess : Tessellation K) :
    (ReverseNormalVelocity abs cell edge index tess).velocity =
      reflectVelocity cell.velocity
        ((neighborDifference tess edge index).div (abs (neighborDifference tess edge index))) :=
  rfl

/-- The difference of two distinct mesh points is not the zero vector. -/
theorem neighborDifference_ne (tess : Tessellation K) (edge : Edge K) (index : Nat)
    (h : tess.GetMeshPoint edge.neighbors.1 ≠ tess.GetMeshPoint edge.neighbors.2) :
    neighborDifference tess edge index ≠ ⟨0, 0⟩ := by
  intro h0
  apply h
  cases hp : tess.GetMeshPoint edge.neighbors.1 with
  | mk x1 y1 =>
    cases hq : tess.GetMeshPoint edge.neighbors.2 with
    | mk x2 y2 =>
      unfold neighborDifference at h0
      rw [hp, hq] at h0
      rw [Vector2D.mk.injEq]
      split at h0
      · simp only [Vector2D.sub, Vector2D.mk.injEq] at h0
        exact ⟨sub_eq_zero.mp h0.1, sub_eq_zero.mp h0.2⟩
      · simp only [Vector2D.sub, Vector2D.mk.injEq] at h0
        exact ⟨(sub_eq_zero.mp h0.1).symm, (sub_eq_zero.mp h0.2).symm⟩

theorem neighborDifference_ne_zero {F : Type} [LinearOrderedField F]
    (tess : Tessellation F) (edge : Edge F) (index : Nat)
    (h : tess.GetMeshPoint edge.neighbors.1 ≠ tess.GetMeshPoint edge.neighbors.2) :
    ScalarProd (neighborDifference tess edge index) (neighborDifference tess edge index) ≠
      0 := by
  intro h0
  apply h
  have hx : (tess.GetMeshPoint edge.neighbors.1).x - (tess.GetMeshPoint edge.neighbors.2).x = 0 ∧
      (tess.GetMeshPoint edge.neighbors.1).y - (tess.GetMeshPoint edge.neighbors.2).y = 0 := by
    unfold neighborDifference ScalarProd at h0
    split at h0
    · simp only [Vector2D.sub] at h0
      constructor <;> nlinarith [sq_nonneg ((tess.GetMeshPoint edge.neighbors.1).x -
        (tess.GetMeshPoint edge.neighbors.2).x), sq_nonneg ((tess.GetMeshPoint edge.neighbors.1).y -
        (tess.GetMeshPoint edge.neighbors.2).y)]
    · simp only [Vector2D.sub] at h0
      constructor <;> nlinarith [sq_nonneg ((tess.GetMeshPoint edge.neighbors.1).x -
        (tess.GetMeshPoint edge.neighbors.2).x), sq_nonneg ((tess.GetMeshPoint edge.neighbors.1).y -
        (tess.GetMeshPoint edge.neighbors.2).y)]
  cases hp : tess.GetMeshPoint edge.neighbors.1 with
  | mk x1 y1 =>
    cases hq : tess.GetMeshPoint edge.neighbors.2 with
    | mk x2 y2 =>
      rw [hp, hq] at hx
      simp only at hx
      rw [Vector2D.mk.injEq]
      exact ⟨by linarith [hx.1], by linarith [hx.2]⟩

/-- The normal that `ReverseNormalVelocity` uses is a unit vector along the difference
of the two mesh points, when `abs` is the Euclidean length there. -/
theorem unit_normal (abs : Vector2D K → K) (d : Vector2D K) (hd : ScalarProd d d ≠ 0)
    (habs : abs d * abs d = ScalarProd d d) :
    ScalarProd (d.div (abs d)) (d.div (abs d)) = 1 ∧
      d = Vector2D.smul (abs d) (d.div (abs d)) := by
  have ha : abs d ≠ 0 := by
    intro h0
    rw [h0, zero_mul] at habs
    exact hd habs.symm
  constructor
  · unfold ScalarProd at *
    simp only [Vector2D.div]
    field_simp
    exact habs.symm
  · cases d with
    | mk x y =>
      simp only [Vector2D.smul, Vector2D.div, Vector2D.mk.injEq]
      constructor <;> field_simp

theorem RigidWallGenerator.ghostIndex_eq {T : Type} (tess : Tessellation T) (p : Nat × Nat) :
    RigidWallGenerator.ghostIndex tess p =
      toSizeT (if p.2 = 1 then (tess.GetEdge (toInt p.1)).neighbors.1
        else (tess.GetEdge (toInt p.1)).neighbors.2) := by
  unfold RigidWallGenerator.ghostIndex
  split <;> rfl

theorem RigidWallGenerator.sourceIndex_eq {T : Type} (tess : Tessellation T) (p : Nat × Nat)
    (hside : p.2 = 1 ∨ p.2 = 2) :
    RigidWallGenerator.sourceIndex tess p =
      toSizeT (if p.2 = 1 then (tess.GetEdge (toInt p.1)).neighbors.2
        else (tess.GetEdge (toInt p.1)).neighbors.1) := by
  unfold RigidWallGenerator.sourceIndex
  rcases hside with h | h <;> simp [h]

/-- C9, as the code has it, over any ordered field of values (the real numbers, in which
every vector has a Euclidean length, among them): let `(e, side)` with `side` 1 or 2 be
an outer edge that no earlier entry of the list of outer edges shares its ghost index `g`
with (`e.neighbors.first` for side 1, else `e.neighbors.second`), let the original index
of `g` be below the point count, the mesh points of the two neighbours distinct, `abs`
the Euclidean length of their difference, and every subscript of `cells` in the loop in
range.  Then `operator()` returns a map that holds under `g` a state with velocity
`v - 2 (v . n) n`, where `v` is the velocity of the cell at the other neighbour of the
edge and `n` the unit vector along the difference of the two mesh points. -/
theorem rigidWall_first_edge_reflected {F : Type} [LinearOrderedField F]
    (abs : Vector2D F → F)
    (GetOuterEdgesIndeces : Tessellation F → List (Nat × Nat)) (tess : Tessellation F)
    (cells : List (ComputationalCell F)) (time : F) (pre post : List (Nat × Nat))
    (p : Nat × Nat) (e : Edge F) (he : tess.GetEdge (toInt p.1) = e)
    (hlist : GetOuterEdgesIndeces tess = pre ++ p :: post)
    (hfirst : ∀ q ∈ pre,
      RigidWallGenerator.ghostIndex tess q ≠ RigidWallGenerator.ghostIndex tess p)
    (hrange : ∀ q ∈ GetOuterEdgesIndeces tess, RigidWallGenerator.InRange tess cells q)
    (hside : p.2 = 1 ∨ p.2 = 2)
    (horig : tess.GetOriginalIndex
        (toInt (toSizeT (if p.2 = 1 then e.neighbors.1 else e.neighbors.2))) <
      tess.GetPointNo)
    (hdist : tess.GetMeshPoint e.neighbors.1 ≠ tess.GetMeshPoint e.neighbors.2)
    (habs : abs (neighborDifference tess e p.2) * abs (neighborDifference tess e p.2) =
      ScalarProd (neighborDifference tess e p.2) (neighborDifference tess e p.2)) :
    ∃ res c s,
      RigidWallGenerator.call abs GetOuterEdgesIndeces tess cells time = .ok res ∧
      cells[toSizeT (if p.2 = 1 then e.neighbors.2 else e.neighbors.1)]? = some c ∧
      FlatMap.find (toSizeT (if p.2 = 1 then e.neighbors.1 else e.neighbors.2)) res =
        some s ∧
      ScalarProd
          ((neighborDifference tess e p.2).div (abs (neighborDifference tess e p.2)))
          ((neighborDifference tess e p.2).div (abs (neighborDifference tess e p.2))) =
        1 ∧
      neighborDifference tess e p.2 =
        Vector2D.smul (abs (neighborDifference tess e p.2))
          ((neighborDifference tess e p.2).div (abs (neighborDifference tess e p.2))) ∧
      s.velocity =
        reflectVelocity c.velocity
          ((neighborDifference tess e p.2).div (abs (neighborDifference tess e p.2))) := by
  obtain ⟨res, hres, hfind⟩ :=
    RigidWallGenerator.call_find abs GetOuterEdgesIndeces tess cells time hrange
  have hg := RigidWallGenerator.ghostIndex_eq tess p
  have hsrc := RigidWallGenerator.sourceIndex_eq tess p hside
  rw [he] at hg hsrc
  have hrefl : RigidWallGenerator.Reflects tess p := by
    unfold RigidWallGenerator.Reflects
    rw [hg]
    exact horig
  have hp : RigidWallGenerator.InRange tess cells p :=
    hrange p (by rw [hlist]; exact List.mem_append_right _ (List.mem_cons_self _ _))
  unfold RigidWallGenerator.InRange at hp
  rw [if_pos hrefl, hsrc] at hp
  obtain ⟨hunit, halong⟩ := unit_normal abs (neighborDifference tess e p.2)
    (neighborDifference_ne_zero tess e p.2 hdist) habs
  refine ⟨res, cells[toSizeT (if p.2 = 1 then e.neighbors.2 else e.neighbors.1)],
    ReverseNormalVelocity abs
      cells[toSizeT (if p.2 = 1 then e.neighbors.2 else e.neighbors.1)] e p.2 tess,
    hres, List.getElem?_eq_getElem hp, ?_, hunit, halong,
    ReverseNormalVelocity_velocity _ _ _ _ _⟩
  rw [← hg, hfind, hlist,
    RigidWallGenerator.firstState_append abs tess cells _ p post rfl pre hfirst]
  unfold RigidWallGenerator.ghostState
  rw [if_pos hrefl, hsrc, List.getElem?_eq_getElem hp, he]
  rfl

/-- Over the real numbers, the reflection of `(2, 1)` in the unit vector along the
diagonal `(1, 1)`, which has the irrational length `√2`, is `(-1, -2)`. -/
theorem reflect_diagonal :
    reflectVelocity (⟨2, 1⟩ : Vector2D ℝ)
        ((neighborDifference diagonalTessellation
            (⟨(⟨1, 0⟩, ⟨0, 1⟩), (1, 0)⟩ : Edge ℝ) 1).div (Real.sqrt 2)) = ⟨-1, -2⟩ := by
  have h2 : Real.sqrt 2 * Real.sqrt 2 = 2 := Real.mul_self_sqrt (by norm_num)
  have hne : Real.sqrt 2 ≠ 0 := by
    intro h0
    rw [h0] at h2
    norm_num at h2
  simp only [reflectVelocity, neighborDifference, diagonalTessellation, Vector2D.sub,
    Vector2D.div, if_true, Vector2D.mk.injEq]
  norm_num
  constructor <;> field_simp

/-- Instance of C9: over the rational numbers, the cell with velocity `(2, 1)` next to a
wall whose normal is `(1, 0)` gets a ghost with velocity `(-2, 1)`; over the real
numbers, with `abs` the Euclidean length, the same cell next to the diagonal wall, whose
mesh points are at the distance of the square root of 2, gets a ghost with the velocity
reflected in the unit vector along `(1, 1)`, which is `(-1, -2)`. -/
theorem rigidWall_first_edge_reflected_witness :
    (RigidWallGenerator.call rationalLength (fun _ => [(0, 1)]) wallTessellation
          [⟨1, 3, ⟨2, 1⟩, [("a", 5)]⟩] 0 =
        .ok [(1, ⟨1, 3, ⟨-2, 1⟩, [("a", 5)]⟩)] ∧
      (neighborDifference wallTessellation ⟨(⟨1, -1⟩, ⟨1, 1⟩), (1, 0)⟩ 1).div
          (rationalLength
            (neighborDifference wallTessellation ⟨(⟨1, -1⟩, ⟨1, 1⟩), (1, 0)⟩ 1)) =
        ⟨1, 0⟩ ∧
      ∃ res c s,
        RigidWallGenerator.call rationalLength (fun _ => [(0, 1)]) wallTessellation
            [⟨1, 3, ⟨2, 1⟩, [("a", 5)]⟩] 0 = .ok res ∧
        [(⟨1, 3, ⟨2, 1⟩, [("a", 5)]⟩ : ComputationalCell ℚ)][toSizeT 0]? = some c ∧
        FlatMap.find (toSizeT 1) res = some s ∧
        s.velocity = reflectVelocity c.velocity ⟨1, 0⟩) ∧
      ∃ res c s,
        RigidWallGenerator.call (fun d : Vector2D ℝ => Real.sqrt (ScalarProd d d))
            (fun _ => [(0, 1)]) diagonalTessellation [⟨1, 3, ⟨2, 1⟩, []⟩] 0 = .ok res ∧
        [(⟨1, 3, ⟨2, 1⟩, []⟩ : ComputationalCell ℝ)][toSizeT 0]? = some c ∧
        FlatMap.find (toSizeT 1) res = some s ∧
        ScalarProd
            ((neighborDifference diagonalTessellation
                (⟨(⟨1, 0⟩, ⟨0, 1⟩), (1, 0)⟩ : Edge ℝ) 1).div
              (Real.sqrt 2))
            ((neighborDifference diagonalTessellation
                (⟨(⟨1, 0⟩, ⟨0, 1⟩), (1, 0)⟩ : Edge ℝ) 1).div
              (Real.sqrt 2)) = 1 ∧
        s.velocity =
          reflectVelocity c.velocity
            ((neighborDifference diagonalTessellation
                (⟨(⟨1, 0⟩, ⟨0, 1⟩), (1, 0)⟩ : Edge ℝ) 1).div
              (Real.sqrt 2)) ∧
        s.velocity = ⟨-1, -2⟩ :=
  ⟨⟨by decide!, by decide!, by
    obtain ⟨res, c, s, h1, h2, h3, _, _, h4⟩ :=
      rigidWall_first_edge_reflected rationalLength (fun _ => [(0, 1)]) wallTessellation
        [⟨1, 3, ⟨2, 1⟩, [("a", 5)]⟩] 0 [] [] (0, 1) ⟨(⟨1, -1⟩, ⟨1, 1⟩), (1, 0)⟩
        (by decide!) rfl (by simp) (by decide!) (by decide) (by decide!) (by decide!)
        (by decide!)
    rw [show (neighborDifference wallTessellation ⟨(⟨1, -1⟩, ⟨1, 1⟩), (1, 0)⟩ 1).div
          (rationalLength
            (neighborDifference wallTessellation ⟨(⟨1, -1⟩, ⟨1, 1⟩), (1, 0)⟩ 1)) =
        (⟨1, 0⟩ : Vector2D ℚ) by decide!] at h4
    exact ⟨res, c, s, h1, h2, h3, h4⟩⟩, by
    have hlen : (neighborDifference (diagonalTessellation : Tessellation ℝ)
        ⟨(⟨1, 0⟩, ⟨0, 1⟩), (1, 0)⟩ 1).x *
          (neighborDifference (diagonalTessellation : Tessellation ℝ)
            ⟨(⟨1, 0⟩, ⟨0, 1⟩), (1, 0)⟩ 1).x +
        (neighborDifference (diagonalTessellation : Tessellation ℝ)
          ⟨(⟨1, 0⟩, ⟨0, 1⟩), (1, 0)⟩ 1).y *
          (neighborDifference (diagonalTessellation : Tessellation ℝ)
            ⟨(⟨1, 0⟩, ⟨0, 1⟩), (1, 0)⟩ 1).y = 2 := by
      simp [neighborDifference, diagonalTessellation, Vector2D.sub]
      norm_num
    obtain ⟨res, c, s, h1, h2, h3, h4, _, h5⟩ :=
      rigidWall_first_edge_reflected (fun d : Vector2D ℝ => Real.sqrt (ScalarProd d d))
        (fun _ => [(0, 1)]) diagonalTessellation [⟨1, 3, ⟨2, 1⟩, []⟩] 0 [] [] (0, 1)
        ⟨(⟨1, 0⟩, ⟨0, 1⟩), (1, 0)⟩ rfl rfl (by simp) (by decide) (by decide) (by decide)
        (by simp [diagonalTessellation])
        (Real.mul_self_sqrt (add_nonneg (mul_self_nonneg _) (mul_self_nonneg _)))
    simp only [ScalarProd, hlen] at h4 h5
    have h2' : [(⟨1, 3, ⟨2, 1⟩, []⟩ : ComputationalCell ℝ)][0]? = some c := h2
    have hc : c = ⟨1, 3, ⟨2, 1⟩, []⟩ := (Option.some.inj h2').symm
    refine ⟨res, c, s, h1, h2, h3, h4, h5, ?_⟩
    rw [h5, hc]
    exact reflect_diagonal⟩

/-- C9 fails as stated: two outer edges share the ghost index 2.  The second one meets
every condition of the claim (side 1, original index 0 below the point count 2, distinct
mesh points, unit normal `(0, 1)`), and its other neighbour is the cell 1 with velocity
`(5, 7)`; yet the map returned does not hold a state with the reflected velocity of that
cell under the key 2: it holds the state of the first edge, with velocity `(-2, 1)`. -/
theorem rigidWall_shared_ghost_index_keeps_first :
    RigidWallGenerator.call rationalLength (fun _ => [(0, 1), (1, 1)]) cornerTessellation
          [⟨1, 3, ⟨2, 1⟩, [("a", 5)]⟩, ⟨4, 6, ⟨5, 7⟩, []⟩] 0 =
        .ok [(2, ⟨1, 3, ⟨-2, 1⟩, [("a", 5)]⟩)] ∧
      cornerTessellation.GetEdge (toInt 1) = ⟨(⟨1, -1⟩, ⟨3, -1⟩), (2, 1)⟩ ∧
      cornerTessellation.GetOriginalIndex (toInt (toSizeT 2)) <
        cornerTessellation.GetPointNo ∧
      cornerTessellation.GetMeshPoint 2 ≠ cornerTessellation.GetMeshPoint 1 ∧
      (neighborDifference cornerTessellation ⟨(⟨1, -1⟩, ⟨3, -1⟩), (2, 1)⟩ 1).div
          (rationalLength
            (neighborDifference cornerTessellation ⟨(⟨1, -1⟩, ⟨3, -1⟩), (2, 1)⟩ 1)) =
        ⟨0, 1⟩ ∧
      ¬ ∃ res c s,
        RigidWallGenerator.call rationalLength (fun _ => [(0, 1), (1, 1)])
            cornerTessellation [⟨1, 3, ⟨2, 1⟩, [("a", 5)]⟩, ⟨4, 6, ⟨5, 7⟩, []⟩] 0 =
          .ok res ∧
        [(⟨1, 3, ⟨2, 1⟩, [("a", 5)]⟩ : ComputationalCell ℚ), ⟨4, 6, ⟨5, 7⟩, []⟩][toSizeT 1]? =
          some c ∧
        FlatMap.find (toSizeT 2) res = some s ∧
        s.velocity = reflectVelocity c.velocity ⟨0, 1⟩ := by
  have hcall : RigidWallGenerator.call rationalLength (fun _ => [(0, 1), (1, 1)])
      cornerTessellation [⟨1, 3, ⟨2, 1⟩, [("a", 5)]⟩, ⟨4, 6, ⟨5, 7⟩, []⟩] 0 =
        .ok [(2, ⟨1, 3, ⟨-2, 1⟩, [("a", 5)]⟩)] := by decide!
  refine ⟨hcall, by decide!, by decide!, by decide!, by decide!, ?_⟩
  rintro ⟨res, c, s, h1, h2, h3, h4⟩
  rw [hcall] at h1
  injection h1 with h1
  subst h1
  rw [show [(⟨1, 3, ⟨2, 1⟩, [("a", 5)]⟩ : ComputationalCell ℚ), ⟨4, 6, ⟨5, 7⟩, []⟩][toSizeT 1]? =
    some ⟨4, 6, ⟨5, 7⟩, []⟩ by decide!] at h2
  rw [show FlatMap.find (toSizeT 2)
      [(2, (⟨1, 3, ⟨-2, 1⟩, [("a", 5)]⟩ : ComputationalCell ℚ))] =
    some ⟨1, 3, ⟨-2, 1⟩, [("a", 5)]⟩ by decide!] at h3
  injection h2 with h2
  injection h3 with h3
  subst h2 h3
  exact absurd h4 (by decide!)

/-- C10: when every subscript of `cells` in the loop is in range, `operator()` returns,
and every entry of the result whose key has an original index below the point count (a
reflected entry) comes from an outer edge with that ghost index and agrees with the cell
`cells[source]` it was copied from in density, pressure and the whole tracer list; only
the velocity field can differ.  The vector `cells` is an argument of the function, which
returns a new map and nothing else. -/
theorem rigidWall_reflected_entry_frame (abs : Vector2D K → K)
    (GetOuterEdgesIndeces : Tessellation K → List (Nat × Nat)) (tess : Tessellation K)
    (cells : List (ComputationalCell K)) (time : K)
    (hrange : ∀ q ∈ GetOuterEdgesIndeces tess, RigidWallGenerator.InRange tess cells q) :
    ∃ res, RigidWallGenerator.call abs GetOuterEdgesIndeces tess cells time = .ok res ∧
      ∀ g s, FlatMap.find g res = some s →
        tess.GetOriginalIndex (toInt g) < tess.GetPointNo →
          ∃ p ∈ GetOuterEdgesIndeces tess, RigidWallGenerator.ghostIndex tess p = g ∧
            ∃ c, cells[RigidWallGenerator.sourceIndex tess p]? = some c ∧
              s.density = c.density ∧ s.pressure = c.pressure ∧ s.tracers = c.tracers ∧
              s = { c with velocity := s.velocity } := by
  obtain ⟨res, hres, hfind⟩ :=
    RigidWallGenerator.call_find abs GetOuterEdgesIndeces tess cells time hrange
  refine ⟨res, hres, fun g s hs horig => ?_⟩
  rw [hfind] at hs
  obtain ⟨p, hp, hg, hstate⟩ :=
    RigidWallGenerator.firstState_some abs tess cells g s _ hs
  refine ⟨p, hp, hg, ?_⟩
  have hrefl : RigidWallGenerator.Reflects tess p := by
    unfold RigidWallGenerator.Reflects
    rw [hg]
    exact horig
  unfold RigidWallGenerator.ghostState at hstate
  rw [if_pos hrefl] at hstate
  cases hc : cells[RigidWallGenerator.sourceIndex tess p]? with
  | none => rw [hc] at hstate; exact absurd hstate (by simp)
  | some c =>
    rw [hc] at hstate
    simp only [Option.map_some', Option.some.injEq] at hstate
    subst hstate
    exact ⟨c, rfl, rfl, rfl, rfl, rfl⟩

/-- Instance of C10: the ghost of the cell with density 1, pressure 3 and the tracer
`a = 5` keeps these three and has the velocity reversed along the normal. -/
theorem rigidWall_reflected_entry_frame_witness :
    (∀ q ∈ (fun _ => [(0, 1)] : Tessellation ℚ → List (Nat × Nat)) wallTessellation,
        RigidWallGenerator.InRange wallTessellation [⟨1, 3, ⟨2, 1⟩, [("a", 5)]⟩] q) ∧
      RigidWallGenerator.call rationalLength (fun _ => [(0, 1)]) wallTessellation
          [⟨1, 3, ⟨2, 1⟩, [("a", 5)]⟩] 0 =
        .ok [(1, ⟨1, 3, ⟨-2, 1⟩, [("a", 5)]⟩)] ∧
      ∃ res, RigidWallGenerator.call rationalLength (fun _ => [(0, 1)]) wallTessellation
          [⟨1, 3, ⟨2, 1⟩, [("a", 5)]⟩] 0 = .ok res ∧
        ∀ g s, FlatMap.find g res = some s →
          wallTessellation.GetOriginalIndex (toInt g) < wallTessellation.GetPointNo →
            ∃ p ∈ (fun _ => [(0, 1)] : Tessellation ℚ → List (Nat × Nat)) wallTessellation,
              RigidWallGenerator.ghostIndex wallTessellation p = g ∧
              ∃ c, [(⟨1, 3, ⟨2, 1⟩, [("a", 5)]⟩ : ComputationalCell ℚ)][
                  RigidWallGenerator.sourceIndex wallTessellation p]? = some c ∧
                s.density = c.density ∧ s.pressure = c.pressure ∧
                s.tracers = c.tracers ∧ s = { c with velocity := s.velocity } :=
  ⟨by decide!, by decide!,
    rigidWall_reflected_entry_frame rationalLength (fun _ => [(0, 1)]) wallTessellation
      [⟨1, 3, ⟨2, 1⟩, [("a", 5)]⟩] 0 (by decide!)⟩

/-! ## Claims about the ghost gradient, the copied states and the key set -/

/-- C11: when the original index of the ghost index is a valid subscript of `cells`,
`GetGhostGradient` returns a pair of two equal states with density 0, pressure 0,
velocity `(0, 0)` and every tracer value 0, whose tracer keys are, in order, the tracer
keys of `cells[GetOriginalIndex(ghost_index)]`; the result is the same for all values of
the arguments `gradients`, `time` and `edge`. -/
theorem ghostGradient_is_zero (tess : Tessellation K) (cells : List (ComputationalCell K))
    (gradients : List (ComputationalCell K × ComputationalCell K)) (ghost_index : Nat)
    (time : K) (edge : Edge K)
    (h : toSizeT (tess.GetOriginalIndex (toInt ghost_index)) < cells.length) :
    ∃ c s, cells[toSizeT (tess.GetOriginalIndex (toInt ghost_index))]? = some c ∧
      RigidWallGenerator.GetGhostGradient tess cells gradients ghost_index time edge =
        .ok (s, s) ∧
      s.density = 0 ∧ s.pressure = 0 ∧ s.velocity = ⟨0, 0⟩ ∧
      (∀ it ∈ s.tracers, it.2 = 0) ∧
      s.tracers.map Prod.fst = c.tracers.map Prod.fst ∧
      ∀ (gradients' : List (ComputationalCell K × ComputationalCell K)) (time' : K)
        (edge' : Edge K),
        RigidWallGenerator.GetGhostGradient tess cells gradients' ghost_index time' edge' =
          RigidWallGenerator.GetGhostGradient tess cells gradients ghost_index time edge := by
  refine ⟨cells[toSizeT (tess.GetOriginalIndex (toInt ghost_index))],
    { density := 0, pressure := 0, velocity := ⟨0, 0⟩,
      tracers := (cells[toSizeT (tess.GetOriginalIndex (toInt ghost_index))]).tracers.map
        fun it => (it.1, 0) },
    List.getElem?_eq_getElem h, ?_, rfl, rfl, rfl, ?_, ?_, fun _ _ _ => rfl⟩
  · unfold RigidWallGenerator.GetGhostGradient
    rw [List.getElem?_eq_getElem h]
  · intro it hit
    simp only [List.mem_map] at hit
    obtain ⟨a, _, rfl⟩ := hit
    rfl
  · simp [List.map_map, Function.comp_def]

/-- Instance of C11: the ghost `1` of the cell with the tracers `a = 5` and `b = 7`. -/
theorem ghostGradient_is_zero_witness :
    toSizeT (wallTessellation.GetOriginalIndex (toInt 1)) <
        [(⟨1, 3, ⟨2, 1⟩, [("a", 5), ("b", 7)]⟩ : ComputationalCell ℚ)].length ∧
      RigidWallGenerator.GetGhostGradient wallTessellation
          [⟨1, 3, ⟨2, 1⟩, [("a", 5), ("b", 7)]⟩] [] 1 0 ⟨(⟨1, -1⟩, ⟨1, 1⟩), (1, 0)⟩ =
        .ok (⟨0, 0, ⟨0, 0⟩, [("a", 0), ("b", 0)]⟩, ⟨0, 0, ⟨0, 0⟩, [("a", 0), ("b", 0)]⟩) ∧
      ∃ c s, [(⟨1, 3, ⟨2, 1⟩, [("a", 5), ("b", 7)]⟩ : ComputationalCell ℚ)][
            toSizeT (wallTessellation.GetOriginalIndex (toInt 1))]? = some c ∧
        RigidWallGenerator.GetGhostGradient wallTessellation
            [⟨1, 3, ⟨2, 1⟩, [("a", 5), ("b", 7)]⟩] [] 1 0 ⟨(⟨1, -1⟩, ⟨1, 1⟩), (1, 0)⟩ =
          .ok (s, s) ∧
        s.density = 0 ∧ s.pressure = 0 ∧ s.velocity = ⟨0, 0⟩ ∧
        (∀ it ∈ s.tracers, it.2 = 0) ∧
        s.tracers.map Prod.fst = c.tracers.map Prod.fst :=
  ⟨by decide!, by decide!, by
    obtain ⟨c, s, h1, h2, h3, h4, h5, h6, h7, _⟩ :=
      ghostGradient_is_zero wallTessellation [⟨1, 3, ⟨2, 1⟩, [("a", 5), ("b", 7)]⟩] [] 1 0
        ⟨(⟨1, -1⟩, ⟨1, 1⟩), (1, 0)⟩ (by decide!)
    exact ⟨c, s, h1, h2, h3, h4, h5, h6, h7⟩⟩

/-! ### Entries that are not reflected -/

theorem RigidWallGenerator.firstState_copied (abs : Vector2D K → K) (tess : Tessellation K)
    (cells : List (ComputationalCell K)) (k : Nat)
    (hk : ¬ tess.GetOriginalIndex (toInt k) < tess.GetPointNo) :
    ∀ l : List (Nat × Nat), (∃ p ∈ l, RigidWallGenerator.ghostIndex tess p = k) →
      RigidWallGenerator.firstState abs tess cells k l = cells[k]? := by
  intro l
  induction l with
  | nil => rintro ⟨p, hp, _⟩; exact absurd hp (List.not_mem_nil _)
  | cons q l ih =>
    rintro ⟨p, hp, hpk⟩
    rw [RigidWallGenerator.firstState]
    by_cases hq : RigidWallGenerator.ghostIndex tess q = k
    · rw [if_pos hq]
      subst hq
      have hr : ¬ RigidWallGenerator.Reflects tess q := hk
      unfold RigidWallGenerator.ghostState
      rw [if_neg hr]
    · rw [if_neg hq]
      rcases List.mem_cons.mp hp with rfl | hp
      · exact absurd hpk hq
      · exact ih ⟨p, hp, hpk⟩

/-- C12, as the code has it: for every outer edge whose ghost index `g` is not given a
reflected state (the original index of `g` is not below the point count), and with every
subscript of `cells` in the loop in range, the map returned holds under `g` the state
`cells[g]`, unchanged: the entry of `cells` at the ghost index itself. -/
theorem rigidWall_copied_entry (abs : Vector2D K → K)
    (GetOuterEdgesIndeces : Tessellation K → List (Nat × Nat)) (tess : Tessellation K)
    (cells : List (ComputationalCell K)) (time : K) (p : Nat × Nat)
    (hp : p ∈ GetOuterEdgesIndeces tess)
    (hrange : ∀ q ∈ GetOuterEdgesIndeces tess, RigidWallGenerator.InRange tess cells q)
    (hnot : ¬ tess.GetOriginalIndex (toInt (RigidWallGenerator.ghostIndex tess p)) <
      tess.GetPointNo) :
    ∃ res c,
      RigidWallGenerator.call abs GetOuterEdgesIndeces tess cells time = .ok res ∧
      cells[RigidWallGenerator.ghostIndex tess p]? = some c ∧
      FlatMap.find (RigidWallGenerator.ghostIndex tess p) res = some c := by
  obtain ⟨res, hres, hfind⟩ :=
    RigidWallGenerator.call_find abs GetOuterEdgesIndeces tess cells time hrange
  have hin := hrange p hp
  unfold RigidWallGenerator.InRange RigidWallGenerator.Reflects at hin
  rw [if_neg hnot] at hin
  refine ⟨res, cells[RigidWallGenerator.ghostIndex tess p], hres,
    List.getElem?_eq_getElem hin, ?_⟩
  rw [hfind, RigidWallGenerator.firstState_copied abs tess cells _ hnot _ ⟨p, hp, rfl⟩,
    List.getElem?_eq_getElem hin]

/-- Instance of C12 as amended: the ghost index 2 with original index 1, not below the
point count 1, receives `cells[2]`. -/
theorem rigidWall_copied_entry_witness :
    RigidWallGenerator.ghostIndex copiedGhostTessellation (0, 1) = 2 ∧
      ∃ res c,
        RigidWallGenerator.call rationalLength (fun _ => [(0, 1)]) copiedGhostTessellation
            [⟨1, 3, ⟨2, 1⟩, []⟩, ⟨4, 6, ⟨5, 7⟩, []⟩, ⟨8, 9, ⟨0, 1⟩, []⟩] 0 = .ok res ∧
        [(⟨1, 3, ⟨2, 1⟩, []⟩ : ComputationalCell ℚ), ⟨4, 6, ⟨5, 7⟩, []⟩,
            ⟨8, 9, ⟨0, 1⟩, []⟩][
              RigidWallGenerator.ghostIndex copiedGhostTessellation (0, 1)]? = some c ∧
        FlatMap.find (RigidWallGenerator.ghostIndex copiedGhostTessellation (0, 1)) res =
          some c :=
  ⟨by decide!,
    rigidWall_copied_entry rationalLength (fun _ => [(0, 1)]) copiedGhostTessellation
      [⟨1, 3, ⟨2, 1⟩, []⟩, ⟨4, 6, ⟨5, 7⟩, []⟩, ⟨8, 9, ⟨0, 1⟩, []⟩] 0 (0, 1)
      (List.mem_singleton.mpr rfl) (by decide!) (by decide!)⟩

/-- C12 fails as stated: the ghost index 2 has the original index 1, which is not below
the point count 1, so its entry is not a reflected one; the map returned holds `cells[2]`
under the key 2, and that is not `cells[GetOriginalIndex(2)] = cells[1]`. -/
theorem rigidWall_copied_entry_not_original :
    RigidWallGenerator.call rationalLength (fun _ => [(0, 1)]) copiedGhostTessellation
          [⟨1, 3, ⟨2, 1⟩, []⟩, ⟨4, 6, ⟨5, 7⟩, []⟩, ⟨8, 9, ⟨0, 1⟩, []⟩] 0 =
        .ok [(2, ⟨8, 9, ⟨0, 1⟩, []⟩)] ∧
      RigidWallGenerator.ghostIndex copiedGhostTessellation (0, 1) = 2 ∧
      ¬ copiedGhostTessellation.GetOriginalIndex (toInt 2) <
          copiedGhostTessellation.GetPointNo ∧
      [(⟨1, 3, ⟨2, 1⟩, []⟩ : ComputationalCell ℚ), ⟨4, 6, ⟨5, 7⟩, []⟩, ⟨8, 9, ⟨0, 1⟩, []⟩][
          toSizeT (copiedGhostTessellation.GetOriginalIndex (toInt 2))]? =
        some ⟨4, 6, ⟨5, 7⟩, []⟩ ∧
      FlatMap.find 2 [(2, (⟨8, 9, ⟨0, 1⟩, []⟩ : ComputationalCell ℚ))] ≠
        [(⟨1, 3, ⟨2, 1⟩, []⟩ : ComputationalCell ℚ), ⟨4, 6, ⟨5, 7⟩, []⟩, ⟨8, 9, ⟨0, 1⟩, []⟩][
          toSizeT (copiedGhostTessellation.GetOriginalIndex (toInt 2))]? := by
  refine ⟨?_, ?_, ?_, ?_, ?_⟩ <;> decide!

/-! ### The key set -/

theorem FlatMap.find_isSome_iff {α : Type} (k : Nat) :
    ∀ m : List (Nat × α), (FlatMap.find k m).isSome ↔ k ∈ m.map Prod.fst := by
  intro m
  induction m with
  | nil => simp [FlatMap.find]
  | cons e m ih =>
    obtain ⟨k', v⟩ := e
    rw [FlatMap.find]
    by_cases h : k = k'
    · simp [h]
    · rw [if_neg h, ih]
      simp [h]

theorem RigidWallGenerator.firstState_isSome_iff (abs : Vector2D K → K) (tess : Tessellation K)
    (cells : List (ComputationalCell K)) (k : Nat) :
    ∀ l : List (Nat × Nat), (∀ q ∈ l, RigidWallGenerator.InRange tess cells q) →
      ((RigidWallGenerator.firstState abs tess cells k l).isSome ↔
        ∃ p ∈ l, RigidWallGenerator.ghostIndex tess p = k) := by
  intro l
  induction l with
  | nil => intro _; simp [RigidWallGenerator.firstState]
  | cons q l ih =>
    intro hr
    rw [RigidWallGenerator.firstState]
    by_cases hq : RigidWallGenerator.ghostIndex tess q = k
    · rw [if_pos hq]
      obtain ⟨s, hs⟩ := RigidWallGenerator.ghostState_isSome abs tess cells q
        (hr q (List.mem_cons_self _ _))
      rw [hs]
      simp only [Option.isSome_some, true_iff]
      exact ⟨q, List.mem_cons_self _ _, hq⟩
    · rw [if_neg hq, ih fun p hp => hr p (List.mem_cons_of_mem _ hp)]
      constructor
      · rintro ⟨p, hp, hpk⟩; exact ⟨p, List.mem_cons_of_mem _ hp, hpk⟩
      · rintro ⟨p, hp, hpk⟩
        rcases List.mem_cons.mp hp with rfl | hp
        · exact absurd hpk hq
        · exact ⟨p, hp, hpk⟩

/-- C13: with every subscript of `cells` in the loop in range, `operator()` returns a
map whose keys are exactly the ghost indices of the outer edges listed by
`GetOuterEdgesIndeces` (`e.neighbors.first` when the side flag is 1, `e.neighbors.second`
otherwise): every listed edge has an entry under its ghost index, and no other key is
present. -/
theorem rigidWall_key_set (abs : Vector2D K → K)
    (GetOuterEdgesIndeces : Tessellation K → List (Nat × Nat)) (tess : Tessellation K)
    (cells : List (ComputationalCell K)) (time : K)
    (hrange : ∀ q ∈ GetOuterEdgesIndeces tess, RigidWallGenerator.InRange tess cells q) :
    ∃ res, RigidWallGenerator.call abs GetOuterEdgesIndeces tess cells time = .ok res ∧
      ∀ k, k ∈ res.map Prod.fst ↔
        ∃ p ∈ GetOuterEdgesIndeces tess,
          toSizeT (if p.2 = 1 then (tess.GetEdge (toInt p.1)).neighbors.1
            else (tess.GetEdge (toInt p.1)).neighbors.2) = k := by
  obtain ⟨res, hres, hfind⟩ :=
    RigidWallGenerator.call_find abs GetOuterEdgesIndeces tess cells time hrange
  refine ⟨res, hres, fun k => ?_⟩
  rw [← FlatMap.find_isSome_iff, hfind,
    RigidWallGenerator.firstState_isSome_iff abs tess cells k _ hrange]
  constructor
  · rintro ⟨p, hp, hpk⟩
    exact ⟨p, hp, by rw [← RigidWallGenerator.ghostIndex_eq]; exact hpk⟩
  · rintro ⟨p, hp, hpk⟩
    exact ⟨p, hp, by rw [RigidWallGenerator.ghostIndex_eq]; exact hpk⟩

/-- Instance of C13: two outer edges with the same ghost index 2 give the one key 2. -/
theorem rigidWall_key_set_witness :
    RigidWallGenerator.call rationalLength (fun _ => [(0, 1), (1, 1)]) cornerTessellation
          [⟨1, 3, ⟨2, 1⟩, [("a", 5)]⟩, ⟨4, 6, ⟨5, 7⟩, []⟩] 0 =
        .ok [(2, ⟨1, 3, ⟨-2, 1⟩, [("a", 5)]⟩)] ∧
      ∃ res, RigidWallGenerator.call rationalLength (fun _ => [(0, 1), (1, 1)])
          cornerTessellation [⟨1, 3, ⟨2, 1⟩, [("a", 5)]⟩, ⟨4, 6, ⟨5, 7⟩, []⟩] 0 = .ok res ∧
        ∀ k, k ∈ res.map Prod.fst ↔
          ∃ p ∈ (fun _ => [(0, 1), (1, 1)] : Tessellation ℚ → List (Nat × Nat))
              cornerTessellation,
            toSizeT (if p.2 = 1 then (cornerTessellation.GetEdge (toInt p.1)).neighbors.1
              else (cornerTessellation.GetEdge (toInt p.1)).neighbors.2) = k :=
  ⟨by decide!,
    rigidWall_key_set rationalLength (fun _ => [(0, 1), (1, 1)]) cornerTessellation
      [⟨1, 3, ⟨2, 1⟩, [("a", 5)]⟩, ⟨4, 6, ⟨5, 7⟩, []⟩] 0 (by decide!)⟩

/-! ## The number of tetrahedra and the reserved capacity -/

theorem foldl_visitVertex_expected (l : List VectorRef) :
    ∀ s : SplitCell.Scan,
      (l.foldl SplitCell.visitVertex s).expectedNumTetrahedra = s.expectedNumTetrahedra := by
  induction l with
  | nil => intro s; rfl
  | cons v l ih =>
    intro s
    rw [List.foldl_cons, ih]
    unfold SplitCell.visitVertex
    split <;> rfl

theorem foldl_visitFace_expected (cell : List Face) :
    ∀ s : SplitCell.Scan,
      (cell.foldl SplitCell.visitFace s).expectedNumTetrahedra =
        (s.expectedNumTetrahedra +
          (cell.map fun f => sizeSub1 f.vertices.length).sum) % 2 ^ 64 ∨
      cell = [] := by
  induction cell with
  | nil => intro s; exact Or.inr rfl
  | cons f cell ih =>
    intro s
    left
    rw [List.foldl_cons]
    have hf : (SplitCell.visitFace s f).expectedNumTetrahedra =
        (s.expectedNumTetrahedra + sizeSub1 f.vertices.length) % 2 ^ 64 := by
      unfold SplitCell.visitFace
      rw [foldl_visitVertex_expected]
    rcases ih (SplitCell.visitFace s f) with h | h
    · rw [h, hf, List.map_cons, List.sum_cons]
      omega
    · subst h
      rw [List.foldl_nil, hf, List.map_cons, List.sum_cons, List.map_nil, List.sum_nil]
      omega

theorem scan_expected (cell : List Face) :
    (SplitCell.scan cell).expectedNumTetrahedra =
      (cell.map fun f => sizeSub1 f.vertices.length).sum % 2 ^ 64 := by
  unfold SplitCell.scan
  rcases foldl_visitFace_expected cell ⟨[], Vector3D.zero, 0⟩ with h | h
  · rw [h, Nat.zero_add]
  · subst h; rfl

theorem length_fanTetrahedra (c : VectorRef) (f : Face) :
    (fanTetrahedra c f).length = f.vertices.length - 2 := by
  simp [fanTetrahedra]

theorem length_flatMap_fan (c : VectorRef) (cell : List Face) :
    (cell.flatMap (fanTetrahedra c)).length =
      (cell.map fun f => f.vertices.length - 2).sum := by
  induction cell with
  | nil => rfl
  | cons f cell ih =>
    rw [List.flatMap_cons, List.length_append, ih, length_fanTetrahedra, List.map_cons,
      List.sum_cons]

theorem sum_sizeSub1 (cell : List Face) (h : ∀ f ∈ cell, 2 ≤ f.vertices.length) :
    (cell.map fun f => sizeSub1 f.vertices.length).sum =
      (cell.map fun f => f.vertices.length - 1).sum := by
  induction cell with
  | nil => rfl
  | cons f cell ih =>
    have hf := h f (List.mem_cons_self _ _)
    rw [List.map_cons, List.map_cons, List.sum_cons, List.sum_cons,
      ih fun g hg => h g (List.mem_cons_of_mem _ hg)]
    unfold sizeSub1
    rw [if_neg (by omega)]

theorem sum_sub_two_le (cell : List Face) :
    (cell.map fun f => f.vertices.length - 2).sum ≤
      (cell.map fun f => f.vertices.length - 1).sum := by
  induction cell with
  | nil => exact Nat.le_refl _
  | cons f cell ih =>
    rw [List.map_cons, List.map_cons, List.sum_cons, List.sum_cons]
    omega

/-- C18: for every cell in which every face has at least 2 vertices, and whose sum over
the faces of (vertex count - 1) is a `size_t` value (below `2 ^ 64`), `SplitCell` returns
as many tetrahedra as the sum over the faces of (vertex count - 2); the capacity reserved
beforehand, `expectedNumTetrahedra`, is the sum over the faces of (vertex count - 1), and
the number of tetrahedra does not exceed it. -/
theorem splitCell_count_within_reserve (cell : List Face) (old : List Tetrahedron)
    (h : ∀ f ∈ cell, 2 ≤ f.vertices.length)
    (hrep : (cell.map fun f => f.vertices.length - 1).sum < 2 ^ 64) :
    ∃ ts, SplitCell cell old = .ok ts ∧
      ts.length = (cell.map fun f => f.vertices.length - 2).sum ∧
      (SplitCell.scan cell).expectedNumTetrahedra =
        (cell.map fun f => f.vertices.length - 1).sum ∧
      ts.length ≤ (SplitCell.scan cell).expectedNumTetrahedra := by
  have hne : ∀ f ∈ cell, f.vertices ≠ [] := by
    intro f hf hnil
    have := h f hf
    rw [hnil] at this
    simp at this
  have hexp : (SplitCell.scan cell).expectedNumTetrahedra =
      (cell.map fun f => f.vertices.length - 1).sum := by
    rw [scan_expected, sum_sizeSub1 cell h, Nat.mod_eq_of_lt hrep]
  refine ⟨_, SplitCell_ok cell old hne, length_flatMap_fan _ cell, hexp, ?_⟩
  rw [length_flatMap_fan, hexp]
  exact sum_sub_two_le cell

/-- Instance of C18: a quadrilateral, a triangle and a face of two vertices give
2 + 1 + 0 tetrahedra for a reserved capacity of 3 + 2 + 1. -/
theorem splitCell_count_within_reserve_witness :
    (SplitCell.scan
          [Face.mk [⟨0, 0, 0⟩, ⟨3, 0, 0⟩, ⟨3, 3, 0⟩, ⟨0, 3, 0⟩],
            Face.mk [⟨0, 0, 0⟩, ⟨3, 0, 0⟩, ⟨0, 0, 6⟩],
            Face.mk [⟨0, 0, 0⟩, ⟨0, 0, 6⟩]]).expectedNumTetrahedra = 6 ∧
      ∃ ts, SplitCell
            [Face.mk [⟨0, 0, 0⟩, ⟨3, 0, 0⟩, ⟨3, 3, 0⟩, ⟨0, 3, 0⟩],
              Face.mk [⟨0, 0, 0⟩, ⟨3, 0, 0⟩, ⟨0, 0, 6⟩],
              Face.mk [⟨0, 0, 0⟩, ⟨0, 0, 6⟩]] [] = .ok ts ∧
        ts.length = 3 ∧ ts.length ≤ 6 :=
  ⟨by decide!, by
    obtain ⟨ts, h1, h2, h3, h4⟩ := splitCell_count_within_reserve
      [Face.mk [⟨0, 0, 0⟩, ⟨3, 0, 0⟩, ⟨3, 3, 0⟩, ⟨0, 3, 0⟩],
        Face.mk [⟨0, 0, 0⟩, ⟨3, 0, 0⟩, ⟨0, 0, 6⟩],
        Face.mk [⟨0, 0, 0⟩, ⟨0, 0, 6⟩]] [] (by decide) (by decide)
    exact ⟨ts, h1, h2, by rw [h3] at h4; exact h4⟩⟩

/-! ## Algebra of `ReverseNormalVelocity` -/

theorem reflectVelocity_neg (v n : Vector2D K) :
    reflectVelocity v ⟨-n.x, -n.y⟩ = reflectVelocity v n := by
  simp only [reflectVelocity, Vector2D.mk.injEq]
  constructor <;> ring

theorem neighborDifference_other (tess : Tessellation K) (edge : Edge K) (index : Nat)
    (h : index ≠ 1) :
    neighborDifference tess edge index =
      ⟨-(neighborDifference tess edge 1).x, -(neighborDifference tess edge 1).y⟩ := by
  simp only [neighborDifference, if_neg h, if_true, Vector2D.sub, Vector2D.mk.injEq]
  constructor <;> ring

/-- Division of a vector and of its opposite by the same number gives opposite vectors. -/
theorem div_neg_eq (d : Vector2D K) (a : K) :
    Vector2D.div ⟨-d.x, -d.y⟩ a = ⟨-(d.div a).x, -(d.div a).y⟩ := by
  simp only [Vector2D.div, Vector2D.mk.injEq]
  constructor <;> ring

/-- C19: for every cell, every edge whose two neighbours have distinct mesh points and
every tessellation, over any field of values and for every function `abs` that takes the
same value on the two opposite differences of the mesh points (as a length does),
`ReverseNormalVelocity` gives for the side flag 1 the same result as for any other side
flag.  The difference it divides is not the zero vector; for a side flag other than 1 the
normal is the opposite of the normal for the side flag 1; and the reflection
`v - 2 (v . n) n` is unchanged when `n` is replaced by `-n`. -/
theorem reverseNormalVelocity_side_independent (abs : Vector2D K → K)
    (cell : ComputationalCell K) (edge : Edge K) (index : Nat) (tess : Tessellation K)
    (hdist : tess.GetMeshPoint edge.neighbors.1 ≠ tess.GetMeshPoint edge.neighbors.2)
    (heven : abs (neighborDifference tess edge index) =
      abs (neighborDifference tess edge 1)) :
    ReverseNormalVelocity abs cell edge 1 tess =
        ReverseNormalVelocity abs cell edge index tess ∧
      neighborDifference tess edge index ≠ ⟨0, 0⟩ ∧
      (index ≠ 1 →
        (neighborDifference tess edge index).div (abs (neighborDifference tess edge index)) =
          ⟨-((neighborDifference tess edge 1).div (abs (neighborDifference tess edge 1))).x,
            -((neighborDifference tess edge 1).div
              (abs (neighborDifference tess edge 1))).y⟩) ∧
      ∀ v n : Vector2D K, reflectVelocity v ⟨-n.x, -n.y⟩ = reflectVelocity v n := by
  have hopp : index ≠ 1 →
      (neighborDifference tess edge index).div (abs (neighborDifference tess edge index)) =
        ⟨-((neighborDifference tess edge 1).div (abs (neighborDifference tess edge 1))).x,
          -((neighborDifference tess edge 1).div
            (abs (neighborDifference tess edge 1))).y⟩ := by
    intro hi
    rw [heven, neighborDifference_other tess edge index hi]
    exact div_neg_eq _ _
  refine ⟨?_, neighborDifference_ne tess edge index hdist, hopp, reflectVelocity_neg⟩
  by_cases hi : index = 1
  · rw [hi]
  · have hv : (ReverseNormalVelocity abs cell edge 1 tess).velocity =
        (ReverseNormalVelocity abs cell edge index tess).velocity := by
      rw [ReverseNormalVelocity_velocity, ReverseNormalVelocity_velocity, hopp hi,
        reflectVelocity_neg]
    cases hc : cell with
    | mk density pressure velocity tracers =>
      rw [hc] at hv
      simp only [ReverseNormalVelocity] at hv ⊢
      rw [ComputationalCell.mk.injEq]
      exact ⟨rfl, rfl, hv, rfl⟩

/-- Instance of C19: the wall edge of the example over the rational numbers, for the side
flags 1 and 2; and the diagonal edge over the real numbers, whose length is the square
root of 2, with `abs` the Euclidean length. -/
theorem reverseNormalVelocity_side_independent_witness :
    (ReverseNormalVelocity rationalLength ⟨1, 3, ⟨2, 1⟩, [("a", 5)]⟩
          ⟨(⟨1, -1⟩, ⟨1, 1⟩), (1, 0)⟩ 1 wallTessellation =
        ReverseNormalVelocity rationalLength ⟨1, 3, ⟨2, 1⟩, [("a", 5)]⟩
          ⟨(⟨1, -1⟩, ⟨1, 1⟩), (1, 0)⟩ 2 wallTessellation ∧
      ReverseNormalVelocity rationalLength ⟨1, 3, ⟨2, 1⟩, [("a", 5)]⟩
          ⟨(⟨1, -1⟩, ⟨1, 1⟩), (1, 0)⟩ 2 wallTessellation = ⟨1, 3, ⟨-2, 1⟩, [("a", 5)]⟩) ∧
      ReverseNormalVelocity (fun d : Vector2D ℝ => Real.sqrt (ScalarProd d d))
          ⟨1, 3, ⟨2, 1⟩, []⟩ ⟨(⟨1, 0⟩, ⟨0, 1⟩), (1, 0)⟩ 1 diagonalTessellation =
        ReverseNormalVelocity (fun d : Vector2D ℝ => Real.sqrt (ScalarProd d d))
          ⟨1, 3, ⟨2, 1⟩, []⟩ ⟨(⟨1, 0⟩, ⟨0, 1⟩), (1, 0)⟩ 2 diagonalTessellation :=
  ⟨⟨(reverseNormalVelocity_side_independent rationalLength ⟨1, 3, ⟨2, 1⟩, [("a", 5)]⟩
      ⟨(⟨1, -1⟩, ⟨1, 1⟩), (1, 0)⟩ 2 wallTessellation (by decide!) (by decide!)).1,
      by decide!⟩,
    (reverseNormalVelocity_side_independent
      (fun d : Vector2D ℝ => Real.sqrt (ScalarProd d d)) ⟨1, 3, ⟨2, 1⟩, []⟩
      ⟨(⟨1, 0⟩, ⟨0, 1⟩), (1, 0)⟩ 2 diagonalTessellation
      (by simp [diagonalTessellation])
      (by simp [neighborDifference, diagonalTessellation, ScalarProd, Vector2D.sub])).1⟩

theorem reflect_unit (v n : Vector2D K) (hn : ScalarProd n n = 1) :
    ScalarProd (reflectVelocity v n) (reflectVelocity v n) = ScalarProd v v ∧
      perpendicularPart (reflectVelocity v n) n = perpendicularPart v n ∧
      reflectVelocity (reflectVelocity v n) n = v := by
  simp only [ScalarProd] at hn
  refine ⟨?_, ?_, ?_⟩
  · simp only [ScalarProd, reflectVelocity]
    linear_combination (4 * (v.x * n.x + v.y * n.y) ^ 2) * hn
  · simp only [perpendicularPart, ScalarProd, reflectVelocity, Vector2D.sub, Vector2D.smul,
      Vector2D.mk.injEq]
    constructor
    · linear_combination (2 * (v.x * n.x + v.y * n.y) * n.x) * hn
    · linear_combination (2 * (v.x * n.x + v.y * n.y) * n.y) * hn
  · cases v with
    | mk x y =>
      simp only [reflectVelocity, Vector2D.mk.injEq]
      constructor
      · linear_combination (4 * (x * n.x + y * n.y) * n.x) * hn
      · linear_combination (4 * (x * n.x + y * n.y) * n.y) * hn

/-- C20: over any ordered field of values (the real numbers, in which every vector has a
Euclidean length, among them), for every cell and every edge whose two neighbours have
distinct mesh points, with `abs` the Euclidean length of their difference,
`ReverseNormalVelocity` preserves the squared speed, leaves the part of the velocity
perpendicular to the normal unchanged, and applied twice with the same edge gives back
the cell. -/
theorem reverseNormalVelocity_isometry_involution {F : Type} [LinearOrderedField F]
    (abs : Vector2D F → F)
    (cell : ComputationalCell F) (edge : Edge F) (index : Nat) (tess : Tessellation F)
    (hdist : tess.GetMeshPoint edge.neighbors.1 ≠ tess.GetMeshPoint edge.neighbors.2)
    (habs : abs (neighborDifference tess edge index) *
        abs (neighborDifference tess edge index) =
      ScalarProd (neighborDifference tess edge index)
        (neighborDifference tess edge index)) :
    ScalarProd (ReverseNormalVelocity abs cell edge index tess).velocity
          (ReverseNormalVelocity abs cell edge index tess).velocity =
        ScalarProd cell.velocity cell.velocity ∧
      perpendicularPart (ReverseNormalVelocity abs cell edge index tess).velocity
          ((neighborDifference tess edge index).div
            (abs (neighborDifference tess edge index))) =
        perpendicularPart cell.velocity
          ((neighborDifference tess edge index).div
            (abs (neighborDifference tess edge index))) ∧
      ReverseNormalVelocity abs (ReverseNormalVelocity abs cell edge index tess) edge index
          tess = cell := by
  obtain ⟨hunit, _⟩ := unit_normal abs (neighborDifference tess edge index)
    (neighborDifference_ne_zero tess edge index hdist) habs
  obtain ⟨e1, e2, e3⟩ := reflect_unit cell.velocity _ hunit
  rw [ReverseNormalVelocity_velocity]
  refine ⟨e1, e2, ?_⟩
  have hv : (ReverseNormalVelocity abs (ReverseNormalVelocity abs cell edge index tess)
      edge index tess).velocity = cell.velocity := by
    rw [ReverseNormalVelocity_velocity, ReverseNormalVelocity_velocity]
    exact e3
  cases hc : cell with
  | mk density pressure velocity tracers =>
    rw [hc] at hv
    simp only [ReverseNormalVelocity] at hv ⊢
    rw [ComputationalCell.mk.injEq]
    exact ⟨rfl, rfl, hv, rfl⟩

/-- Instance of C20: over the rational numbers, the velocity `(2, 1)` at the wall edge of
the example, for which five is the squared speed before and after; over the real numbers,
with `abs` the Euclidean length, the same cell at the diagonal edge, whose length is the
square root of 2. -/
theorem reverseNormalVelocity_isometry_involution_witness :
    (ReverseNormalVelocity rationalLength ⟨1, 3, ⟨2, 1⟩, [("a", 5)]⟩
          ⟨(⟨1, -1⟩, ⟨1, 1⟩), (1, 0)⟩ 1 wallTessellation = ⟨1, 3, ⟨-2, 1⟩, [("a", 5)]⟩ ∧
      ReverseNormalVelocity rationalLength
          (ReverseNormalVelocity rationalLength ⟨1, 3, ⟨2, 1⟩, [("a", 5)]⟩
            ⟨(⟨1, -1⟩, ⟨1, 1⟩), (1, 0)⟩ 1 wallTessellation)
          ⟨(⟨1, -1⟩, ⟨1, 1⟩), (1, 0)⟩ 1 wallTessellation = ⟨1, 3, ⟨2, 1⟩, [("a", 5)]⟩) ∧
      ScalarProd
          (ReverseNormalVelocity (fun d : Vector2D ℝ => Real.sqrt (ScalarProd d d))
            ⟨1, 3, ⟨2, 1⟩, []⟩ ⟨(⟨1, 0⟩, ⟨0, 1⟩), (1, 0)⟩ 1 diagonalTessellation).velocity
          (ReverseNormalVelocity (fun d : Vector2D ℝ => Real.sqrt (ScalarProd d d))
            ⟨1, 3, ⟨2, 1⟩, []⟩ ⟨(⟨1, 0⟩, ⟨0, 1⟩), (1, 0)⟩ 1 diagonalTessellation).velocity =
        ScalarProd (⟨2, 1⟩ : Vector2D ℝ) ⟨2, 1⟩ ∧
      ReverseNormalVelocity (fun d : Vector2D ℝ => Real.sqrt (ScalarProd d d))
          (ReverseNormalVelocity (fun d : Vector2D ℝ => Real.sqrt (ScalarProd d d))
            ⟨1, 3, ⟨2, 1⟩, []⟩ ⟨(⟨1, 0⟩, ⟨0, 1⟩), (1, 0)⟩ 1 diagonalTessellation)
          ⟨(⟨1, 0⟩, ⟨0, 1⟩), (1, 0)⟩ 1 diagonalTessellation = ⟨1, 3, ⟨2, 1⟩, []⟩ :=
  ⟨⟨by decide!,
    (reverseNormalVelocity_isometry_involution rationalLength ⟨1, 3, ⟨2, 1⟩, [("a", 5)]⟩
      ⟨(⟨1, -1⟩, ⟨1, 1⟩), (1, 0)⟩ 1 wallTessellation (by decide!) (by decide!)).2.2⟩,
    (reverseNormalVelocity_isometry_involution
      (fun d : Vector2D ℝ => Real.sqrt (ScalarProd d d)) ⟨1, 3, ⟨2, 1⟩, []⟩
      ⟨(⟨1, 0⟩, ⟨0, 1⟩), (1, 0)⟩ 1 diagonalTessellation (by simp [diagonalTessellation])
      (Real.mul_self_sqrt (add_nonneg (mul_self_nonneg _) (mul_self_nonneg _)))).1,
    (reverseNormalVelocity_isometry_involution
      (fun d : Vector2D ℝ => Real.sqrt (ScalarProd d d)) ⟨1, 3, ⟨2, 1⟩, []⟩
      ⟨(⟨1, 0⟩, ⟨0, 1⟩), (1, 0)⟩ 1 diagonalTessellation (by simp [diagonalTessellation])
      (Real.mul_self_sqrt (add_nonneg (mul_self_nonneg _) (mul_self_nonneg _)))).2.2⟩

/-! ## `BinLogger::output`: the sequence written -/

theorem forLoop_append (g : Int → List Byte) (body : Int → List Byte → List Byte) :
    ∀ (count : Nat) (i : Int) (fh : List Byte),
      (∀ k : Nat, k < count → ∀ fh, body (i + k) fh = fh ++ g (i + k)) →
        forLoop body count i fh =
          fh ++ (List.range count).flatMap fun k => g (i + k) := by
  intro count
  induction count with
  | zero => intro i fh _; simp [forLoop]
  | succ n ih =>
    intro i fh hbody
    have h0 := hbody 0 (Nat.succ_pos n) fh
    simp only [Nat.cast_zero, add_zero] at h0
    have hstep : ∀ k : Nat, k < n → ∀ fh, body (i + 1 + k) fh = fh ++ g (i + 1 + k) := by
      intro k hk fh'
      have := hbody (k + 1) (Nat.succ_lt_succ hk) fh'
      simp only [Nat.cast_add, Nat.cast_one] at this
      rw [show i + 1 + (k : Int) = i + ((k : Int) + 1) by ring]
      exact this
    rw [forLoop, ih _ _ hstep, h0, List.range_succ_eq_map, List.flatMap_cons,
      List.flatMap_map, List.append_assoc]
    congr 2
    · simp
    · apply List.flatMap_congr
      intro k _
      simp only [Function.comp, Nat.succ_eq_add_one, Nat.cast_add, Nat.cast_one]
      congr 1
      ring

theorem forInt_append (g : Int → List Byte) (body : Int → List Byte → List Byte)
    (n : Int) (fh : List Byte)
    (hbody : ∀ k : Nat, k < n.toNat → ∀ fh, body k fh = fh ++ g k) :
    forInt n body fh = fh ++ (List.range n.toNat).flatMap fun k => g k := by
  unfold forInt
  rw [forLoop_append g body n.toNat 0 fh (fun k hk fh' => by
    rw [zero_add]; exact hbody k hk fh')]
  congr 1
  apply List.flatMap_congr
  intro k _
  rw [zero_add]

theorem map_getD_range {α : Type} (d : α) :
    ∀ l : List α, (List.range l.length).map (fun k => l.getD k d) = l := by
  intro l
  induction l with
  | nil => rfl
  | cons a l ih =>
    rw [List.length_cons, List.range_succ_eq_map, List.map_cons, List.map_map]
    simp only [List.getD_cons_zero, Function.comp_def, List.getD_cons_succ]
    rw [ih]

theorem toInt_of_lt (n : Nat) (h : n < 2 ^ 31) : toInt n = n := by
  unfold toInt
  omega

theorem toSizeT_natCast (k : Nat) (h : k < 2 ^ 64) : toSizeT (k : Int) = k := by
  unfold toSizeT
  omega

/-- The bytes written for the edge-index list of one point. -/
theorem cellEdges_bytes (rep : Representation) (indices : List Int)
    (h : indices.length < 2 ^ 31) (fh : List Byte) :
    forInt (toInt indices.length)
        (fun j fh => binary_write_single_int rep (indices.getD (toSizeT j) 0) fh)
        (binary_write_single_int rep (toInt indices.length) fh) =
      fh ++ (Item.int indices.length :: indices.map Item.int).flatMap (Item.bytes rep) := by
  rw [forInt_append (fun j => rep.intBytes (indices.getD (toSizeT j) 0))
    (fun j fh => binary_write_single_int rep (indices.getD (toSizeT j) 0) fh) _ _
    (fun _ _ _ => rfl), toInt_of_lt _ h, Int.toNat_ofNat]
  have e : ((List.range indices.length).flatMap fun k : Nat =>
      rep.intBytes (indices.getD (toSizeT (k : Int)) 0)) =
        (indices.map Item.int).flatMap (Item.bytes rep) := by
    rw [List.flatMap_map]
    conv_rhs => rw [← map_getD_range (0 : Int) indices, List.flatMap_map]
    apply List.flatMap_congr
    intro k hk
    have hk' : k < 2 ^ 64 := by
      have := List.mem_range.mp hk
      omega
    simp only [Function.comp, Item.bytes, toSizeT_natCast k hk']
  rw [e]
  simp [binary_write_single_int, Item.bytes]

/-- C14: for every tessellation, with `E` edges and `P` points, whose edge-index lists
have lengths that are `int` values (below `2 ^ 31`), `BinLogger::output` writes exactly
the bytes of this sequence: `E` as an int; for each edge in index order `first.x` then
`second.x` as doubles; for each edge `first.y` then `second.y` as doubles; for each edge
`neighbors.first` then `neighbors.second` as ints; `P` as an int; for each point in index
order `x` then `y` as doubles; for each point in index order the length of its edge-index
list as an int followed by those edge indices as ints, in list order. -/
theorem binLogger_output_sequence (rep : Representation) (v : Tessellation ℚ)
    (hlen : ∀ i : Nat, i < v.GetPointNo.toNat → (v.GetCellEdges i).length < 2 ^ 31) :
    BinLogger.output rep v =
      ([Item.int v.GetTotalSidesNumber] ++
        ((List.range v.GetTotalSidesNumber.toNat).map fun i : Nat => v.GetEdge i).flatMap
          (fun e => [Item.double e.vertices.1.x, Item.double e.vertices.2.x]) ++
        ((List.range v.GetTotalSidesNumber.toNat).map fun i : Nat => v.GetEdge i).flatMap
          (fun e => [Item.double e.vertices.1.y, Item.double e.vertices.2.y]) ++
        ((List.range v.GetTotalSidesNumber.toNat).map fun i : Nat => v.GetEdge i).flatMap
          (fun e => [Item.int e.neighbors.1, Item.int e.neighbors.2]) ++
        [Item.int v.GetPointNo] ++
        ((List.range v.GetPointNo.toNat).map fun i : Nat => v.GetMeshPoint i).flatMap
          (fun p => [Item.double p.x, Item.double p.y]) ++
        ((List.range v.GetPointNo.toNat).map fun i : Nat => v.GetCellEdges i).flatMap
          (fun l => Item.int l.length :: l.map Item.int)).flatMap (Item.bytes rep) := by
  unfold BinLogger.output
  simp only
  rw [forInt_append
      (fun i => (Item.int (v.GetCellEdges i).length ::
        (v.GetCellEdges i).map Item.int).flatMap (Item.bytes rep))
      (fun i fh =>
        forInt (toInt (v.GetCellEdges i).length)
          (fun j fh => binary_write_single_int rep ((v.GetCellEdges i).getD (toSizeT j) 0) fh)
          (binary_write_single_int rep (toInt (v.GetCellEdges i).length) fh)) _ _
      (fun k hk fh => cellEdges_bytes rep _ (hlen k hk) fh),
    forInt_append (fun i => rep.doubleBytes (v.GetMeshPoint i).x ++
        rep.doubleBytes (v.GetMeshPoint i).y)
      (fun i fh => binary_write_single_double rep (v.GetMeshPoint i).y
        (binary_write_single_double rep (v.GetMeshPoint i).x fh)) _ _
      (fun _ _ _ => by simp [binary_write_single_double]),
    forInt_append (fun i => rep.intBytes (v.GetEdge i).neighbors.1 ++
        rep.intBytes (v.GetEdge i).neighbors.2)
      (fun i fh => binary_write_single_int rep (v.GetEdge i).neighbors.2
        (binary_write_single_int rep (v.GetEdge i).neighbors.1 fh)) _ _
      (fun _ _ _ => by simp [binary_write_single_int]),
    forInt_append (fun i => rep.doubleBytes (v.GetEdge i).vertices.1.y ++
        rep.doubleBytes (v.GetEdge i).vertices.2.y)
      (fun i fh => binary_write_single_double rep (v.GetEdge i).vertices.2.y
        (binary_write_single_double rep (v.GetEdge i).vertices.1.y fh)) _ _
      (fun _ _ _ => by simp [binary_write_single_double]),
    forInt_append (fun i => rep.doubleBytes (v.GetEdge i).vertices.1.x ++
        rep.doubleBytes (v.GetEdge i).vertices.2.x)
      (fun i fh => binary_write_single_double rep (v.GetEdge i).vertices.2.x
        (binary_write_single_double rep (v.GetEdge i).vertices.1.x fh)) _ _
      (fun _ _ _ => by simp [binary_write_single_double])]
  simp only [binary_write_single_int, List.nil_append, List.flatMap_append,
    List.flatMap_cons, List.flatMap_nil, List.append_nil, List.flatMap_map, Item.bytes,
    List.flatMap_assoc, List.append_assoc]

/-- Instance of C14: the tessellation with one edge and one point. -/
theorem binLogger_output_sequence_witness :
    BinLogger.output exampleRepresentation oneEdgeTessellation =
      [Item.int 1, Item.double 1, Item.double 1, Item.double (-1), Item.double 1,
        Item.int 0, Item.int 1, Item.int 1, Item.double 3, Item.double 4, Item.int 1,
        Item.int 0].flatMap (Item.bytes exampleRepresentation) :=
  (binLogger_output_sequence exampleRepresentation oneEdgeTessellation
    (fun _ _ => Nat.one_lt_two_pow (by decide))).trans (by decide!)

/-! ## `BinLogger::read` -/

/-- C15 fails on the code: for the tessellation with one edge, whose neighbours are `0`
and `1`, and the one point `(3, 4)`, `read` applied to the bytes that `output` wrote
returns no point.  After the `4 * E` coordinates it reads the first neighbour index of
edge `0` where the point count stands two ints later.  For the tessellation without
edges the points come back. -/
theorem binLogger_read_after_output_one_edge :
    BinLogger.read exampleRepresentation
          (some (BinLogger.output exampleRepresentation oneEdgeTessellation)) = .ok [] ∧
      oneEdgeTessellation.points = [⟨3, 4⟩] ∧
      BinLogger.read.secondCount exampleRepresentation
          (BinLogger.output exampleRepresentation oneEdgeTessellation) =
        (oneEdgeTessellation.GetEdge 0).neighbors.1 ∧
      BinLogger.read exampleRepresentation
          (some (BinLogger.output exampleRepresentation noEdgeTessellation)) =
        .ok noEdgeTessellation.points := by
  refine ⟨?_, ?_, ?_, ?_⟩ <;> decide!

theorem length_forLoop_readPoint (rep : Representation) :
    ∀ (count : Nat) (i : Int) (state : List (Vector2D ℚ) × IStream),
      (forLoop (BinLogger.read.readPoint rep) count i state).1.length = state.1.length := by
  intro count
  induction count with
  | zero => intro i state; rfl
  | succ n ih =>
    intro i state
    rw [forLoop, ih]
    simp [BinLogger.read.readPoint]

/-- C16, as the code has it: `BinLogger::read` fails with a `UniversalError` exactly when
the file cannot be opened; when the file opens, holds at least the four bytes of a first
count `N1` with `4 * N1` in the range of `int`, and the count `N` in effect after the
second read is, as a `size_t`, at most `max_size()` (it is not negative), `read` returns
a vector of `N` points. -/
theorem binLogger_read_error_iff_not_opened (rep : Representation)
    (file : Option (List Byte)) :
    ((∃ msg, BinLogger.read rep file = .error (Fault.universalError msg)) ↔ file = none) ∧
      ∀ content, file = some content → sizeofInt ≤ content.length →
        -(2 ^ 31) ≤ BinLogger.read.firstCount rep content * 4 →
        BinLogger.read.firstCount rep content * 4 < 2 ^ 31 →
        toSizeT (BinLogger.read.secondCount rep content) ≤ vectorMaxSize →
          ∃ res, BinLogger.read rep file = .ok res ∧
            res.length = toSizeT (BinLogger.read.secondCount rep content) := by
  constructor
  · constructor
    · rintro ⟨msg, h⟩
      cases file with
      | none => rfl
      | some content =>
        exfalso
        simp only [BinLogger.read] at h
        split at h
        · exact absurd h (by simp)
        · split at h
          · exact absurd h (by simp)
          · split at h
            · exact absurd h (by simp)
            · exact absurd h (by simp)
    · rintro rfl
      exact ⟨_, rfl⟩
  · rintro content rfl h4 hlo hhi hmax
    have h4' : ¬ content.length < sizeofInt := Nat.not_lt.mpr h4
    have hov : ¬ (BinLogger.read.firstCount rep content * 4 < -(2 ^ 31) ∨
        2 ^ 31 ≤ BinLogger.read.firstCount rep content * 4) := by
      rintro (h | h)
      · exact absurd hlo (not_le.mpr h)
      · exact absurd hhi (not_lt.mpr h)
    have hmax' : ¬ vectorMaxSize < toSizeT (BinLogger.read.secondCount rep content) :=
      Nat.not_lt.mpr hmax
    simp only [BinLogger.read, h4', hov, hmax', if_false]
    exact ⟨_, rfl, by rw [length_forLoop_readPoint, List.length_replicate]⟩

/-- Instance of C16 as amended: a file that holds the counts 0 and 2 and nothing else
gives two points (with the coordinates of their construction, zero). -/
theorem binLogger_read_error_iff_not_opened_witness :
    BinLogger.read exampleRepresentation
          (some (exampleRepresentation.intBytes 0 ++ exampleRepresentation.intBytes 2)) =
        .ok [⟨0, 0⟩, ⟨0, 0⟩] ∧
      ∃ res, BinLogger.read exampleRepresentation
            (some (exampleRepresentation.intBytes 0 ++ exampleRepresentation.intBytes 2)) =
          .ok res ∧
        res.length = toSizeT (BinLogger.read.secondCount exampleRepresentation
          (exampleRepresentation.intBytes 0 ++ exampleRepresentation.intBytes 2)) :=
  ⟨by decide!,
    (binLogger_read_error_iff_not_opened exampleRepresentation
      (some (exampleRepresentation.intBytes 0 ++ exampleRepresentation.intBytes 2))).2 _ rfl
      (by decide!) (by decide!) (by decide!) (by decide!)⟩

/-- C16 fails as stated: the file that holds the counts 0 and -1 opens, and `read`
neither returns a vector nor ends without an error: the constructor of the vector is
asked for `(size_t)-1` elements and raises its exception. -/
theorem binLogger_read_opened_file_raises :
    BinLogger.read exampleRepresentation
          (some (exampleRepresentation.intBytes 0 ++ exampleRepresentation.intBytes (-1))) =
        .error Fault.allocation ∧
      BinLogger.read.secondCount exampleRepresentation
          (exampleRepresentation.intBytes 0 ++ exampleRepresentation.intBytes (-1)) = -1 ∧
      ¬ ∃ res, BinLogger.read exampleRepresentation
          (some (exampleRepresentation.intBytes 0 ++ exampleRepresentation.intBytes (-1))) =
        .ok res := by
  have h : BinLogger.read exampleRepresentation
      (some (exampleRepresentation.intBytes 0 ++ exampleRepresentation.intBytes (-1))) =
        .error Fault.allocation := by decide!
  refine ⟨h, by decide!, ?_⟩
  rintro ⟨res, hres⟩
  rw [h] at hres
  exact absurd hres (by simp)

/-! ## Conservation in the conservative refine and remove pass -/

theorem totalOf_set (quantity : Extensive → ℚ) (v : Extensive) :
    ∀ (l : List Extensive) (j : Nat) (e : Extensive), l[j]? = some e →
      totalOf quantity (l.set j v) = totalOf quantity l - quantity e + quantity v := by
  intro l
  induction l with
  | nil => intro j e h; simp at h
  | cons a l ih =>
    intro j e h
    cases j with
    | zero =>
      simp only [List.getElem?_cons_zero, Option.some.injEq] at h
      subst h
      simp only [totalOf, List.set_cons_zero, List.map_cons, List.sum_cons]
      ring
    | succ j =>
      simp only [List.getElem?_cons_succ] at h
      have := ih j e h
      simp only [totalOf, List.set_cons_succ, List.map_cons, List.sum_cons] at this ⊢
      rw [this]
      ring

theorem takeFrom_conserves (quantity : Extensive → ℚ) (hq : IsAdditive quantity)
    (state : List Extensive × Extensive) (source : Nat × ℚ) :
    totalOf quantity (ConservativeAMR.takeFrom state source).1 +
        quantity (ConservativeAMR.takeFrom state source).2 =
      totalOf quantity state.1 + quantity state.2 ∧
    (ConservativeAMR.takeFrom state source).1.length = state.1.length := by
  unfold ConservativeAMR.takeFrom
  cases h : state.1[source.1]? with
  | none => exact ⟨rfl, rfl⟩
  | some e =>
    simp only
    rw [totalOf_set quantity _ _ _ e h, hq.2.1, hq.2.2, List.length_set]
    exact ⟨by ring, rfl⟩

theorem foldl_takeFrom_conserves (quantity : Extensive → ℚ) (hq : IsAdditive quantity)
    (sources : List (Nat × ℚ)) :
    ∀ state : List Extensive × Extensive,
      totalOf quantity (sources.foldl ConservativeAMR.takeFrom state).1 +
          quantity (sources.foldl ConservativeAMR.takeFrom state).2 =
        totalOf quantity state.1 + quantity state.2 ∧
      (sources.foldl ConservativeAMR.takeFrom state).1.length = state.1.length := by
  induction sources with
  | nil => intro state; exact ⟨rfl, rfl⟩
  | cons src rest ih =>
    intro state
    rw [List.foldl_cons]
    obtain ⟨h1, h2⟩ := ih (ConservativeAMR.takeFrom state src)
    obtain ⟨h3, h4⟩ := takeFrom_conserves quantity hq state src
    exact ⟨h1.trans h3, h2.trans h4⟩

theorem insertPoint_conserves (quantity : Extensive → ℚ) (hq : IsAdditive quantity)
    (policy : AMRPolicy) (s : AMRState) (p : NewPoint) :
    totalOf quantity (ConservativeAMR.insertPoint policy s p).extensives =
        totalOf quantity s.extensives ∧
      (ConservativeAMR.insertPoint policy s p).extensives.length =
        s.extensives.length + 1 ∧
      (ConservativeAMR.insertPoint policy s p).cells.length = s.cells.length + 1 ∧
      (ConservativeAMR.insertPoint policy s p).pointCount = s.pointCount + 1 := by
  obtain ⟨h1, h2⟩ := foldl_takeFrom_conserves quantity hq p.sources
    (s.extensives, Extensive.zero)
  simp only [hq.1, add_zero] at h1
  refine ⟨?_, ?_, ?_, rfl⟩
  · simp only [ConservativeAMR.insertPoint, totalOf, List.map_append, List.sum_append,
      List.map_cons, List.map_nil, List.sum_cons, List.sum_nil, add_zero]
    exact h1
  · simp only [ConservativeAMR.insertPoint, List.length_append, List.length_singleton, h2]
  · simp only [ConservativeAMR.insertPoint, List.length_append, List.length_singleton]

theorem foldl_insertPoint_conserves (quantity : Extensive → ℚ) (hq : IsAdditive quantity)
    (policy : AMRPolicy) (points : List NewPoint) :
    ∀ s : AMRState,
      totalOf quantity (points.foldl (ConservativeAMR.insertPoint policy) s).extensives =
          totalOf quantity s.extensives ∧
        (s.cells.length = s.pointCount → s.extensives.length = s.pointCount →
          (points.foldl (ConservativeAMR.insertPoint policy) s).cells.length =
              (points.foldl (ConservativeAMR.insertPoint policy) s).pointCount ∧
            (points.foldl (ConservativeAMR.insertPoint policy) s).extensives.length =
              (points.foldl (ConservativeAMR.insertPoint policy) s).pointCount) := by
  induction points with
  | nil => intro s; exact ⟨rfl, fun h1 h2 => ⟨h1, h2⟩⟩
  | cons p rest ih =>
    intro s
    rw [List.foldl_cons]
    obtain ⟨h1, h2⟩ := ih (ConservativeAMR.insertPoint policy s p)
    obtain ⟨h3, h4, h5, h6⟩ := insertPoint_conserves quantity hq policy s p
    refine ⟨h1.trans h3, fun hc he => h2 ?_ ?_⟩
    · rw [h5, h6, hc]
    · rw [h4, h6, he]

/-! ### The remove phase -/

theorem mergeInto_length (l : List Extensive) (rm : Nat × Nat) :
    (ConservativeAMR.mergeInto l rm).length = l.length := by
  unfold ConservativeAMR.mergeInto
  split
  · exact List.length_set _ _ _
  · rfl

theorem mergeInto_getElem? (l : List Extensive) (rm : Nat × Nat) (i : Nat)
    (h : i ≠ rm.2) : (ConservativeAMR.mergeInto l rm)[i]? = l[i]? := by
  unfold ConservativeAMR.mergeInto
  split
  · exact List.getElem?_set_ne (fun e => h e.symm)
  · rfl

theorem mergeInto_total (quantity : Extensive → ℚ) (hq : IsAdditive quantity)
    (l : List Extensive) (rm : Nat × Nat) (h1 : rm.1 < l.length) (h2 : rm.2 < l.length) :
    totalOf quantity (ConservativeAMR.mergeInto l rm) =
      totalOf quantity l + quantity (l.getD rm.1 Extensive.zero) := by
  unfold ConservativeAMR.mergeInto
  rw [List.getElem?_eq_getElem h1, List.getElem?_eq_getElem h2]
  simp only
  rw [totalOf_set quantity _ _ _ _ (List.getElem?_eq_getElem h2), hq.2.1,
    List.getD_eq_getElem _ _ h1]
  ring

theorem foldl_mergeInto (quantity : Extensive → ℚ) (hq : IsAdditive quantity)
    (removed : List Nat) (removals : List (Nat × Nat)) :
    ∀ l : List Extensive,
      (∀ rm ∈ removals, rm.1 ∈ removed ∧ rm.1 < l.length ∧ rm.2 < l.length ∧
        rm.2 ∉ removed) →
      (removals.foldl ConservativeAMR.mergeInto l).length = l.length ∧
        (∀ i ∈ removed,
          (removals.foldl ConservativeAMR.mergeInto l).getD i Extensive.zero =
            l.getD i Extensive.zero) ∧
        totalOf quantity (removals.foldl ConservativeAMR.mergeInto l) =
          totalOf quantity l +
            (removals.map fun rm => quantity (l.getD rm.1 Extensive.zero)).sum := by
  induction removals with
  | nil => intro l _; simp
  | cons rm rest ih =>
    intro l h
    obtain ⟨hin, h1, h2, hout⟩ := h rm (List.mem_cons_self _ _)
    have hkeep : ∀ i ∈ removed,
        (ConservativeAMR.mergeInto l rm).getD i Extensive.zero =
          l.getD i Extensive.zero := by
      intro i hi
      have hne : i ≠ rm.2 := fun e => hout (e ▸ hi)
      rw [List.getD_eq_getElem?_getD, List.getD_eq_getElem?_getD,
        mergeInto_getElem? l rm i hne]
    obtain ⟨e1, e2, e3⟩ := ih (ConservativeAMR.mergeInto l rm) (by
      intro q hq'
      obtain ⟨a, b, c, d⟩ := h q (List.mem_cons_of_mem _ hq')
      rw [mergeInto_length]
      exact ⟨a, b, c, d⟩)
    rw [List.foldl_cons]
    refine ⟨e1.trans (mergeInto_length l rm), fun i hi => (e2 i hi).trans (hkeep i hi), ?_⟩
    rw [e3, mergeInto_total quantity hq l rm h1 h2, List.map_cons, List.sum_cons]
    have hrest : (rest.map fun q =>
        quantity ((ConservativeAMR.mergeInto l rm).getD q.1 Extensive.zero)) =
          rest.map fun q => quantity (l.getD q.1 Extensive.zero) := by
      apply List.map_congr_left
      intro q hq'
      rw [hkeep q.1 (h q (List.mem_cons_of_mem _ hq')).1]
    rw [hrest]
    ring

theorem totalOf_eraseIndices (quantity : Extensive → ℚ) (removed : List Nat) :
    ∀ (l : List Extensive) (i : Nat),
      totalOf quantity (eraseIndices removed i l) =
        totalOf quantity l - removedTotal quantity removed i l := by
  intro l
  induction l with
  | nil => intro i; simp [eraseIndices, removedTotal, totalOf]
  | cons a l ih =>
    intro i
    have := ih (i + 1)
    unfold totalOf at this ⊢
    rw [eraseIndices, removedTotal]
    by_cases h : i ∈ removed
    · rw [if_pos h, if_pos h, this, List.map_cons, List.sum_cons]
      ring
    · rw [if_neg h, if_neg h, List.map_cons, List.sum_cons, this, List.map_cons,
        List.sum_cons]
      ring

theorem removedTotal_cons {α : Type} (quantity : α → ℚ) (r : Nat) (removed : List Nat)
    (hr : r ∉ removed) :
    ∀ (l : List α) (i : Nat),
      removedTotal quantity (r :: removed) i l =
        removedTotal quantity [r] i l + removedTotal quantity removed i l := by
  intro l
  induction l with
  | nil => intro i; simp [removedTotal]
  | cons a l ih =>
    intro i
    rw [removedTotal, removedTotal, removedTotal, ih]
    by_cases h1 : i = r
    · subst h1
      simp [hr]
      ring
    · by_cases h2 : i ∈ removed
      · simp [h1, h2]
        ring
      · simp [h1, h2]

theorem removedTotal_single_lt {α : Type} (quantity : α → ℚ) (r : Nat) :
    ∀ (l : List α) (i : Nat), r < i → removedTotal quantity [r] i l = 0 := by
  intro l
  induction l with
  | nil => intro i _; rfl
  | cons a l ih =>
    intro i h
    rw [removedTotal, ih (i + 1) (by omega)]
    have : i ≠ r := by omega
    simp [this]

theorem removedTotal_single {α : Type} (quantity : α → ℚ) (d : α) (r : Nat) :
    ∀ (l : List α) (i : Nat), i ≤ r → r < i + l.length →
      removedTotal quantity [r] i l = quantity (l.getD (r - i) d) := by
  intro l
  induction l with
  | nil => intro i h1 h2; simp at h2; omega
  | cons a l ih =>
    intro i h1 h2
    rw [removedTotal]
    by_cases h : i = r
    · subst h
      rw [removedTotal_single_lt quantity i l (i + 1) (by omega)]
      simp
    · have hlt : i + 1 ≤ r := by omega
      rw [ih (i + 1) hlt (by simp at h2; omega)]
      have hsub : r - i = (r - (i + 1)) + 1 := by omega
      rw [hsub, List.getD_cons_succ]
      simp [h]

theorem removedTotal_nodup {α : Type} (quantity : α → ℚ) (d : α) (l : List α) :
    ∀ removed : List Nat, removed.Nodup → (∀ r ∈ removed, r < l.length) →
      removedTotal quantity removed 0 l = (removed.map fun r => quantity (l.getD r d)).sum := by
  intro removed
  induction removed with
  | nil =>
    intro _ _
    have : ∀ (l : List α) (i : Nat), removedTotal quantity [] i l = 0 := by
      intro l
      induction l with
      | nil => intro i; rfl
      | cons a l ih => intro i; rw [removedTotal, ih]; simp
    rw [this]
    rfl
  | cons r rest ih =>
    intro hnd hlt
    obtain ⟨hr, hrest⟩ := List.nodup_cons.mp hnd
    rw [removedTotal_cons quantity r rest hr, ih hrest
      (fun q hq => hlt q (List.mem_cons_of_mem _ hq)),
      removedTotal_single quantity d r l 0 (Nat.zero_le _)
        (by have := hlt r (List.mem_cons_self _ _); omega),
      List.map_cons, List.sum_cons, Nat.sub_zero]

theorem length_eraseIndices {α β : Type} (removed : List Nat) :
    ∀ (l : List α) (m : List β) (i : Nat), l.length = m.length →
      (eraseIndices removed i l).length = (eraseIndices removed i m).length := by
  intro l
  induction l with
  | nil =>
    intro m i h
    cases m with
    | nil => rfl
    | cons b m => simp at h
  | cons a l ih =>
    intro m i h
    cases m with
    | nil => simp at h
    | cons b m =>
      have hl : l.length = m.length := by simpa using h
      rw [eraseIndices, eraseIndices]
      split
      · exact ih m (i + 1) hl
      · simp only [List.length_cons, ih m (i + 1) hl]

theorem isAdditive_mass : IsAdditive Extensive.mass :=
  ⟨rfl, fun _ _ => rfl, fun _ _ => rfl⟩

theorem isAdditive_momentum_x : IsAdditive fun e => e.momentum.x :=
  ⟨rfl, fun _ _ => rfl, fun _ _ => rfl⟩

theorem isAdditive_momentum_y : IsAdditive fun e => e.momentum.y :=
  ⟨rfl, fun _ _ => rfl, fun _ _ => rfl⟩

theorem isAdditive_energy : IsAdditive Extensive.energy :=
  ⟨rfl, fun _ _ => rfl, fun _ _ => rfl⟩

theorem refine_conserves (quantity : Extensive → ℚ) (hq : IsAdditive quantity)
    (policy : AMRPolicy) (s : AMRState) (hext : s.extensives.length = s.pointCount)
    (hcells : s.cells.length = s.pointCount) :
    totalOf quantity (ConservativeAMR.UpdateCellsRefine policy s).extensives =
        totalOf quantity s.extensives ∧
      (ConservativeAMR.UpdateCellsRefine policy s).cells.length =
        (ConservativeAMR.UpdateCellsRefine policy s).pointCount ∧
      (ConservativeAMR.UpdateCellsRefine policy s).extensives.length =
        (ConservativeAMR.UpdateCellsRefine policy s).pointCount := by
  obtain ⟨h1, h2⟩ := foldl_insertPoint_conserves quantity hq policy (policy.toRefine s) s
  exact ⟨h1, h2 hcells hext⟩

/-! ### The removal set -/

theorem firstEntries_nodup {α : Type} :
    ∀ l : List (Nat × α), ((firstEntries l).map Prod.fst).Nodup := by
  intro l
  induction l with
  | nil => exact List.nodup_nil
  | cons c rest ih =>
    rw [firstEntries, List.map_cons, List.nodup_cons]
    constructor
    · intro h
      obtain ⟨d, hd, hk⟩ := List.mem_map.mp h
      have hne := (List.mem_filter.mp hd).2
      simp only [decide_eq_true_eq] at hne
      exact hne hk
    · exact ih.sublist ((List.filter_sublist _).map Prod.fst)

theorem firstEntries_subset {α : Type} :
    ∀ (l : List (Nat × α)) (c : Nat × α), c ∈ firstEntries l → c ∈ l := by
  intro l
  induction l with
  | nil => intro c h; exact h
  | cons a rest ih =>
    intro c h
    rw [firstEntries] at h
    rcases List.mem_cons.mp h with h | h
    · rw [h]; exact List.mem_cons_self _ _
    · exact List.mem_cons_of_mem _ (ih c (List.mem_filter.mp h).1)

/-- The removal set after the resolution of conflicts has no repetition and holds points
of the tessellation only. -/
theorem removalSet_spec (policy : AMRPolicy) (s : AMRState) :
    ((ConservativeAMR.resolveConflicts policy s
        (ConservativeAMR.candidates policy s)).map Prod.fst).Nodup ∧
      ∀ r ∈ (ConservativeAMR.resolveConflicts policy s
          (ConservativeAMR.candidates policy s)).map Prod.fst, r < s.pointCount := by
  constructor
  · exact (firstEntries_nodup _).sublist ((List.filter_sublist _).map Prod.fst)
  · intro r hr
    obtain ⟨c, hc, rfl⟩ := List.mem_map.mp hr
    have h1 := firstEntries_subset _ c (List.mem_filter.mp hc).1
    have h2 := (List.mem_filter.mp h1).2
    simp only [decide_eq_true_eq] at h2
    exact h2

theorem map_fst_filterMap_sublist (f : Nat → Option Nat) :
    ∀ l : List Nat,
      ((l.filterMap fun r => (f r).map fun n => (r, n)).map Prod.fst).Sublist l := by
  intro l
  induction l with
  | nil => exact List.Sublist.slnil
  | cons r l ih =>
    rw [List.filterMap_cons]
    cases f r with
    | none => exact List.Sublist.cons _ ih
    | some n => exact List.cons_sublist_cons.mpr ih

/-- The removals of a pass: no index is removed twice, every removed index and every
designated neighbour is a point of the tessellation, and no designated neighbour is
removed. -/
theorem removals_spec (policy : AMRPolicy) (s : AMRState) :
    ((ConservativeAMR.removals policy s).map Prod.fst).Nodup ∧
      ∀ rm ∈ ConservativeAMR.removals policy s,
        rm.1 < s.pointCount ∧ rm.2 < s.pointCount ∧
          rm.2 ∉ (ConservativeAMR.removals policy s).map Prod.fst := by
  obtain ⟨hnd, hlt⟩ := removalSet_spec policy s
  have hsub := map_fst_filterMap_sublist
    (ConservativeAMR.designatedNeighbor policy s
      ((ConservativeAMR.resolveConflicts policy s
        (ConservativeAMR.candidates policy s)).map Prod.fst))
    ((ConservativeAMR.resolveConflicts policy s
      (ConservativeAMR.candidates policy s)).map Prod.fst)
  refine ⟨hnd.sublist hsub, fun rm hrm => ?_⟩
  obtain ⟨r, hr, hd⟩ := List.mem_filterMap.mp hrm
  cases hn : ConservativeAMR.designatedNeighbor policy s
      ((ConservativeAMR.resolveConflicts policy s
        (ConservativeAMR.candidates policy s)).map Prod.fst) r with
  | none => rw [hn] at hd; exact absurd hd (by simp)
  | some n =>
    rw [hn] at hd
    simp only [Option.map_some', Option.some.injEq] at hd
    subst hd
    have hp := List.find?_some hn
    simp only [Bool.and_eq_true, decide_eq_true_eq, Bool.not_eq_true',
      List.contains_eq_any_beq, List.any_eq_false, beq_iff_eq] at hp
    refine ⟨hlt r hr, hp.1, fun hmem => ?_⟩
    exact hp.2 n (hsub.subset hmem) rfl

/-- The pass conserves every additive quantity. -/
theorem pass_conserves (quantity : Extensive → ℚ) (hq : IsAdditive quantity)
    (policy : AMRPolicy) (s : AMRState) (hext : s.extensives.length = s.pointCount)
    (hcells : s.cells.length = s.pointCount) :
    totalOf quantity (ConservativeAMR.UpdateCellsRemove policy
        (ConservativeAMR.UpdateCellsRefine policy s)).extensives =
      totalOf quantity s.extensives := by
  obtain ⟨href, _, hlen2⟩ := refine_conserves quantity hq policy s hext hcells
  rw [← href]
  generalize ConservativeAMR.UpdateCellsRefine policy s = s1 at hlen2 ⊢
  obtain ⟨hnodup, hvalid⟩ := removals_spec policy s1
  obtain ⟨m1, m2, m3⟩ := foldl_mergeInto quantity hq
    ((ConservativeAMR.removals policy s1).map Prod.fst)
    (ConservativeAMR.removals policy s1) s1.extensives (by
      intro rm hrm
      obtain ⟨a, b, c⟩ := hvalid rm hrm
      rw [hlen2]
      exact ⟨List.mem_map_of_mem _ hrm, a, b, c⟩)
  simp only [ConservativeAMR.UpdateCellsRemove]
  rw [totalOf_eraseIndices, removedTotal_nodup quantity Extensive.zero _ _ hnodup (by
      intro r hr
      obtain ⟨rm, hrm, rfl⟩ := List.mem_map.mp hr
      rw [m1, hlen2]
      exact (hvalid rm hrm).1), m3, List.map_map]
  have : ((ConservativeAMR.removals policy s1).map ((fun r =>
      quantity ((List.foldl ConservativeAMR.mergeInto s1.extensives
        (ConservativeAMR.removals policy s1)).getD r Extensive.zero)) ∘ Prod.fst)) =
      (ConservativeAMR.removals policy s1).map fun rm =>
        quantity (s1.extensives.getD rm.1 Extensive.zero) := by
    apply List.map_congr_left
    intro rm hrm
    simp only [Function.comp]
    rw [m2 rm.1 (List.mem_map_of_mem _ hrm)]
  rw [this]
  ring

theorem pass_lengths (policy : AMRPolicy) (s : AMRState)
    (hext : s.extensives.length = s.pointCount) (hcells : s.cells.length = s.pointCount) :
    (ConservativeAMR.UpdateCellsRemove policy
        (ConservativeAMR.UpdateCellsRefine policy s)).cells.length =
      (ConservativeAMR.UpdateCellsRemove policy
        (ConservativeAMR.UpdateCellsRefine policy s)).pointCount ∧
    (ConservativeAMR.UpdateCellsRemove policy
        (ConservativeAMR.UpdateCellsRefine policy s)).extensives.length =
      (ConservativeAMR.UpdateCellsRemove policy
        (ConservativeAMR.UpdateCellsRefine policy s)).pointCount := by
  obtain ⟨_, hc, he⟩ := refine_conserves Extensive.mass isAdditive_mass policy s hext hcells
  generalize ConservativeAMR.UpdateCellsRefine policy s = s1 at hc he ⊢
  simp only [ConservativeAMR.UpdateCellsRemove]
  constructor
  · exact length_eraseIndices _ _ _ 0 (by rw [hc, List.length_range])
  · refine length_eraseIndices _ _ _ 0 ?_
    have : ∀ (rs : List (Nat × Nat)) (l : List Extensive),
        (rs.foldl ConservativeAMR.mergeInto l).length = l.length := by
      intro rs
      induction rs with
      | nil => intro l; rfl
      | cons rm rs ih => intro l; rw [List.foldl_cons, ih, mergeInto_length]
    rw [this, he, List.length_range]

/-- C17, for the pass as the specification describes it (the removal selector returns
candidates with merits, conflicting pairs are resolved by merit, and a removed cell is
merged into its designated surviving neighbour): when `cells` and `extensives` have as
many entries as the tessellation has points, the sums over all cells of mass, of each
momentum component and of energy after `UpdateCellsRefine` followed by
`UpdateCellsRemove` equal the sums before the pass, and `cells` and `extensives` both
have as many entries as the tessellation has points afterwards. -/
theorem conservativeAMR_pass_conserves (policy : AMRPolicy) (s : AMRState)
    (hext : s.extensives.length = s.pointCount) (hcells : s.cells.length = s.pointCount) :
    totalOf Extensive.mass (ConservativeAMR.UpdateCellsRemove policy
          (ConservativeAMR.UpdateCellsRefine policy s)).extensives =
        totalOf Extensive.mass s.extensives ∧
      totalOf (fun e => e.momentum.x) (ConservativeAMR.UpdateCellsRemove policy
          (ConservativeAMR.UpdateCellsRefine policy s)).extensives =
        totalOf (fun e => e.momentum.x) s.extensives ∧
      totalOf (fun e => e.momentum.y) (ConservativeAMR.UpdateCellsRemove policy
          (ConservativeAMR.UpdateCellsRefine policy s)).extensives =
        totalOf (fun e => e.momentum.y) s.extensives ∧
      totalOf Extensive.energy (ConservativeAMR.UpdateCellsRemove policy
          (ConservativeAMR.UpdateCellsRefine policy s)).extensives =
        totalOf Extensive.energy s.extensives ∧
      (ConservativeAMR.UpdateCellsRemove policy
          (ConservativeAMR.UpdateCellsRefine policy s)).cells.length =
        (ConservativeAMR.UpdateCellsRemove policy
          (ConservativeAMR.UpdateCellsRefine policy s)).pointCount ∧
      (ConservativeAMR.UpdateCellsRemove policy
          (ConservativeAMR.UpdateCellsRefine policy s)).extensives.length =
        (ConservativeAMR.UpdateCellsRemove policy
          (ConservativeAMR.UpdateCellsRefine policy s)).pointCount :=
  ⟨pass_conserves _ isAdditive_mass policy s hext hcells,
    pass_conserves _ isAdditive_momentum_x policy s hext hcells,
    pass_conserves _ isAdditive_momentum_y policy s hext hcells,
    pass_conserves _ isAdditive_energy policy s hext hcells,
    pass_lengths policy s hext hcells⟩

/-- Instance of C17: three cells in a ring; cell 0 gives half of its content to a new
cell 3; of the adjacent removal candidates 1 and 2, with the merits 0.3 and 0.7, the
candidate 1 is dropped, and cell 2 is removed and merged into its neighbour 3.  The total
mass is 15 before and after, and three points remain. -/
theorem conservativeAMR_pass_conserves_witness :
    (exampleAMRState.extensives.length = exampleAMRState.pointCount ∧
        exampleAMRState.cells.length = exampleAMRState.pointCount) ∧
      ConservativeAMR.removals examplePolicy
          (ConservativeAMR.UpdateCellsRefine examplePolicy exampleAMRState) = [(2, 3)] ∧
      (ConservativeAMR.UpdateCellsRemove examplePolicy
          (ConservativeAMR.UpdateCellsRefine examplePolicy exampleAMRState)).extensives =
        [⟨2, ⟨1, 0⟩, 4, []⟩, ⟨6, ⟨0, 2⟩, 2, []⟩, ⟨7, ⟨6, 5⟩, 11, []⟩] ∧
      totalOf Extensive.mass exampleAMRState.extensives = 15 ∧
      (ConservativeAMR.UpdateCellsRemove examplePolicy
          (ConservativeAMR.UpdateCellsRefine examplePolicy exampleAMRState)).pointCount =
        3 ∧
      totalOf Extensive.mass (ConservativeAMR.UpdateCellsRemove examplePolicy
          (ConservativeAMR.UpdateCellsRefine examplePolicy exampleAMRState)).extensives =
        totalOf Extensive.mass exampleAMRState.extensives :=
  ⟨⟨by decide, by decide⟩, by decide!, by decide!, by decide!, by decide!,
    (conservativeAMR_pass_conserves examplePolicy exampleAMRState (by decide)
      (by decide)).1⟩

/-! ## Totality of `SplitCell` -/

theorem scan_considered_pos (cell : List Face) (f : Face) (hf : f ∈ cell)
    (hv : f.vertices ≠ []) : 0 < (SplitCell.scan cell).considered.length := by
  cases hvs : f.vertices with
  | nil => exact absurd hvs hv
  | cons v vs =>
    have hmem : v ∈ (SplitCell.scan cell).considered :=
      (scan_mem cell v).mpr
        (List.mem_flatMap.mpr ⟨f, hf, by rw [hvs]; exact List.mem_cons_self _ _⟩)
    exact List.length_pos_of_mem hmem

/-- C21: for every cell with at least one face in which every face has at least 3
vertices, `SplitCell` returns without a subscript outside a vertex list.  For every face
the bound `vertices.size() - 1` is the size less one (no wrap-around), so the loop over the
face makes `size - 2` iterations, and at every `i` from 1 below the bound the three
subscripts 0, `i` and `i + 1` are inside the vertex list.  The size of `considered`, by
which the centre is divided, is positive, as a `size_t` and as a `double`. -/
theorem splitCell_total (cell : List Face) (old : List Tetrahedron) (hcell : cell ≠ [])
    (h : ∀ f ∈ cell, 3 ≤ f.vertices.length) :
    (∃ ts, SplitCell cell old = .ok ts) ∧
      (∀ f ∈ cell, sizeSub1 f.vertices.length + 1 = f.vertices.length ∧
        sizeSub1 f.vertices.length - 1 = f.vertices.length - 2 ∧
        ∀ i : Nat, 1 ≤ i → i < sizeSub1 f.vertices.length →
          (f.vertices[0]?).isSome ∧ (f.vertices[i]?).isSome ∧
            (f.vertices[i + 1]?).isSome) ∧
      0 < (SplitCell.scan cell).considered.length ∧
      (((SplitCell.scan cell).considered.length : Nat) : ℚ) ≠ 0 := by
  have hpos : 0 < (SplitCell.scan cell).considered.length := by
    cases cell with
    | nil => exact absurd rfl hcell
    | cons f rest =>
      exact scan_considered_pos _ f (List.mem_cons_self _ _)
        (ne_nil_of_three_le _ (h f (List.mem_cons_self _ _)))
  refine ⟨⟨_, SplitCell_ok cell old fun f hf => ne_nil_of_three_le _ (h f hf)⟩, ?_, hpos,
    Nat.cast_ne_zero.mpr (Nat.pos_iff_ne_zero.mp hpos)⟩
  intro f hf
  have h3 := h f hf
  have hs : sizeSub1 f.vertices.length = f.vertices.length - 1 := by
    unfold sizeSub1
    rw [if_neg (by omega)]
  refine ⟨by omega, by omega, fun i h1 hi => ?_⟩
  rw [hs] at hi
  rw [List.getElem?_eq_getElem (show 0 < f.vertices.length by omega),
    List.getElem?_eq_getElem (show i < f.vertices.length by omega),
    List.getElem?_eq_getElem (show i + 1 < f.vertices.length by omega)]
  exact ⟨rfl, rfl, rfl⟩

/-- Instance of C21: a pentagon and a triangle that share an edge; the loop bounds are 4
and 2, and the centre is divided by the 6 distinct vertices. -/
theorem splitCell_total_witness :
    (pentagonAndTriangle ≠ [] ∧ ∀ f ∈ pentagonAndTriangle, 3 ≤ f.vertices.length) ∧
      (pentagonAndTriangle.map fun f => sizeSub1 f.vertices.length) = [4, 2] ∧
      (SplitCell.scan pentagonAndTriangle).considered.length = 6 ∧
      (∃ ts, SplitCell pentagonAndTriangle [] = .ok ts) ∧
      (∀ f ∈ pentagonAndTriangle, sizeSub1 f.vertices.length + 1 = f.vertices.length ∧
        sizeSub1 f.vertices.length - 1 = f.vertices.length - 2 ∧
        ∀ i : Nat, 1 ≤ i → i < sizeSub1 f.vertices.length →
          (f.vertices[0]?).isSome ∧ (f.vertices[i]?).isSome ∧
            (f.vertices[i + 1]?).isSome) ∧
      0 < (SplitCell.scan pentagonAndTriangle).considered.length ∧
      (((SplitCell.scan pentagonAndTriangle).considered.length : Nat) : ℚ) ≠ 0 :=
  ⟨⟨List.cons_ne_nil _ _, by decide⟩, by decide, by decide!,
    splitCell_total pentagonAndTriangle [] (List.cons_ne_nil _ _) (by decide)⟩

/-! ## The first outer edge with a ghost index keeps its entry -/

theorem FlatMap.find_of_mem {α : Type} (k : Nat) (v : α) :
    ∀ m : List (Nat × α), FlatMap.Sorted m → (k, v) ∈ m → FlatMap.find k m = some v := by
  intro m
  induction m with
  | nil => intro _ h; exact absurd h (List.not_mem_nil _)
  | cons e m ih =>
    intro hs hmem
    obtain ⟨k', v'⟩ := e
    have hs' := List.pairwise_cons.mp hs
    rw [FlatMap.find]
    rcases List.mem_cons.mp hmem with heq | hrest
    · rw [Prod.mk.injEq] at heq
      rw [if_pos heq.1, heq.2]
    · have hlt : k' < k := hs'.1 (k, v) hrest
      rw [if_neg (by omega)]
      exact ih hs'.2 hrest

theorem FlatMap.mem_of_find {α : Type} (k : Nat) (v : α) :
    ∀ m : List (Nat × α), FlatMap.find k m = some v → (k, v) ∈ m := by
  intro m
  induction m with
  | nil => intro h; simp [FlatMap.find] at h
  | cons e m ih =>
    intro h
    obtain ⟨k', v'⟩ := e
    rw [FlatMap.find] at h
    split at h
    · rename_i hk
      rw [hk, Option.some.inj h]
      exact List.mem_cons_self _ _
    · exact List.mem_cons_of_mem _ (ih h)

theorem RigidWallGenerator.loop_sorted (abs : Vector2D K → K) (tess : Tessellation K)
    (cells : List (ComputationalCell K)) :
    ∀ (l : List (Nat × Nat)) (res res' : List (Nat × ComputationalCell K)),
      FlatMap.Sorted res → RigidWallGenerator.loop abs tess cells l res = .ok res' →
        FlatMap.Sorted res' := by
  intro l
  induction l with
  | nil =>
    intro res res' hs h
    simp only [RigidWallGenerator.loop, Except.ok.injEq] at h
    rw [← h]; exact hs
  | cons q l ih =>
    intro res res' hs h
    rw [RigidWallGenerator.loop, RigidWallGenerator.step_eq] at h
    cases hq : RigidWallGenerator.ghostState abs tess cells q with
    | none => rw [hq] at h; exact absurd h (by simp)
    | some s =>
      rw [hq] at h
      exact ih _ _ (FlatMap.insert_sorted _ _ _ hs) h

/-- C22: let `p` be an entry of the list of outer edges that no earlier entry shares its
ghost index with, whatever the entries after it, and let every subscript of `cells` in the
loop be in range.  Then `operator()` returns a map in which the only value under the ghost
index of `p` is the state that the loop body computes for `p` (the one it inserts for `p`
into an empty map): entries listed after `p` with the same ghost index do not replace
it. -/
theorem rigidWall_first_listed_edge_kept (abs : Vector2D K → K)
    (GetOuterEdgesIndeces : Tessellation K → List (Nat × Nat)) (tess : Tessellation K)
    (cells : List (ComputationalCell K)) (time : K) (pre post : List (Nat × Nat))
    (p : Nat × Nat) (hlist : GetOuterEdgesIndeces tess = pre ++ p :: post)
    (hfirst : ∀ q ∈ pre,
      RigidWallGenerator.ghostIndex tess q ≠ RigidWallGenerator.ghostIndex tess p)
    (hrange : ∀ q ∈ GetOuterEdgesIndeces tess, RigidWallGenerator.InRange tess cells q) :
    ∃ res s,
      RigidWallGenerator.call abs GetOuterEdgesIndeces tess cells time = .ok res ∧
      RigidWallGenerator.step abs tess cells [] p =
        .ok [(RigidWallGenerator.ghostIndex tess p, s)] ∧
      FlatMap.find (RigidWallGenerator.ghostIndex tess p) res = some s ∧
      ∀ v, (RigidWallGenerator.ghostIndex tess p, v) ∈ res ↔ v = s := by
  obtain ⟨res, hres, hfind⟩ :=
    RigidWallGenerator.call_find abs GetOuterEdgesIndeces tess cells time hrange
  obtain ⟨s, hs⟩ := RigidWallGenerator.ghostState_isSome abs tess cells p
    (hrange p (by rw [hlist]; exact List.mem_append_right _ (List.mem_cons_self _ _)))
  have hsorted : FlatMap.Sorted res :=
    RigidWallGenerator.loop_sorted abs tess cells _ [] res List.Pairwise.nil hres
  have hkey : FlatMap.find (RigidWallGenerator.ghostIndex tess p) res = some s := by
    rw [hfind, hlist,
      RigidWallGenerator.firstState_append abs tess cells _ p post rfl pre hfirst, hs]
  refine ⟨res, s, hres, ?_, hkey, fun v => ⟨fun hv => ?_, fun hv => ?_⟩⟩
  · rw [RigidWallGenerator.step_eq, hs]
    rfl
  · have h1 := FlatMap.find_of_mem _ v res hsorted hv
    rw [hkey] at h1
    exact (Option.some.inj h1).symm
  · rw [hv]
    exact FlatMap.mem_of_find _ s res hkey

/-- Instance of C22: the edges 1 and 0 of the corner, listed in this order, both have the
ghost index 2.  Alone, edge 0 would give the state with velocity `(-2, 1)`; the map
returned holds under 2 the state of edge 1, with velocity `(5, -7)`. -/
theorem rigidWall_first_listed_edge_kept_witness :
    RigidWallGenerator.ghostIndex cornerTessellation (0, 1) =
        RigidWallGenerator.ghostIndex cornerTessellation (1, 1) ∧
      RigidWallGenerator.step rationalLength cornerTessellation
          [⟨1, 3, ⟨2, 1⟩, [("a", 5)]⟩, ⟨4, 6, ⟨5, 7⟩, []⟩] [] (0, 1) =
        .ok [(2, ⟨1, 3, ⟨-2, 1⟩, [("a", 5)]⟩)] ∧
      RigidWallGenerator.call rationalLength (fun _ => [(1, 1), (0, 1)]) cornerTessellation
          [⟨1, 3, ⟨2, 1⟩, [("a", 5)]⟩, ⟨4, 6, ⟨5, 7⟩, []⟩] 0 =
        .ok [(2, ⟨4, 6, ⟨5, -7⟩, []⟩)] ∧
      ∃ res s,
        RigidWallGenerator.call rationalLength (fun _ => [(1, 1), (0, 1)])
            cornerTessellation [⟨1, 3, ⟨2, 1⟩, [("a", 5)]⟩, ⟨4, 6, ⟨5, 7⟩, []⟩] 0 =
          .ok res ∧
        RigidWallGenerator.step rationalLength cornerTessellation
            [⟨1, 3, ⟨2, 1⟩, [("a", 5)]⟩, ⟨4, 6, ⟨5, 7⟩, []⟩] [] (1, 1) =
          .ok [(RigidWallGenerator.ghostIndex cornerTessellation (1, 1), s)] ∧
        FlatMap.find (RigidWallGenerator.ghostIndex cornerTessellation (1, 1)) res =
          some s ∧
        ∀ v, (RigidWallGenerator.ghostIndex cornerTessellation (1, 1), v) ∈ res ↔ v = s :=
  ⟨by decide!, by decide!, by decide!,
    rigidWall_first_listed_edge_kept rationalLength (fun _ => [(1, 1), (0, 1)])
      cornerTessellation [⟨1, 3, ⟨2, 1⟩, [("a", 5)]⟩, ⟨4, 6, ⟨5, 7⟩, []⟩] 0 [] [(0, 1)]
      (1, 1) rfl (by simp) (by decide!)⟩

end HujiRich
